import Mathlib

/-!
# CFB mode of libgcrypt (`cipher/cipher-cfb.c`)

A shallow embedding of `_gcry_cipher_cfb_encrypt` and `_gcry_cipher_cfb_decrypt`
and a verification of their contract.

Modelling conventions.

* A byte (`unsigned char`) is a `Nat`; `^` on bytes is `Nat.xor`, which maps
  bytes to bytes, so no reduction modulo 256 is needed.
* `inbuflen` (`unsigned int`), `blocksize` (`size_t`) and `c->unused` (`int`)
  are `Nat`.  Every subtraction of the source is modelled by the checked
  subtraction `usub`, which faults instead of wrapping; all other arithmetic of
  the source only produces values bounded by `inbuflen`.
* A buffer is a `List Nat`; the pointer `inbuf` is the offset `inp` into the
  input list, the pointer `ivp` is an `Int` offset into the register, and the
  bytes stored through `outbuf` are collected, in order, in `out`.
* Every dereference is checked: a function returns `none` when the C code would
  read or write out of bounds, when a subtraction would wrap, or when the
  `while` loop would not terminate.
-/

namespace CipherCfb

/-- Error code `GPG_ERR_BUFFER_TOO_SHORT` of libgpg-error. -/
def GPG_ERR_BUFFER_TOO_SHORT : Nat := 200

/-- An accelerator `c->bulk.cfb_enc` / `c->bulk.cfb_dec`: from the register, the
input at the current `inbuf` pointer and `nblocks`, the new register and the
bytes stored at the current `outbuf` pointer. -/
abbrev bulk_fn := List Nat → List Nat → Nat → List Nat × List Nat

/-- The part of `struct gcry_cipher_handle` used by CFB mode.  `encrypt` is
`c->cipher->encrypt` applied to the key context `&c->context.c`. -/
structure gcry_cipher_handle where
  /-- The block length `c->cipher->blocksize`. -/
  blocksize : Nat
  /-- The block primitive `c->cipher->encrypt (&c->context.c, dst, src)`. -/
  encrypt : List Nat → List Nat
  /-- The optional accelerator `c->bulk.cfb_enc`. -/
  cfb_enc : Option bulk_fn
  /-- The optional accelerator `c->bulk.cfb_dec`. -/
  cfb_dec : Option bulk_fn
  /-- The feedback register `c->u_iv.iv`. -/
  iv : List Nat
  /-- The saved register `c->lastiv`. -/
  lastiv : List Nat
  /-- The count `c->unused` of pending keystream bytes. -/
  unused : Nat

/-- The mutable variables of one call: the handle fields it writes, the local
`inbuflen`, the offset of the `inbuf` pointer, the bytes stored through
`outbuf`, and (ghost) the registers on which the block primitive was invoked. -/
structure cfb_frame where
  /-- The register `c->u_iv.iv`. -/
  iv : List Nat
  /-- The saved register `c->lastiv`. -/
  lastiv : List Nat
  /-- The count `c->unused`. -/
  unused : Nat
  /-- Number of bytes the `inbuf` pointer has advanced. -/
  inp : Nat
  /-- The local counter `inbuflen`. -/
  inbuflen : Nat
  /-- The bytes stored through `outbuf`, in order. -/
  out : List Nat
  /-- Ghost: arguments of the invocations of `c->cipher->encrypt`, in order. -/
  calls : List (List Nat)

/-- What a call leaves behind: the return value, the handle, the bytes stored
through `outbuf` and (ghost) the arguments of the block encryptions. -/
structure cfb_result where
  /-- The returned `gcry_err_code_t`. -/
  rc : Nat
  /-- The handle after the call. -/
  c : gcry_cipher_handle
  /-- The bytes stored at `outbuf[0]`, `outbuf[1]`, ... -/
  outbuf : List Nat
  /-- Ghost: arguments of the invocations of `c->cipher->encrypt`, in order. -/
  enc_calls : List (List Nat)

/-- Checked subtraction `a - b` of machine integers: faults when it would wrap. -/
def usub (a b : Nat) : Option Nat :=
  if b ≤ a then some (a - b) else none

/-- `memcpy (dst, src, n)`: faults when either buffer is shorter than `n`. -/
def memcpy (dst src : List Nat) (n : Nat) : Option (List Nat) :=
  if n ≤ src.length ∧ n ≤ dst.length then some (src.take n ++ dst.drop n) else none

/-- The statement `*outbuf++ = (*ivp++ ^= *inbuf++);` of the encrypt loops, with
`ivp` at offset `ivp` of the register (the caller advances `ivp`). -/
def enc_xor_byte (inbuf : List Nat) (ivp : Int) (fr : cfb_frame) : Option cfb_frame :=
  if 0 ≤ ivp then
    match fr.iv[ivp.toNat]?, inbuf[fr.inp]? with
    | some k, some b =>
      some { fr with iv := fr.iv.set ivp.toNat (k ^^^ b), inp := fr.inp + 1,
                     out := fr.out ++ [k ^^^ b] }
    | _, _ => none
  else none

/-- The statements `temp = *inbuf++; *outbuf++ = *ivp ^ temp; *ivp++ = temp;` of
the decrypt loops, with `ivp` at offset `ivp` of the register. -/
def dec_xor_byte (inbuf : List Nat) (ivp : Int) (fr : cfb_frame) : Option cfb_frame :=
  match inbuf[fr.inp]? with
  | some temp =>
    if 0 ≤ ivp then
      match fr.iv[ivp.toNat]? with
      | some k =>
        some { fr with iv := fr.iv.set ivp.toNat temp, inp := fr.inp + 1,
                       out := fr.out ++ [k ^^^ temp] }
      | none => none
    else none
  | none => none

/-- The type of the two byte statements. -/
abbrev byte_stmt := List Nat → Int → cfb_frame → Option cfb_frame

/-- A `for` loop whose body is the byte statement and which runs `n` times,
`ivp` starting at offset `ivp` and advancing by one each time. -/
def xor_loop (stmt : byte_stmt) (inbuf : List Nat) : Nat → Int → cfb_frame → Option cfb_frame
  | 0, _, fr => some fr
  | n + 1, ivp, fr =>
    match stmt inbuf ivp fr with
    | some fr1 => xor_loop stmt inbuf n (ivp + 1) fr1
    | none => none

/-- One scalar block: `c->cipher->encrypt (&c->context.c, c->u_iv.iv, c->u_iv.iv);`
then `for (ivp=c->u_iv.iv,i=0; i < blocksize; i++ )` over the byte statement,
then `inbuflen -= blocksize;`. -/
def block_step (stmt : byte_stmt) (c : gcry_cipher_handle) (inbuf : List Nat)
    (fr : cfb_frame) : Option cfb_frame := do
  let fr1 := { fr with iv := c.encrypt fr.iv, calls := fr.calls ++ [fr.iv] }
  let fr2 ← xor_loop stmt inbuf c.blocksize 0 fr1
  let n ← usub fr2.inbuflen c.blocksize
  pure { fr2 with inbuflen := n }

/-- The loop `while ( inbuflen >= blocksize_x_2 )` over `block_step`.  The first
argument bounds the number of iterations; `none` when it is exhausted with the
loop condition still true. -/
def while_blocks (stmt : byte_stmt) (c : gcry_cipher_handle) (inbuf : List Nat) :
    Nat → cfb_frame → Option cfb_frame
  | 0, fr => if c.blocksize + c.blocksize ≤ fr.inbuflen then none else some fr
  | fuel + 1, fr =>
    if c.blocksize + c.blocksize ≤ fr.inbuflen then
      match block_step stmt c inbuf fr with
      | some fr1 => while_blocks stmt c inbuf fuel fr1
      | none => none
    else some fr

/-- The accelerated branch: `nblocks = inbuflen / blocksize;`, the call of the
accelerator on the register and the current buffers, and the three pointer and
counter updates by `nblocks * blocksize`. -/
def bulk_blocks (f : bulk_fn) (c : gcry_cipher_handle) (inbuf : List Nat)
    (fr : cfb_frame) : Option cfb_frame :=
  if c.blocksize = 0 then none
  else do
    let nblocks := fr.inbuflen / c.blocksize
    let r := f fr.iv (inbuf.drop fr.inp) nblocks
    let n ← usub fr.inbuflen (nblocks * c.blocksize)
    pure { fr with iv := r.1, inp := fr.inp + nblocks * c.blocksize,
                   out := fr.out ++ r.2, inbuflen := n }

/-- The branch `if ( inbuflen <= c->unused )`: the loop
`for (ivp=c->u_iv.iv+blocksize - c->unused; inbuflen; inbuflen--, c->unused-- )`. -/
def short_input (stmt : byte_stmt) (c : gcry_cipher_handle) (inbuf : List Nat)
    (fr : cfb_frame) : Option cfb_frame := do
  let fr1 ← xor_loop stmt inbuf fr.inbuflen ((c.blocksize : Int) - (fr.unused : Int)) fr
  let u ← usub fr.unused fr.inbuflen
  pure { fr1 with unused := u, inbuflen := 0 }

/-- The statement `if ( c->unused )`: `inbuflen -= c->unused;` and the loop
`for (ivp=c->u_iv.iv+blocksize - c->unused; c->unused; c->unused-- )`. -/
def drain_unused (stmt : byte_stmt) (c : gcry_cipher_handle) (inbuf : List Nat)
    (fr : cfb_frame) : Option cfb_frame :=
  if fr.unused ≠ 0 then do
    let n ← usub fr.inbuflen fr.unused
    let fr1 ← xor_loop stmt inbuf fr.unused ((c.blocksize : Int) - (fr.unused : Int))
      { fr with inbuflen := n }
    pure { fr1 with unused := 0 }
  else some fr

/-- The statement `if (inbuflen >= blocksize_x_2 && bulk) ... else while ...`,
where `bulk` is `c->bulk.cfb_enc` in encrypt and `c->bulk.cfb_dec` in decrypt.
The loop is given `inbuflen` iterations: with a positive block size it leaves by
its condition before they are used up (`rest_scalar_stream`), and with block
size 0, where the C loop never ends, the result is `none`. -/
def whole_blocks (stmt : byte_stmt) (bulk : Option bulk_fn) (c : gcry_cipher_handle)
    (inbuf : List Nat) (fr : cfb_frame) : Option cfb_frame :=
  if c.blocksize + c.blocksize ≤ fr.inbuflen then
    match bulk with
    | some f => bulk_blocks f c inbuf fr
    | none => while_blocks stmt c inbuf fr.inbuflen fr
  else while_blocks stmt c inbuf fr.inbuflen fr

/-- The statement `if ( inbuflen >= blocksize )`: `memcpy` of the register into
`c->lastiv`, then one scalar block. -/
def last_block (stmt : byte_stmt) (c : gcry_cipher_handle) (inbuf : List Nat)
    (fr : cfb_frame) : Option cfb_frame :=
  if c.blocksize ≤ fr.inbuflen then do
    let l ← memcpy fr.lastiv fr.iv c.blocksize
    block_step stmt c inbuf { fr with lastiv := l }
  else some fr

/-- The statement `if ( inbuflen )`: `memcpy` of the register into `c->lastiv`,
the block encryption, `c->unused = blocksize; c->unused -= inbuflen;` and the
loop `for(ivp=c->u_iv.iv; inbuflen; inbuflen-- )`. -/
def tail_bytes (stmt : byte_stmt) (c : gcry_cipher_handle) (inbuf : List Nat)
    (fr : cfb_frame) : Option cfb_frame :=
  if fr.inbuflen ≠ 0 then do
    let l ← memcpy fr.lastiv fr.iv c.blocksize
    let u ← usub c.blocksize fr.inbuflen
    let fr1 ← xor_loop stmt inbuf fr.inbuflen 0
      { fr with lastiv := l, iv := c.encrypt fr.iv, calls := fr.calls ++ [fr.iv], unused := u }
    pure { fr1 with inbuflen := 0 }
  else some fr

/-- The frame on entry of a call. -/
def enter (c : gcry_cipher_handle) (inbuf : List Nat) : cfb_frame :=
  { iv := c.iv, lastiv := c.lastiv, unused := c.unused, inp := 0,
    inbuflen := inbuf.length, out := [], calls := [] }

/-- The result of `return 0;` from a frame. -/
def leave (c : gcry_cipher_handle) (fr : cfb_frame) : cfb_result :=
  { rc := 0, c := { c with iv := fr.iv, lastiv := fr.lastiv, unused := fr.unused },
    outbuf := fr.out, enc_calls := fr.calls }

/-- The common text of `_gcry_cipher_cfb_encrypt` and `_gcry_cipher_cfb_decrypt`,
which differ only in the byte statement and in the accelerator they consult.
`inbuflen` is the length of `inbuf`. -/
def cfb_crypt (stmt : byte_stmt) (bulk : Option bulk_fn) (c : gcry_cipher_handle)
    (outbuflen : Nat) (inbuf : List Nat) : Option cfb_result :=
  if outbuflen < inbuf.length then
    some { rc := GPG_ERR_BUFFER_TOO_SHORT, c := c, outbuf := [], enc_calls := [] }
  else if inbuf.length ≤ c.unused then
    (short_input stmt c inbuf (enter c inbuf)).map (leave c)
  else
    (drain_unused stmt c inbuf (enter c inbuf) >>= whole_blocks stmt bulk c inbuf
      >>= last_block stmt c inbuf >>= tail_bytes stmt c inbuf).map (leave c)

/-- The function `_gcry_cipher_cfb_encrypt (c, outbuf, outbuflen, inbuf, inbuflen)`. -/
def _gcry_cipher_cfb_encrypt (c : gcry_cipher_handle) (outbuflen : Nat)
    (inbuf : List Nat) : Option cfb_result :=
  cfb_crypt enc_xor_byte c.cfb_enc c outbuflen inbuf

/-- The function `_gcry_cipher_cfb_decrypt (c, outbuf, outbuflen, inbuf, inbuflen)`. -/
def _gcry_cipher_cfb_decrypt (c : gcry_cipher_handle) (outbuflen : Nat)
    (inbuf : List Nat) : Option cfb_result :=
  cfb_crypt dec_xor_byte c.cfb_dec c outbuflen inbuf

/-- The toy handle of the concrete scenario: block size 4, the block function
adds one to every byte modulo 256, no accelerator. -/
def toy (iv lastiv : List Nat) (unused : Nat) : gcry_cipher_handle :=
  { blocksize := 4, encrypt := fun x => x.map (fun b => (b + 1) % 256),
    cfb_enc := none, cfb_dec := none, iv := iv, lastiv := lastiv, unused := unused }

/-! ## Reference semantics: CFB as a byte stream -/

/-- The registers of the byte-stream view of CFB: the frame without the input
pointer and counter. -/
structure cfb_regs where
  /-- The feedback register. -/
  iv : List Nat
  /-- The register before the most recent block encryption. -/
  lastiv : List Nat
  /-- The number of pending keystream bytes. -/
  unused : Nat
  /-- The bytes produced so far. -/
  out : List Nat
  /-- The registers on which the block primitive was invoked, in order. -/
  calls : List (List Nat)

/-- A register set with fresh keystream: the register is saved and encrypted. -/
def refill (c : gcry_cipher_handle) (s : cfb_regs) : cfb_regs :=
  { iv := c.encrypt s.iv, lastiv := s.iv, unused := c.blocksize, out := s.out,
    calls := s.calls ++ [s.iv] }

/-- One byte consumed from pending keystream: with `k` the keystream byte at
position `blocksize - unused`, the byte `k ^^^ b` is produced and `fb k b` is fed
back into the register. -/
def absorb (fb : Nat → Nat → Nat) (c : gcry_cipher_handle) (s : cfb_regs) (b : Nat) :
    cfb_regs :=
  { iv := s.iv.set (c.blocksize - s.unused) (fb (s.iv.getD (c.blocksize - s.unused) 0) b),
    lastiv := s.lastiv, unused := s.unused - 1,
    out := s.out ++ [s.iv.getD (c.blocksize - s.unused) 0 ^^^ b], calls := s.calls }

/-- One byte of the stream: fresh keystream is made when none is pending. -/
def feed (fb : Nat → Nat → Nat) (c : gcry_cipher_handle) (s : cfb_regs) (b : Nat) :
    cfb_regs :=
  if s.unused = 0 then absorb fb c (refill c s) b else absorb fb c s b

/-- The byte-stream view of CFB: the bytes are fed one at a time. -/
def stream (fb : Nat → Nat → Nat) (c : gcry_cipher_handle) (s : cfb_regs)
    (bytes : List Nat) : cfb_regs :=
  bytes.foldl (feed fb c) s

/-- Feedback of encryption: the ciphertext byte `k ^^^ b` just produced. -/
def fb_enc (k b : Nat) : Nat := k ^^^ b

/-- Feedback of decryption: the ciphertext byte `b` just read. -/
def fb_dec (_k b : Nat) : Nat := b

/-- The byte statement with feedback `fb`; `enc_xor_byte` and `dec_xor_byte` are
its two instances. -/
def fb_stmt (fb : Nat → Nat → Nat) : byte_stmt := fun inbuf ivp fr =>
  if 0 ≤ ivp then
    match fr.iv[ivp.toNat]?, inbuf[fr.inp]? with
    | some k, some b =>
      some { fr with iv := fr.iv.set ivp.toNat (fb k b), inp := fr.inp + 1,
                     out := fr.out ++ [k ^^^ b] }
    | _, _ => none
  else none

/-- The registers of a frame. -/
def regs_of (fr : cfb_frame) : cfb_regs :=
  { iv := fr.iv, lastiv := fr.lastiv, unused := fr.unused, out := fr.out, calls := fr.calls }

/-- The frame made of registers, an input offset and an input counter. -/
def put (s : cfb_regs) (inp inbuflen : Nat) : cfb_frame :=
  { iv := s.iv, lastiv := s.lastiv, unused := s.unused, inp := inp, inbuflen := inbuflen,
    out := s.out, calls := s.calls }

/-- The registers of a handle on entry of a call. -/
def regs_in (c : gcry_cipher_handle) : cfb_regs :=
  { iv := c.iv, lastiv := c.lastiv, unused := c.unused, out := [], calls := [] }

/-- A well-formed handle: positive block size, registers of one block, fewer
than one block of pending keystream, and a block primitive that maps blocks to
blocks. -/
structure well_formed (c : gcry_cipher_handle) : Prop where
  /-- The block size is positive. -/
  pos : 0 < c.blocksize
  /-- The feedback register holds one block. -/
  iv_len : c.iv.length = c.blocksize
  /-- The saved register holds one block. -/
  lastiv_len : c.lastiv.length = c.blocksize
  /-- Fewer than one block of keystream is pending. -/
  unused_lt : c.unused < c.blocksize
  /-- The block primitive maps blocks to blocks. -/
  enc_len : ∀ x : List Nat, x.length = c.blocksize → (c.encrypt x).length = c.blocksize

/-- The frame of a computation that starts at the head of its buffers with the
register `iv`, nothing pending and `len` bytes to process. -/
def fresh (iv : List Nat) (len : Nat) : cfb_frame :=
  { iv := iv, lastiv := [], unused := 0, inp := 0, inbuflen := len, out := [], calls := [] }

/-- `n` scalar block steps in sequence. -/
def scalar_blocks (stmt : byte_stmt) (c : gcry_cipher_handle) (inbuf : List Nat) :
    Nat → cfb_frame → Option cfb_frame
  | 0, fr => some fr
  | n + 1, fr =>
    match block_step stmt c inbuf fr with
    | some fr1 => scalar_blocks stmt c inbuf n fr1
    | none => none

/-- The contract of an accelerator: on a register of one block and an input of
at least `n` blocks it returns the register and the output of `n` scalar block
steps in sequence. -/
def meets_contract (stmt : byte_stmt) (c : gcry_cipher_handle) (f : bulk_fn) : Prop :=
  ∀ (iv inbuf : List Nat) (n : Nat), iv.length = c.blocksize →
    n * c.blocksize ≤ inbuf.length →
    some (f iv inbuf n) =
      (scalar_blocks stmt c inbuf n (fresh iv (n * c.blocksize))).map
        (fun fr => (fr.iv, fr.out))

/-- The accelerators of a handle, if any, meet their contract. -/
def bulk_ok (c : gcry_cipher_handle) : Prop :=
  (∀ f, c.cfb_enc = some f → meets_contract enc_xor_byte c f) ∧
  (∀ f, c.cfb_dec = some f → meets_contract dec_xor_byte c f)

/-- The `n` input bytes at offset `i`. -/
def seg (inbuf : List Nat) (i n : Nat) : List Nat := (inbuf.drop i).take n

/-- The result of a successful call that ends with registers `s`. -/
def done (c : gcry_cipher_handle) (s : cfb_regs) : cfb_result :=
  { rc := 0, c := { c with iv := s.iv, lastiv := s.lastiv, unused := s.unused },
    outbuf := s.out, enc_calls := s.calls }

/-- Registers with the saved register, the output and the log forgotten. -/
def bare (s : cfb_regs) : cfb_regs :=
  { iv := s.iv, lastiv := [], unused := s.unused, out := [], calls := [] }

/-- Registers that agree with `t` on everything the accelerated path
guarantees: the register, the pending count, the output, and a saved register
of one block. -/
def agrees (c : gcry_cipher_handle) (s t : cfb_regs) : Prop :=
  s.iv = t.iv ∧ s.unused = t.unused ∧ s.out = t.out ∧ s.lastiv.length = c.blocksize

/-- Successive calls of `f` on the pieces of an input, on the same handle, each
with an output buffer as long as the piece: the final handle and the
concatenation of the outputs. -/
def successive (f : gcry_cipher_handle → Nat → List Nat → Option cfb_result) :
    gcry_cipher_handle → List (List Nat) → Option (gcry_cipher_handle × List Nat)
  | c, [] => some (c, [])
  | c, m :: ms =>
    match f c m.length m with
    | some r =>
      match successive f r.c ms with
      | some p => some (p.1, r.outbuf ++ p.2)
      | none => none
    | none => none

/-- The reference accelerator: the scalar block steps themselves. -/
def scalar_bulk (stmt : byte_stmt) (c : gcry_cipher_handle) : bulk_fn := fun iv inbuf n =>
  match scalar_blocks stmt c inbuf n (fresh iv (n * c.blocksize)) with
  | some fr => (fr.iv, fr.out)
  | none => (iv, [])

/-- The toy handle with the reference accelerators in both directions. -/
def toy_bulk (iv lastiv : List Nat) (unused : Nat) : gcry_cipher_handle :=
  { toy iv lastiv unused with
    cfb_enc := some (scalar_bulk enc_xor_byte (toy iv lastiv unused)),
    cfb_dec := some (scalar_bulk dec_xor_byte (toy iv lastiv unused)) }

/-- The toy handle with the reference accelerator for encryption only. -/
def toy_enc_bulk (iv lastiv : List Nat) (unused : Nat) : gcry_cipher_handle :=
  { toy iv lastiv unused with
    cfb_enc := some (scalar_bulk enc_xor_byte (toy iv lastiv unused)) }

/-- The toy handle with the reference accelerator for decryption only. -/
def toy_dec_bulk (iv lastiv : List Nat) (unused : Nat) : gcry_cipher_handle :=
  { toy iv lastiv unused with
    cfb_dec := some (scalar_bulk dec_xor_byte (toy iv lastiv unused)) }

/-- Bytewise XOR of two blocks. -/
def xor_block (a b : List Nat) : List Nat := List.zipWith (fun x y => x ^^^ y) a b

/-- Textbook CFB encryption of whole blocks: `C_i = M_i XOR E(C_{i-1})`, with
`C_0` the initial register. -/
def textbook_cfb_encrypt (E : List Nat → List Nat) : List Nat → List (List Nat) → List (List Nat)
  | _, [] => []
  | prev, m :: ms =>
    xor_block m (E prev) :: textbook_cfb_encrypt E (xor_block m (E prev)) ms

/-- Textbook CFB decryption of whole blocks: `P_i = C_i XOR E(C_{i-1})`, with
`C_0` the initial register. -/
def textbook_cfb_decrypt (E : List Nat → List Nat) : List Nat → List (List Nat) → List (List Nat)
  | _, [] => []
  | prev, ci :: cs => xor_block ci (E prev) :: textbook_cfb_decrypt E ci cs

/-- The closed form of the pending count after a successful call: `bs` the
block size, `u` the pending count before the call, `n` the input length. -/
def unused_after (bs u n : Nat) : Nat :=
  if n ≤ u then u - n else (bs - (n - u) % bs) % bs

/-- The register on which the most recent block encryption of a call on the
input `M` operates, every block being processed by the scalar steps in sequence
(which is what an accelerator that meets its contract does); `none` when the
call encrypts no block. -/
def last_encrypted (fb : Nat → Nat → Nat) (c : gcry_cipher_handle) (M : List Nat) :
    Option (List Nat) :=
  (stream fb c (regs_in c) M).calls.getLast?

/-- The accelerator `bulk` processes the end of the input `M`: it is installed,
and the input after the pending keystream is a whole number of blocks, of at
least two. -/
def bulk_takes_end (bulk : Option bulk_fn) (c : gcry_cipher_handle) (M : List Nat) : Prop :=
  bulk ≠ none ∧ 2 * c.blocksize ≤ M.length - c.unused ∧
    (M.length - c.unused) % c.blocksize = 0

/-- The transitions listed by the state-machine view, with `u` the pending count
before a call and `v` the pending count after it, Idle being a count of 0 and
PartialPending a positive count: Idle to Idle, Idle to PartialPending and
PartialPending to PartialPending. -/
def listed_transition (u v : Nat) : Prop :=
  (u = 0 ∧ v = 0) ∨ (u = 0 ∧ 0 < v) ∨ (0 < u ∧ 0 < v)

/-- The transitions of a successful call on `n` bytes with block size `bs`, from
the pending count `u` to the pending count `v`: the three listed ones, with what
each says on `n`, and PartialPending to Idle. -/
def call_transition (bs u n v : Nat) : Prop :=
  (u = 0 ∧ v = 0 ∧ n % bs = 0) ∨
  (u = 0 ∧ 0 < v ∧ n % bs ≠ 0 ∧ v = bs - n % bs) ∨
  (0 < u ∧ 0 < v ∧ n < u ∧ v = u - n) ∨
  (0 < u ∧ 0 < v ∧ u < n ∧ (n - u) % bs ≠ 0 ∧ v = bs - (n - u) % bs) ∨
  (0 < u ∧ v = 0 ∧ (n = u ∨ (u < n ∧ (n - u) % bs = 0)))

/-! ## The byte statements -/

theorem enc_xor_byte_eq : enc_xor_byte = fb_stmt fb_enc := by
  funext inbuf ivp fr
  simp only [enc_xor_byte, fb_stmt, fb_enc]

theorem dec_xor_byte_eq : dec_xor_byte = fb_stmt fb_dec := by
  funext inbuf ivp fr
  simp only [dec_xor_byte, fb_stmt, fb_dec]
  by_cases h : 0 ≤ ivp
  · cases h1 : inbuf[fr.inp]? <;> cases h2 : fr.iv[ivp.toNat]? <;> simp [h]
  · cases h1 : inbuf[fr.inp]? <;> simp [h]

/-! ## The byte stream -/

@[simp] theorem stream_nil (fb : Nat → Nat → Nat) (c : gcry_cipher_handle) (s : cfb_regs) :
    stream fb c s [] = s := rfl

@[simp] theorem stream_cons (fb : Nat → Nat → Nat) (c : gcry_cipher_handle) (s : cfb_regs)
    (b : Nat) (bytes : List Nat) :
    stream fb c s (b :: bytes) = stream fb c (feed fb c s b) bytes := rfl

theorem stream_append (fb : Nat → Nat → Nat) (c : gcry_cipher_handle) (s : cfb_regs)
    (xs ys : List Nat) :
    stream fb c s (xs ++ ys) = stream fb c (stream fb c s xs) ys := by
  simp [stream, List.foldl_append]

/-- With no keystream pending and a byte to process, the stream starts with a refill. -/
theorem stream_refill (fb : Nat → Nat → Nat) (c : gcry_cipher_handle) (s : cfb_regs)
    (bytes : List Nat) (hpos : 0 < c.blocksize) (hu : s.unused = 0) (hne : bytes ≠ []) :
    stream fb c s bytes = stream fb c (refill c s) bytes := by
  cases bytes with
  | nil => exact absurd rfl hne
  | cons b rest =>
    have h1 : (refill c s).unused ≠ 0 := by simp only [refill]; omega
    simp only [stream_cons, feed, hu, h1, if_true, if_false]

/-- Bytes covered by pending keystream: no refill happens. -/
theorem stream_pending (fb : Nat → Nat → Nat) (c : gcry_cipher_handle) :
    ∀ (bytes : List Nat) (s : cfb_regs), bytes.length ≤ s.unused →
      (stream fb c s bytes).unused = s.unused - bytes.length ∧
      (stream fb c s bytes).lastiv = s.lastiv ∧
      (stream fb c s bytes).calls = s.calls ∧
      (stream fb c s bytes).iv.length = s.iv.length
  | [], s, _ => by simp
  | b :: rest, s, h => by
    simp only [List.length_cons] at h
    have hu : s.unused ≠ 0 := by omega
    have ih := stream_pending fb c rest (absorb fb c s b) (by simp only [absorb]; omega)
    simp only [stream_cons, feed, hu, if_false]
    obtain ⟨h1, h2, h3, h4⟩ := ih
    refine ⟨?_, ?_, ?_, ?_⟩
    · rw [h1]; simp only [absorb, List.length_cons]; omega
    · rw [h2]; rfl
    · rw [h3]; rfl
    · rw [h4]; simp [absorb]

/-- The loops of the source are runs of the byte stream over pending keystream. -/
theorem xor_loop_stream (fb : Nat → Nat → Nat) (c : gcry_cipher_handle) (inbuf : List Nat)
    (L : List Nat) (K : List (List Nat)) :
    ∀ (n u : Nat) (fr : cfb_frame), fr.iv.length = c.blocksize → n ≤ u → u ≤ c.blocksize →
      fr.inp + n ≤ inbuf.length →
      xor_loop (fb_stmt fb) inbuf n (((c.blocksize - u : Nat) : Int)) fr =
        some { fr with
          iv := (stream fb c ⟨fr.iv, L, u, fr.out, K⟩ ((inbuf.drop fr.inp).take n)).iv,
          inp := fr.inp + n,
          out := (stream fb c ⟨fr.iv, L, u, fr.out, K⟩ ((inbuf.drop fr.inp).take n)).out }
  | 0, u, fr, _, _, _, _ => by simp [xor_loop]
  | n + 1, u, fr, hlen, hnu, hub, hin => by
    have hu : u ≠ 0 := by omega
    have hp : c.blocksize - u < fr.iv.length := by omega
    have hi : fr.inp < inbuf.length := by omega
    have hdrop : (inbuf.drop fr.inp).take (n + 1)
        = inbuf[fr.inp] :: (inbuf.drop (fr.inp + 1)).take n := by
      rw [List.drop_eq_getElem_cons hi, List.take_succ_cons]
    have hstep : fb_stmt fb inbuf ((c.blocksize - u : Nat) : Int) fr =
        some { fr with
          iv := fr.iv.set (c.blocksize - u) (fb (fr.iv[c.blocksize - u]) (inbuf[fr.inp])),
          inp := fr.inp + 1,
          out := fr.out ++ [fr.iv[c.blocksize - u] ^^^ inbuf[fr.inp]] } := by
      simp [fb_stmt, List.getElem?_eq_getElem hp, List.getElem?_eq_getElem hi]
    have hnext : (((c.blocksize - u : Nat) : Int) + 1) = ((c.blocksize - (u - 1) : Nat) : Int) := by
      omega
    rw [xor_loop, hstep]
    simp only []
    rw [hnext, xor_loop_stream fb c inbuf L K n (u - 1) _ (by simpa using hlen) (by omega)
      (by omega) (by simp only []; omega)]
    simp only [hdrop, stream_cons, feed, hu, if_false, absorb,
      List.getD_eq_getElem _ 0 hp]
    congr 2
    omega

/-! ## The phases of a call as runs of the byte stream -/

theorem seg_length (inbuf : List Nat) (i n : Nat) (h : i + n ≤ inbuf.length) :
    (seg inbuf i n).length = n := by
  simp only [seg, List.length_take, List.length_drop]; omega

theorem usub_eq {a b : Nat} (h : b ≤ a) : usub a b = some (a - b) := by
  simp [usub, h]

theorem memcpy_block {dst src : List Nat} {n : Nat} (hs : src.length = n) (hd : dst.length = n) :
    memcpy dst src n = some src := by
  simp [memcpy, ← hs, hs.trans hd.symm]

theorem short_input_stream (fb : Nat → Nat → Nat) (c : gcry_cipher_handle) (inbuf : List Nat)
    (fr : cfb_frame) (hlen : fr.iv.length = c.blocksize) (hub : fr.unused ≤ c.blocksize)
    (hn : fr.inbuflen ≤ fr.unused) (hin : fr.inp + fr.inbuflen ≤ inbuf.length) :
    short_input (fb_stmt fb) c inbuf fr =
      some (put (stream fb c (regs_of fr) (seg inbuf fr.inp fr.inbuflen))
        (fr.inp + fr.inbuflen) 0) := by
  have hcast : ((c.blocksize : Int) - (fr.unused : Int)) = ((c.blocksize - fr.unused : Nat) : Int) := by
    omega
  have hp := stream_pending fb c (seg inbuf fr.inp fr.inbuflen) (regs_of fr)
    (by rw [seg_length _ _ _ hin]; exact hn)
  rw [seg_length _ _ _ hin] at hp
  obtain ⟨h1, h2, h3, -⟩ := hp
  simp only [short_input, hcast,
    xor_loop_stream fb c inbuf fr.lastiv fr.calls fr.inbuflen fr.unused fr hlen hn hub hin,
    usub_eq hn, Option.bind_eq_bind, Option.some_bind, Option.pure_def]
  simp only [put, Option.some.injEq, cfb_frame.mk.injEq]
  exact ⟨rfl, h2.symm, h1.symm, trivial, trivial, rfl, h3.symm⟩

theorem drain_unused_stream (fb : Nat → Nat → Nat) (c : gcry_cipher_handle) (inbuf : List Nat)
    (fr : cfb_frame) (hlen : fr.iv.length = c.blocksize) (hub : fr.unused ≤ c.blocksize)
    (hn : fr.unused ≤ fr.inbuflen) (hin : fr.inp + fr.unused ≤ inbuf.length) :
    drain_unused (fb_stmt fb) c inbuf fr =
      some (put (stream fb c (regs_of fr) (seg inbuf fr.inp fr.unused))
        (fr.inp + fr.unused) (fr.inbuflen - fr.unused)) := by
  by_cases hu : fr.unused = 0
  · simp only [drain_unused, hu, ne_eq, not_true_eq_false, if_false, seg, List.take_zero,
      stream_nil, put, regs_of, Nat.add_zero, Nat.sub_zero]
    rw [← hu]
  · have hcast : ((c.blocksize : Int) - (fr.unused : Int))
        = ((c.blocksize - fr.unused : Nat) : Int) := by omega
    have hp := stream_pending fb c (seg inbuf fr.inp fr.unused) (regs_of fr)
      (by rw [seg_length _ _ _ hin]; exact Nat.le_refl _)
    rw [seg_length _ _ _ hin] at hp
    obtain ⟨h1, h2, h3, -⟩ := hp
    simp only [drain_unused, hu, ne_eq, not_false_eq_true, if_true, hcast, usub_eq hn,
      xor_loop_stream fb c inbuf fr.lastiv fr.calls fr.unused fr.unused
        { fr with inbuflen := fr.inbuflen - fr.unused } hlen (Nat.le_refl _) hub hin,
      Option.bind_eq_bind, Option.some_bind, Option.pure_def]
    simp only [put, Option.some.injEq, cfb_frame.mk.injEq]
    refine ⟨rfl, h2.symm, ?_, trivial, trivial, rfl, h3.symm⟩
    rw [h1]; simp [regs_of]

theorem block_step_stream (fb : Nat → Nat → Nat) (c : gcry_cipher_handle) (inbuf : List Nat)
    (fr : cfb_frame) (hpos : 0 < c.blocksize)
    (henc : ∀ x : List Nat, x.length = c.blocksize → (c.encrypt x).length = c.blocksize)
    (hlen : fr.iv.length = c.blocksize) (hu : fr.unused = 0)
    (hn : c.blocksize ≤ fr.inbuflen) (hin : fr.inp + c.blocksize ≤ inbuf.length) :
    block_step (fb_stmt fb) c inbuf fr =
      some (put { stream fb c (regs_of fr) (seg inbuf fr.inp c.blocksize) with
                  lastiv := fr.lastiv }
        (fr.inp + c.blocksize) (fr.inbuflen - c.blocksize)) := by
  have hseg := seg_length _ _ _ hin
  have hne : seg inbuf fr.inp c.blocksize ≠ [] := by
    intro h; rw [h] at hseg; simp at hseg; omega
  have h0 : (0 : Int) = ((c.blocksize - c.blocksize : Nat) : Int) := by simp
  have hp := stream_pending fb c (seg inbuf fr.inp c.blocksize) (refill c (regs_of fr))
    (by rw [hseg]; exact Nat.le_refl _)
  rw [hseg] at hp
  obtain ⟨h1, -, h3, -⟩ := hp
  rw [stream_refill fb c (regs_of fr) _ hpos hu hne]
  simp only [block_step, Option.bind_eq_bind, Option.pure_def]
  rw [h0, xor_loop_stream fb c inbuf fr.iv (fr.calls ++ [fr.iv]) c.blocksize c.blocksize
    { fr with iv := c.encrypt fr.iv, calls := fr.calls ++ [fr.iv] } (henc _ hlen)
    (Nat.le_refl _) (Nat.le_refl _) hin]
  simp only [Option.some_bind, usub_eq hn]
  simp only [put, Option.some.injEq, cfb_frame.mk.injEq]
  refine ⟨rfl, trivial, ?_, trivial, trivial, rfl, ?_⟩
  · rw [h1, hu]; simp [refill]
  · rw [h3]; rfl

/-- Fresh keystream: from no pending keystream, at most one block of input makes
exactly one refill. -/
theorem stream_fresh (fb : Nat → Nat → Nat) (c : gcry_cipher_handle) (s : cfb_regs)
    (bytes : List Nat) (hpos : 0 < c.blocksize)
    (henc : ∀ x : List Nat, x.length = c.blocksize → (c.encrypt x).length = c.blocksize)
    (hlen : s.iv.length = c.blocksize) (hu : s.unused = 0) (hne : bytes ≠ [])
    (hle : bytes.length ≤ c.blocksize) :
    (stream fb c s bytes).unused = c.blocksize - bytes.length ∧
    (stream fb c s bytes).lastiv = s.iv ∧
    (stream fb c s bytes).calls = s.calls ++ [s.iv] ∧
    (stream fb c s bytes).iv.length = c.blocksize := by
  rw [stream_refill fb c s bytes hpos hu hne]
  obtain ⟨h1, h2, h3, h4⟩ := stream_pending fb c bytes (refill c s) hle
  refine ⟨h1, h2, h3, ?_⟩
  rw [h4]; exact henc _ hlen

/-- With no keystream pending, the saved register at the start does not matter
once a byte is processed. -/
theorem stream_lastiv_irrel (fb : Nat → Nat → Nat) (c : gcry_cipher_handle) (s : cfb_regs)
    (L : List Nat) (bytes : List Nat) (hpos : 0 < c.blocksize) (hu : s.unused = 0)
    (hne : bytes ≠ []) :
    stream fb c { s with lastiv := L } bytes = stream fb c s bytes := by
  rw [stream_refill fb c { s with lastiv := L } bytes hpos hu hne,
    stream_refill fb c s bytes hpos hu hne]
  rfl

theorem stream_with_lastiv (fb : Nat → Nat → Nat) (c : gcry_cipher_handle) (s : cfb_regs)
    (L L2 : List Nat) (bytes : List Nat) (hpos : 0 < c.blocksize) (hu : s.unused = 0) :
    { stream fb c { s with lastiv := L } bytes with lastiv := L2 }
      = { stream fb c s bytes with lastiv := L2 } := by
  cases bytes with
  | nil => rfl
  | cons b rest => rw [stream_lastiv_irrel fb c s L _ hpos hu (List.cons_ne_nil _ _)]

theorem seg_append_drop (inbuf : List Nat) (i n : Nat) :
    seg inbuf i n ++ inbuf.drop (i + n) = inbuf.drop i := by
  have h : inbuf.drop (i + n) = (inbuf.drop i).drop n := by
    rw [List.drop_drop, Nat.add_comm]
  rw [seg, h, List.take_append_drop]

theorem seg_all (inbuf : List Nat) (i n : Nat) (h : i + n = inbuf.length) :
    seg inbuf i n = inbuf.drop i := by
  have h2 := seg_append_drop inbuf i n
  rw [List.drop_eq_nil_of_le (by omega), List.append_nil] at h2
  exact h2

theorem last_block_stream (fb : Nat → Nat → Nat) (c : gcry_cipher_handle) (inbuf : List Nat)
    (fr : cfb_frame) (hpos : 0 < c.blocksize)
    (henc : ∀ x : List Nat, x.length = c.blocksize → (c.encrypt x).length = c.blocksize)
    (hlen : fr.iv.length = c.blocksize) (hlast : fr.lastiv.length = c.blocksize)
    (hu : fr.unused = 0)
    (hn : c.blocksize ≤ fr.inbuflen) (hin : fr.inp + c.blocksize ≤ inbuf.length) :
    last_block (fb_stmt fb) c inbuf fr =
      some (put (stream fb c (regs_of fr) (seg inbuf fr.inp c.blocksize))
        (fr.inp + c.blocksize) (fr.inbuflen - c.blocksize)) := by
  have hseg := seg_length _ _ _ hin
  have hne : seg inbuf fr.inp c.blocksize ≠ [] := by
    intro h; rw [h] at hseg; simp at hseg; omega
  obtain ⟨-, h2, -, -⟩ := stream_fresh fb c (regs_of fr) _ hpos henc hlen hu hne (by omega)
  simp only [last_block, hn, if_true, memcpy_block hlen hlast, Option.bind_eq_bind,
    Option.some_bind]
  rw [block_step_stream fb c inbuf { fr with lastiv := fr.iv } hpos henc hlen hu hn hin]
  have h3 : regs_of { fr with lastiv := fr.iv } = { regs_of fr with lastiv := fr.iv } := rfl
  rw [h3, stream_lastiv_irrel fb c (regs_of fr) fr.iv _ hpos hu hne]
  simp only [put, Option.some.injEq, cfb_frame.mk.injEq]
  exact ⟨trivial, h2.symm, trivial, trivial, trivial, trivial, trivial⟩

theorem tail_bytes_stream (fb : Nat → Nat → Nat) (c : gcry_cipher_handle) (inbuf : List Nat)
    (fr : cfb_frame) (hpos : 0 < c.blocksize)
    (henc : ∀ x : List Nat, x.length = c.blocksize → (c.encrypt x).length = c.blocksize)
    (hlen : fr.iv.length = c.blocksize) (hlast : fr.lastiv.length = c.blocksize)
    (hu : fr.unused = 0)
    (hn : fr.inbuflen < c.blocksize) (hin : fr.inp + fr.inbuflen ≤ inbuf.length) :
    tail_bytes (fb_stmt fb) c inbuf fr =
      some (put (stream fb c (regs_of fr) (seg inbuf fr.inp fr.inbuflen))
        (fr.inp + fr.inbuflen) 0) := by
  by_cases h0 : fr.inbuflen = 0
  · simp only [tail_bytes, h0, ne_eq, not_true_eq_false, if_false, seg, List.take_zero,
      stream_nil, put, regs_of, Nat.add_zero]
    rw [← h0]
  · have hseg := seg_length _ _ _ hin
    have hne : seg inbuf fr.inp fr.inbuflen ≠ [] := by
      intro h; rw [h] at hseg; simp at hseg; omega
    have hz : (0 : Int) = ((c.blocksize - c.blocksize : Nat) : Int) := by simp
    obtain ⟨h1, h2, h3, -⟩ :=
      stream_fresh fb c (regs_of fr) _ hpos henc hlen hu hne (by omega)
    rw [hseg] at h1
    rw [stream_refill fb c (regs_of fr) _ hpos hu hne] at h1 h2 h3 ⊢
    simp only [tail_bytes, h0, ne_eq, not_false_eq_true, if_true, memcpy_block hlen hlast,
      usub_eq (Nat.le_of_lt hn), Option.bind_eq_bind, Option.some_bind, Option.pure_def]
    rw [hz, xor_loop_stream fb c inbuf fr.iv (fr.calls ++ [fr.iv]) fr.inbuflen c.blocksize
      { fr with lastiv := fr.iv, iv := c.encrypt fr.iv, calls := fr.calls ++ [fr.iv],
                unused := c.blocksize - fr.inbuflen }
      (henc _ hlen) (Nat.le_of_lt hn) (Nat.le_refl _) hin]
    simp only [Option.some_bind, put, Option.some.injEq, cfb_frame.mk.injEq]
    exact ⟨rfl, h2.symm, h1.symm, trivial, trivial, rfl, h3.symm⟩

/-- The scalar path after the pending keystream is drained: the `while` loop,
the single block and the final bytes together run the stream over the rest of
the input. -/
theorem rest_scalar_stream (fb : Nat → Nat → Nat) (c : gcry_cipher_handle) (inbuf : List Nat)
    (hpos : 0 < c.blocksize)
    (henc : ∀ x : List Nat, x.length = c.blocksize → (c.encrypt x).length = c.blocksize) :
    ∀ (fuel : Nat) (fr : cfb_frame), fr.iv.length = c.blocksize →
      fr.lastiv.length = c.blocksize → fr.unused = 0 →
      fr.inp + fr.inbuflen = inbuf.length → fr.inbuflen ≤ fuel →
      (while_blocks (fb_stmt fb) c inbuf fuel fr >>= last_block (fb_stmt fb) c inbuf
          >>= tail_bytes (fb_stmt fb) c inbuf) =
        some (put (stream fb c (regs_of fr) (inbuf.drop fr.inp)) inbuf.length 0) := by
  intro fuel
  induction fuel with
  | zero =>
    intro fr hlen hlast hu hin hfuel
    have h0 : fr.inbuflen = 0 := by omega
    have hw : while_blocks (fb_stmt fb) c inbuf 0 fr = some fr := by
      simp only [while_blocks]; rw [if_neg (by omega)]
    have hl : last_block (fb_stmt fb) c inbuf fr = some fr := by
      simp only [last_block]; rw [if_neg (by omega)]
    rw [hw, Option.bind_eq_bind, Option.some_bind, hl, Option.some_bind,
      tail_bytes_stream fb c inbuf fr hpos henc hlen hlast hu (by omega) (by omega),
      seg_all inbuf fr.inp fr.inbuflen hin]
    rw [show fr.inp + fr.inbuflen = inbuf.length from hin]
  | succ k ih =>
    intro fr hlen hlast hu hin hfuel
    by_cases h2 : c.blocksize + c.blocksize ≤ fr.inbuflen
    · -- one iteration of the loop
      have hseg := seg_length inbuf fr.inp c.blocksize (by omega)
      have hne : seg inbuf fr.inp c.blocksize ≠ [] := by
        intro h; rw [h] at hseg; simp at hseg; omega
      obtain ⟨h1, -, -, h4⟩ :=
        stream_fresh fb c (regs_of fr) _ hpos henc hlen hu hne (by omega)
      rw [hseg] at h1
      have hrest : inbuf.drop (fr.inp + c.blocksize) ≠ [] := by
        intro h
        have := congrArg List.length h
        simp only [List.length_drop, List.length_nil] at this
        omega
      have hw : while_blocks (fb_stmt fb) c inbuf (k + 1) fr =
          while_blocks (fb_stmt fb) c inbuf k
            (put { stream fb c (regs_of fr) (seg inbuf fr.inp c.blocksize) with
                   lastiv := fr.lastiv }
              (fr.inp + c.blocksize) (fr.inbuflen - c.blocksize)) := by
        simp only [while_blocks]
        rw [if_pos h2, block_step_stream fb c inbuf fr hpos henc hlen hu (by omega) (by omega)]
      rw [hw, ih _ (by simpa [put] using h4) (by simpa [put] using hlast)
        (by simp only [put]; omega) (by simp only [put]; omega) (by simp only [put]; omega)]
      have hr : regs_of (put { stream fb c (regs_of fr) (seg inbuf fr.inp c.blocksize) with
                   lastiv := fr.lastiv } (fr.inp + c.blocksize) (fr.inbuflen - c.blocksize))
          = { stream fb c (regs_of fr) (seg inbuf fr.inp c.blocksize) with
                   lastiv := fr.lastiv } := rfl
      rw [hr]
      simp only [put]
      rw [stream_lastiv_irrel fb c _ fr.lastiv _ hpos (by omega) hrest, ← stream_append,
        seg_append_drop]
    · have hw : while_blocks (fb_stmt fb) c inbuf (k + 1) fr = some fr := by
        simp only [while_blocks]; rw [if_neg h2]
      rw [hw, Option.bind_eq_bind, Option.some_bind]
      by_cases h1 : c.blocksize ≤ fr.inbuflen
      · have hseg := seg_length inbuf fr.inp c.blocksize (by omega)
        have hne : seg inbuf fr.inp c.blocksize ≠ [] := by
          intro h; rw [h] at hseg; simp at hseg; omega
        obtain ⟨h5, h6, -, h8⟩ :=
          stream_fresh fb c (regs_of fr) _ hpos henc hlen hu hne (by omega)
        rw [hseg] at h5
        rw [last_block_stream fb c inbuf fr hpos henc hlen hlast hu h1 (by omega),
          Option.some_bind,
          tail_bytes_stream fb c inbuf _ hpos henc (by simpa [put] using h8)
            (by simp only [put]; rw [h6]; exact hlen)
            (by simp only [put]; omega) (by simp only [put]; omega)
            (by simp only [put]; omega)]
        have hr : regs_of (put (stream fb c (regs_of fr) (seg inbuf fr.inp c.blocksize))
            (fr.inp + c.blocksize) (fr.inbuflen - c.blocksize))
            = stream fb c (regs_of fr) (seg inbuf fr.inp c.blocksize) := rfl
        rw [hr]
        simp only [put]
        rw [seg_all inbuf (fr.inp + c.blocksize) (fr.inbuflen - c.blocksize) (by omega),
          ← stream_append, seg_append_drop]
        rw [show fr.inp + c.blocksize + (fr.inbuflen - c.blocksize) = inbuf.length by omega]
      · have hl : last_block (fb_stmt fb) c inbuf fr = some fr := by
          simp only [last_block]; rw [if_neg h1]
        rw [hl, Option.some_bind,
          tail_bytes_stream fb c inbuf fr hpos henc hlen hlast hu (by omega) (by omega),
          seg_all inbuf fr.inp fr.inbuflen hin]
        rw [show fr.inp + fr.inbuflen = inbuf.length from hin]

theorem leave_put (c : gcry_cipher_handle) (s : cfb_regs) (i l : Nat) :
    leave c (put s i l) = done c s := rfl

theorem whole_blocks_none (stmt : byte_stmt) (c : gcry_cipher_handle) (inbuf : List Nat)
    (fr : cfb_frame) :
    whole_blocks stmt none c inbuf fr = while_blocks stmt c inbuf fr.inbuflen fr := by
  unfold whole_blocks
  split <;> rfl

theorem whole_blocks_small (stmt : byte_stmt) (bulk : Option bulk_fn) (c : gcry_cipher_handle)
    (inbuf : List Nat) (fr : cfb_frame) (h : ¬ c.blocksize + c.blocksize ≤ fr.inbuflen) :
    whole_blocks stmt bulk c inbuf fr = while_blocks stmt c inbuf fr.inbuflen fr := by
  unfold whole_blocks
  rw [if_neg h]

theorem whole_blocks_bulk (stmt : byte_stmt) (f : bulk_fn) (c : gcry_cipher_handle)
    (inbuf : List Nat) (fr : cfb_frame) (h : c.blocksize + c.blocksize ≤ fr.inbuflen) :
    whole_blocks stmt (some f) c inbuf fr = bulk_blocks f c inbuf fr := by
  unfold whole_blocks
  rw [if_pos h]

theorem seg_zero_all (inbuf : List Nat) : seg inbuf 0 inbuf.length = inbuf := by
  simp [seg]

/-- A call on the scalar path runs the byte stream over the input. -/
theorem cfb_crypt_scalar (fb : Nat → Nat → Nat) (c : gcry_cipher_handle) (outbuflen : Nat)
    (inbuf : List Nat) (hwf : well_formed c) (hcap : inbuf.length ≤ outbuflen) :
    cfb_crypt (fb_stmt fb) none c outbuflen inbuf =
      some (done c (stream fb c (regs_in c) inbuf)) := by
  obtain ⟨hpos, hlen, hlast, hult, henc⟩ := hwf
  unfold cfb_crypt
  rw [if_neg (by omega)]
  by_cases hs : inbuf.length ≤ c.unused
  · rw [if_pos hs, short_input_stream fb c inbuf (enter c inbuf) hlen (Nat.le_of_lt hult) hs
      (by simp [enter])]
    simp only [Option.map_some', leave_put]
    have h1 : regs_of (enter c inbuf) = regs_in c := rfl
    have h2 : seg inbuf (enter c inbuf).inp (enter c inbuf).inbuflen = inbuf := seg_zero_all inbuf
    rw [h1, h2]
  · rw [if_neg hs]
    have hin : (enter c inbuf).inp + (enter c inbuf).unused ≤ inbuf.length := by
      simp only [enter]; omega
    have hseg := seg_length inbuf _ _ hin
    obtain ⟨h1, h2, -, h4⟩ := stream_pending fb c
      (seg inbuf (enter c inbuf).inp (enter c inbuf).unused) (regs_of (enter c inbuf))
      (by rw [hseg]; exact Nat.le_refl _)
    rw [hseg] at h1
    rw [drain_unused_stream fb c inbuf (enter c inbuf) hlen (Nat.le_of_lt hult)
      (by simp only [enter]; omega) hin]
    simp only [Option.bind_eq_bind, Option.some_bind, whole_blocks_none]
    have hcomp := rest_scalar_stream fb c inbuf hpos henc
      (put (stream fb c (regs_of (enter c inbuf))
          (seg inbuf (enter c inbuf).inp (enter c inbuf).unused))
        ((enter c inbuf).inp + (enter c inbuf).unused)
        ((enter c inbuf).inbuflen - (enter c inbuf).unused)).inbuflen
      (put (stream fb c (regs_of (enter c inbuf))
          (seg inbuf (enter c inbuf).inp (enter c inbuf).unused))
        ((enter c inbuf).inp + (enter c inbuf).unused)
        ((enter c inbuf).inbuflen - (enter c inbuf).unused))
      (by simp only [put]; rw [h4]; exact hlen)
      (by simp only [put]; rw [h2]; exact hlast)
      (by simp only [put]; rw [h1]; simp [regs_of])
      (by simp only [put, enter]; omega)
      (Nat.le_refl _)
    simp only [Option.bind_eq_bind] at hcomp
    rw [hcomp]
    simp only [Option.map_some', leave_put]
    have h5 : regs_of (put (stream fb c (regs_of (enter c inbuf))
          (seg inbuf (enter c inbuf).inp (enter c inbuf).unused))
        ((enter c inbuf).inp + (enter c inbuf).unused)
        ((enter c inbuf).inbuflen - (enter c inbuf).unused))
        = stream fb c (regs_of (enter c inbuf))
          (seg inbuf (enter c inbuf).inp (enter c inbuf).unused) := rfl
    rw [h5]
    simp only [put]
    rw [← stream_append, seg_append_drop]
    rfl

/-! ## The accelerated path -/

theorem feed_bare (fb : Nat → Nat → Nat) (c : gcry_cipher_handle) (s : cfb_regs) (b : Nat) :
    bare (feed fb c s b) = bare (feed fb c (bare s) b) ∧
    (feed fb c s b).out = s.out ++ (feed fb c (bare s) b).out := by
  by_cases hu : s.unused = 0
  · have hu2 : (bare s).unused = 0 := hu
    simp only [feed, hu, hu2, if_true]
    exact ⟨rfl, by simp [absorb, refill, bare]⟩
  · have hu2 : ¬ (bare s).unused = 0 := hu
    simp only [feed, hu, hu2, if_false]
    exact ⟨rfl, by simp [absorb, bare]⟩

/-- The register, the pending count and the new output of the stream do not
depend on the saved register, the earlier output or the log. -/
theorem stream_bare (fb : Nat → Nat → Nat) (c : gcry_cipher_handle) :
    ∀ (bytes : List Nat) (s : cfb_regs),
      bare (stream fb c s bytes) = bare (stream fb c (bare s) bytes) ∧
      (stream fb c s bytes).out = s.out ++ (stream fb c (bare s) bytes).out
  | [], s => by simp [bare]
  | b :: rest, s => by
    obtain ⟨h1, h2⟩ := feed_bare fb c s b
    obtain ⟨h3, h4⟩ := stream_bare fb c rest (feed fb c s b)
    obtain ⟨h5, h6⟩ := stream_bare fb c rest (feed fb c (bare s) b)
    simp only [stream_cons]
    refine ⟨?_, ?_⟩
    · rw [h3, h5, h1]
    · rw [h4, h6, h2, h1, List.append_assoc]

/-- Registers that agree on the register, the pending count and the output keep
agreeing on them along the stream. -/
theorem stream_agree (fb : Nat → Nat → Nat) (c : gcry_cipher_handle) (s t : cfb_regs)
    (bytes : List Nat) (hiv : s.iv = t.iv) (hu : s.unused = t.unused) (hout : s.out = t.out) :
    (stream fb c s bytes).iv = (stream fb c t bytes).iv ∧
    (stream fb c s bytes).unused = (stream fb c t bytes).unused ∧
    (stream fb c s bytes).out = (stream fb c t bytes).out := by
  have hb : bare s = bare t := by simp [bare, hiv, hu]
  obtain ⟨h1, h2⟩ := stream_bare fb c bytes s
  obtain ⟨h3, h4⟩ := stream_bare fb c bytes t
  have hb2 : bare (stream fb c s bytes) = bare (stream fb c t bytes) := by rw [h1, h3, hb]
  refine ⟨?_, ?_, ?_⟩
  · have h := congrArg (fun r : cfb_regs => r.iv) hb2
    exact h
  · have h := congrArg (fun r : cfb_regs => r.unused) hb2
    exact h
  · rw [h2, h4, hb, hout]

theorem feed_wf (fb : Nat → Nat → Nat) (c : gcry_cipher_handle) (s : cfb_regs) (b : Nat)
    (hpos : 0 < c.blocksize)
    (henc : ∀ x : List Nat, x.length = c.blocksize → (c.encrypt x).length = c.blocksize)
    (hlen : s.iv.length = c.blocksize) (hlast : s.lastiv.length = c.blocksize)
    (hu : s.unused < c.blocksize) :
    (feed fb c s b).iv.length = c.blocksize ∧ (feed fb c s b).lastiv.length = c.blocksize ∧
    (feed fb c s b).unused < c.blocksize := by
  by_cases h0 : s.unused = 0
  · simp only [feed, h0, if_true, absorb, refill, List.length_set]
    exact ⟨henc _ hlen, hlen, by omega⟩
  · simp only [feed, h0, if_false, absorb, List.length_set]
    exact ⟨hlen, hlast, by omega⟩

/-- The stream keeps the registers well formed. -/
theorem stream_wf (fb : Nat → Nat → Nat) (c : gcry_cipher_handle)
    (hpos : 0 < c.blocksize)
    (henc : ∀ x : List Nat, x.length = c.blocksize → (c.encrypt x).length = c.blocksize) :
    ∀ (bytes : List Nat) (s : cfb_regs), s.iv.length = c.blocksize →
      s.lastiv.length = c.blocksize → s.unused < c.blocksize →
      (stream fb c s bytes).iv.length = c.blocksize ∧
      (stream fb c s bytes).lastiv.length = c.blocksize ∧
      (stream fb c s bytes).unused < c.blocksize
  | [], s, h1, h2, h3 => ⟨h1, h2, h3⟩
  | b :: rest, s, h1, h2, h3 => by
    obtain ⟨h4, h5, h6⟩ := feed_wf fb c s b hpos henc h1 h2 h3
    exact stream_wf fb c hpos henc rest (feed fb c s b) h4 h5 h6

/-- Whole blocks leave no keystream pending. -/
theorem stream_blocks (fb : Nat → Nat → Nat) (c : gcry_cipher_handle)
    (hpos : 0 < c.blocksize)
    (henc : ∀ x : List Nat, x.length = c.blocksize → (c.encrypt x).length = c.blocksize) :
    ∀ (n : Nat) (bytes : List Nat) (s : cfb_regs), s.iv.length = c.blocksize →
      s.unused = 0 → bytes.length = n * c.blocksize →
      (stream fb c s bytes).unused = 0 ∧ (stream fb c s bytes).iv.length = c.blocksize
  | 0, bytes, s, h1, h2, h3 => by
    have : bytes = [] := by
      apply List.eq_nil_of_length_eq_zero; simpa using h3
    subst this
    exact ⟨h2, h1⟩
  | n + 1, bytes, s, h1, h2, h3 => by
    have hl : bytes.length = c.blocksize + n * c.blocksize := by rw [h3]; ring
    have ht : (bytes.take c.blocksize).length = c.blocksize := by
      rw [List.length_take]; omega
    have hne : bytes.take c.blocksize ≠ [] := by
      intro h; rw [h] at ht; simp at ht; omega
    obtain ⟨h5, -, -, h8⟩ := stream_fresh fb c s _ hpos henc h1 h2 hne (by omega)
    rw [ht] at h5
    have := stream_blocks fb c hpos henc n (bytes.drop c.blocksize)
      (stream fb c s (bytes.take c.blocksize)) h8 (by omega)
      (by rw [List.length_drop]; omega)
    rw [← stream_append, List.take_append_drop] at this
    exact this

theorem seg_append (inbuf : List Nat) (i a b : Nat) :
    seg inbuf i a ++ seg inbuf (i + a) b = seg inbuf i (a + b) := by
  simp only [seg]
  rw [List.take_add, List.drop_drop]

/-- The scalar block steps in sequence run the stream over whole blocks. -/
theorem scalar_blocks_stream (fb : Nat → Nat → Nat) (c : gcry_cipher_handle) (inbuf : List Nat)
    (hpos : 0 < c.blocksize)
    (henc : ∀ x : List Nat, x.length = c.blocksize → (c.encrypt x).length = c.blocksize) :
    ∀ (n : Nat) (fr : cfb_frame), fr.iv.length = c.blocksize → fr.unused = 0 →
      n * c.blocksize ≤ fr.inbuflen → fr.inp + n * c.blocksize ≤ inbuf.length →
      scalar_blocks (fb_stmt fb) c inbuf n fr =
        some (put { stream fb c (regs_of fr) (seg inbuf fr.inp (n * c.blocksize)) with
                    lastiv := fr.lastiv }
          (fr.inp + n * c.blocksize) (fr.inbuflen - n * c.blocksize))
  | 0, fr, _, _, _, _ => by
    simp only [scalar_blocks, Nat.zero_mul, seg, List.take_zero, stream_nil, put, regs_of,
      Nat.add_zero, Nat.sub_zero]
  | n + 1, fr, hlen, hu, hn, hin => by
    have hmul : (n + 1) * c.blocksize = c.blocksize + n * c.blocksize := by ring
    rw [hmul] at hn hin ⊢
    have hseg := seg_length inbuf fr.inp c.blocksize (by omega)
    have hne : seg inbuf fr.inp c.blocksize ≠ [] := by
      intro h; rw [h] at hseg; simp at hseg; omega
    obtain ⟨h1, -, -, h4⟩ :=
      stream_fresh fb c (regs_of fr) _ hpos henc hlen hu hne (by omega)
    rw [hseg] at h1
    simp only [scalar_blocks]
    rw [block_step_stream fb c inbuf fr hpos henc hlen hu (by omega) (by omega)]
    simp only []
    rw [scalar_blocks_stream fb c inbuf hpos henc n _ (by simpa [put] using h4)
      (by simp only [put]; omega) (by simp only [put]; omega) (by simp only [put]; omega)]
    have hr : regs_of (put { stream fb c (regs_of fr) (seg inbuf fr.inp c.blocksize) with
                   lastiv := fr.lastiv } (fr.inp + c.blocksize) (fr.inbuflen - c.blocksize))
          = { stream fb c (regs_of fr) (seg inbuf fr.inp c.blocksize) with
                   lastiv := fr.lastiv } := rfl
    rw [hr]
    have hw := stream_with_lastiv fb c (stream fb c (regs_of fr) (seg inbuf fr.inp c.blocksize))
      fr.lastiv fr.lastiv (seg inbuf (fr.inp + c.blocksize) (n * c.blocksize)) hpos (by omega)
    rw [← stream_append, seg_append] at hw
    simp only [put, Option.some.injEq, cfb_frame.mk.injEq]
    have e1 := congrArg (fun r : cfb_regs => r.iv) hw
    have e2 := congrArg (fun r : cfb_regs => r.unused) hw
    have e3 := congrArg (fun r : cfb_regs => r.out) hw
    have e4 := congrArg (fun r : cfb_regs => r.calls) hw
    exact ⟨e1, trivial, e2, by omega, by omega, e3, e4⟩

/-- The accelerated path after the pending keystream is drained: it ends with
the register, the pending count and the output of the stream over the rest of
the input. -/
theorem rest_bulk_stream (fb : Nat → Nat → Nat) (c : gcry_cipher_handle) (inbuf : List Nat)
    (f : bulk_fn) (hpos : 0 < c.blocksize)
    (henc : ∀ x : List Nat, x.length = c.blocksize → (c.encrypt x).length = c.blocksize)
    (hf : meets_contract (fb_stmt fb) c f) (fr : cfb_frame)
    (hlen : fr.iv.length = c.blocksize) (hlast : fr.lastiv.length = c.blocksize)
    (hu : fr.unused = 0) (hin : fr.inp + fr.inbuflen = inbuf.length) :
    ∃ s : cfb_regs,
      (bulk_blocks f c inbuf fr >>= last_block (fb_stmt fb) c inbuf
          >>= tail_bytes (fb_stmt fb) c inbuf) = some (put s inbuf.length 0) ∧
      s.iv = (stream fb c (regs_of fr) (inbuf.drop fr.inp)).iv ∧
      s.unused = (stream fb c (regs_of fr) (inbuf.drop fr.inp)).unused ∧
      s.out = (stream fb c (regs_of fr) (inbuf.drop fr.inp)).out ∧
      s.lastiv.length = c.blocksize := by
  have hnle : fr.inbuflen / c.blocksize * c.blocksize ≤ fr.inbuflen := Nat.div_mul_le_self _ _
  have hrem : fr.inbuflen - fr.inbuflen / c.blocksize * c.blocksize < c.blocksize := by
    have h1 := Nat.mod_lt fr.inbuflen hpos
    rw [Nat.mod_def, Nat.mul_comm] at h1
    exact h1
  generalize hn : fr.inbuflen / c.blocksize = n at hnle hrem
  -- what the accelerator returns
  have hB : seg (inbuf.drop fr.inp) 0 (n * c.blocksize) = seg inbuf fr.inp (n * c.blocksize) := by
    simp [seg]
  have hBlen : (seg inbuf fr.inp (n * c.blocksize)).length = n * c.blocksize :=
    seg_length _ _ _ (by omega)
  have hc := hf fr.iv (inbuf.drop fr.inp) n hlen (by rw [List.length_drop]; omega)
  rw [scalar_blocks_stream fb c (inbuf.drop fr.inp) hpos henc n (fresh fr.iv (n * c.blocksize))
    hlen rfl (Nat.le_refl _) (by rw [List.length_drop]; simp only [fresh]; omega)] at hc
  have hfresh : regs_of (fresh fr.iv (n * c.blocksize)) = bare (regs_of fr) := by
    simp [regs_of, bare, fresh, hu]
  have hinp : (fresh fr.iv (n * c.blocksize)).inp = 0 := rfl
  rw [hfresh, hinp, hB] at hc
  simp only [Option.map_some', Option.some.injEq, put] at hc
  -- facts on the stream over the whole blocks
  obtain ⟨b1, b2⟩ := stream_bare fb c (seg inbuf fr.inp (n * c.blocksize)) (regs_of fr)
  obtain ⟨k1, k2⟩ := stream_blocks fb c hpos henc n (seg inbuf fr.inp (n * c.blocksize))
    (regs_of fr) hlen hu hBlen
  have b3 := congrArg (fun r : cfb_regs => r.iv) b1
  simp only [bare] at b3
  -- the frame after the accelerated branch
  have hbulk : ∃ g : cfb_frame, bulk_blocks f c inbuf fr = some g ∧
      g.iv = (stream fb c (regs_of fr) (seg inbuf fr.inp (n * c.blocksize))).iv ∧
      g.lastiv = fr.lastiv ∧ g.unused = 0 ∧ g.inp = fr.inp + n * c.blocksize ∧
      g.inbuflen = fr.inbuflen - n * c.blocksize ∧
      g.out = (stream fb c (regs_of fr) (seg inbuf fr.inp (n * c.blocksize))).out := by
    refine ⟨⟨(stream fb c (bare (regs_of fr)) (seg inbuf fr.inp (n * c.blocksize))).iv,
      fr.lastiv, fr.unused, fr.inp + n * c.blocksize, fr.inbuflen - n * c.blocksize,
      fr.out ++ (stream fb c (bare (regs_of fr)) (seg inbuf fr.inp (n * c.blocksize))).out,
      fr.calls⟩, ?_, b3.symm, rfl, hu, rfl, rfl, b2.symm⟩
    simp only [bulk_blocks, hn]
    rw [if_neg (by omega), hc, usub_eq hnle]
    rfl
  obtain ⟨g, hg, g1, g2, g3, g4, g5, g6⟩ := hbulk
  have hl : last_block (fb_stmt fb) c inbuf g = some g := by
    simp only [last_block]; rw [if_neg (by omega)]
  rw [hg, Option.bind_eq_bind, Option.some_bind, hl, Option.some_bind,
    tail_bytes_stream fb c inbuf g hpos henc (by rw [g1]; exact k2) (by rw [g2]; exact hlast)
      g3 (by omega) (by omega)]
  rw [show g.inp + g.inbuflen = inbuf.length by omega]
  refine ⟨_, rfl, ?_⟩
  have hT : stream fb c (regs_of fr) (inbuf.drop fr.inp) =
      stream fb c (stream fb c (regs_of fr) (seg inbuf fr.inp (n * c.blocksize)))
        (seg inbuf g.inp g.inbuflen) := by
    rw [← stream_append, seg_all inbuf g.inp _ (by omega), g4, seg_append_drop]
  rw [hT]
  obtain ⟨a1, a2, a3⟩ := stream_agree fb c (regs_of g)
    (stream fb c (regs_of fr) (seg inbuf fr.inp (n * c.blocksize)))
    (seg inbuf g.inp g.inbuflen) g1 (by show g.unused = _; rw [g3, k1]) g6
  refine ⟨a1, a2, a3, ?_⟩
  exact (stream_wf fb c hpos henc _ (regs_of g) (by show g.iv.length = _; rw [g1]; exact k2)
    (by show g.lastiv.length = _; rw [g2]; exact hlast) (by show g.unused < _; omega)).2.1

/-- A successful call, with or without an accelerator that meets its contract,
ends with the register, the pending count and the output of the byte stream
over the input. -/
theorem cfb_crypt_stream (fb : Nat → Nat → Nat) (bulk : Option bulk_fn)
    (c : gcry_cipher_handle) (outbuflen : Nat) (inbuf : List Nat) (hwf : well_formed c)
    (hbulk : ∀ f, bulk = some f → meets_contract (fb_stmt fb) c f)
    (hcap : inbuf.length ≤ outbuflen) :
    ∃ s : cfb_regs, cfb_crypt (fb_stmt fb) bulk c outbuflen inbuf = some (done c s) ∧
      agrees c s (stream fb c (regs_in c) inbuf) := by
  have hscalar := cfb_crypt_scalar fb c outbuflen inbuf hwf hcap
  have hself : agrees c (stream fb c (regs_in c) inbuf) (stream fb c (regs_in c) inbuf) :=
    ⟨rfl, rfl, rfl, (stream_wf fb c hwf.pos hwf.enc_len inbuf (regs_in c) hwf.iv_len
      hwf.lastiv_len hwf.unused_lt).2.1⟩
  cases bulk with
  | none => exact ⟨_, hscalar, hself⟩
  | some f =>
    obtain ⟨hpos, hlen, hlast, hult, henc⟩ := hwf
    by_cases hs : inbuf.length ≤ c.unused
    · refine ⟨_, ?_, hself⟩
      rw [← hscalar]
      unfold cfb_crypt
      rw [if_neg (by omega), if_pos hs, if_neg (by omega), if_pos hs]
    · have hin : (enter c inbuf).inp + (enter c inbuf).unused ≤ inbuf.length := by
        simp only [enter]; omega
      have hseg := seg_length inbuf _ _ hin
      obtain ⟨h1, h2, -, h4⟩ := stream_pending fb c
        (seg inbuf (enter c inbuf).inp (enter c inbuf).unused) (regs_of (enter c inbuf))
        (by rw [hseg]; exact Nat.le_refl _)
      rw [hseg] at h1
      have hdrain := drain_unused_stream fb c inbuf (enter c inbuf) hlen (Nat.le_of_lt hult)
        (by simp only [enter]; omega) hin
      by_cases h2b : c.blocksize + c.blocksize ≤ inbuf.length - c.unused
      · obtain ⟨s, e1, e2, e3, e4, e5⟩ := rest_bulk_stream fb c inbuf f hpos henc
          (hbulk f rfl)
          (put (stream fb c (regs_of (enter c inbuf))
              (seg inbuf (enter c inbuf).inp (enter c inbuf).unused))
            ((enter c inbuf).inp + (enter c inbuf).unused)
            ((enter c inbuf).inbuflen - (enter c inbuf).unused))
          (by simp only [put]; rw [h4]; exact hlen)
          (by simp only [put]; rw [h2]; exact hlast)
          (by simp only [put]; rw [h1]; simp [regs_of])
          (by simp only [put, enter]; omega)
        have hT : stream fb c (regs_of (put (stream fb c (regs_of (enter c inbuf))
              (seg inbuf (enter c inbuf).inp (enter c inbuf).unused))
            ((enter c inbuf).inp + (enter c inbuf).unused)
            ((enter c inbuf).inbuflen - (enter c inbuf).unused)))
            (inbuf.drop (put (stream fb c (regs_of (enter c inbuf))
              (seg inbuf (enter c inbuf).inp (enter c inbuf).unused))
            ((enter c inbuf).inp + (enter c inbuf).unused)
            ((enter c inbuf).inbuflen - (enter c inbuf).unused)).inp)
            = stream fb c (regs_in c) inbuf := by
          have h5 : regs_of (put (stream fb c (regs_of (enter c inbuf))
              (seg inbuf (enter c inbuf).inp (enter c inbuf).unused))
            ((enter c inbuf).inp + (enter c inbuf).unused)
            ((enter c inbuf).inbuflen - (enter c inbuf).unused))
            = stream fb c (regs_of (enter c inbuf))
              (seg inbuf (enter c inbuf).inp (enter c inbuf).unused) := rfl
          rw [h5]
          simp only [put]
          rw [← stream_append, seg_append_drop]
          rfl
        rw [hT] at e2 e3 e4
        refine ⟨s, ?_, e2, e3, e4, e5⟩
        unfold cfb_crypt
        rw [if_neg (by omega), if_neg hs, hdrain]
        simp only [Option.bind_eq_bind, Option.some_bind]
        rw [whole_blocks_bulk _ _ _ _ _ (by simp only [put, enter]; exact h2b)]
        simp only [Option.bind_eq_bind] at e1
        rw [e1]
        simp only [Option.map_some', leave_put]
      · refine ⟨_, ?_, hself⟩
        rw [← hscalar]
        unfold cfb_crypt
        rw [if_neg (by omega), if_neg hs, if_neg (by omega), if_neg hs, hdrain]
        simp only [Option.bind_eq_bind, Option.some_bind]
        rw [whole_blocks_small _ (some f) _ _ _ (by simp only [put, enter]; exact h2b),
          whole_blocks_none]

/-! ## Decryption undoes encryption, byte by byte -/

theorem feed_round_trip (c : gcry_cipher_handle) (se sd : cfb_regs) (b : Nat)
    (hiv : se.iv = sd.iv) (hu : se.unused = sd.unused) :
    ∃ v : Nat, (feed fb_enc c (bare se) b).out = [v] ∧
      (feed fb_dec c sd v).iv = (feed fb_enc c se b).iv ∧
      (feed fb_dec c sd v).unused = (feed fb_enc c se b).unused ∧
      (feed fb_dec c sd v).out = sd.out ++ [b] := by
  by_cases h0 : se.unused = 0
  · have h1 : sd.unused = 0 := by rw [← hu]; exact h0
    have h2 : (bare se).unused = 0 := h0
    refine ⟨(c.encrypt se.iv).getD (c.blocksize - c.blocksize) 0 ^^^ b, ?_, ?_, ?_, ?_⟩
    · simp only [feed, bare, h0, if_true, absorb, refill, List.nil_append]
    · simp only [feed, h0, h1, if_true, absorb, refill, bare, fb_enc, fb_dec, hiv]
    · simp only [feed, h0, h1, if_true, absorb, refill]
    · simp only [feed, h1, if_true, absorb, refill, bare, hiv, Nat.xor_cancel_left]
  · have h1 : ¬ sd.unused = 0 := by rw [← hu]; exact h0
    have h2 : ¬ (bare se).unused = 0 := h0
    refine ⟨se.iv.getD (c.blocksize - se.unused) 0 ^^^ b, ?_, ?_, ?_, ?_⟩
    · simp only [feed, bare, h0, if_false, absorb, List.nil_append]
    · simp only [feed, h0, h1, if_false, absorb, bare, fb_enc, fb_dec, hiv, hu]
    · simp only [feed, h0, h1, if_false, absorb, hu]
    · simp only [feed, h1, if_false, absorb, bare, hiv, hu, Nat.xor_cancel_left]

/-- Decrypting what the encrypting stream produced, from registers with the
same register and pending count, gives back the input and keeps the two
streams in step. -/
theorem stream_round_trip (c : gcry_cipher_handle) :
    ∀ (M : List Nat) (se sd : cfb_regs), se.iv = sd.iv → se.unused = sd.unused →
      (stream fb_dec c sd (stream fb_enc c (bare se) M).out).iv = (stream fb_enc c se M).iv ∧
      (stream fb_dec c sd (stream fb_enc c (bare se) M).out).unused
        = (stream fb_enc c se M).unused ∧
      (stream fb_dec c sd (stream fb_enc c (bare se) M).out).out = sd.out ++ M
  | [], se, sd, hiv, hu => by
    simp only [stream_nil, bare, List.append_nil]
    exact ⟨hiv.symm, hu.symm, trivial⟩
  | b :: rest, se, sd, hiv, hu => by
    obtain ⟨v, hv, f1, f2, f3⟩ := feed_round_trip c se sd b hiv hu
    obtain ⟨g1, g2⟩ := stream_bare fb_enc c rest (feed fb_enc c (bare se) b)
    obtain ⟨k1, -⟩ := feed_bare fb_enc c se b
    have hout : (stream fb_enc c (bare se) (b :: rest)).out
        = v :: (stream fb_enc c (bare (feed fb_enc c se b)) rest).out := by
      rw [stream_cons, g2, hv, k1]; rfl
    obtain ⟨i1, i2, i3⟩ := stream_round_trip c rest (feed fb_enc c se b) (feed fb_dec c sd v)
      f1.symm f2.symm
    rw [hout]
    simp only [stream_cons]
    refine ⟨i1, i2, ?_⟩
    rw [i3, f3, List.append_assoc]; rfl

/-! ## The stream depends on the handle only through the block cipher -/

theorem stream_static (fb : Nat → Nat → Nat) (c d : gcry_cipher_handle)
    (hbs : d.blocksize = c.blocksize) (henc : d.encrypt = c.encrypt) (s : cfb_regs)
    (bytes : List Nat) : stream fb d s bytes = stream fb c s bytes := by
  have hfeed : feed fb d = feed fb c := by
    funext t b
    simp only [feed, absorb, refill, hbs, henc]
  simp only [stream, hfeed]

theorem scalar_blocks_static (stmt : byte_stmt) (c d : gcry_cipher_handle)
    (hbs : d.blocksize = c.blocksize) (henc : d.encrypt = c.encrypt) (inbuf : List Nat) :
    ∀ (n : Nat) (fr : cfb_frame),
      scalar_blocks stmt d inbuf n fr = scalar_blocks stmt c inbuf n fr
  | 0, _ => rfl
  | n + 1, fr => by
    have hb : block_step stmt d inbuf fr = block_step stmt c inbuf fr := by
      simp only [block_step, hbs, henc]
    simp only [scalar_blocks, hb]
    cases block_step stmt c inbuf fr with
    | none => rfl
    | some fr1 => exact scalar_blocks_static stmt c d hbs henc inbuf n fr1

theorem meets_contract_static (stmt : byte_stmt) (c d : gcry_cipher_handle)
    (hbs : d.blocksize = c.blocksize) (henc : d.encrypt = c.encrypt) (f : bulk_fn)
    (h : meets_contract stmt c f) : meets_contract stmt d f := by
  intro iv inbuf n h1 h2
  rw [hbs] at h1 h2 ⊢
  rw [scalar_blocks_static stmt c d hbs henc]
  exact h iv inbuf n h1 h2

/-- A successful call keeps the handle well formed. -/
theorem done_well_formed (c : gcry_cipher_handle) (s : cfb_regs) (hwf : well_formed c)
    (hiv : s.iv.length = c.blocksize) (hlast : s.lastiv.length = c.blocksize)
    (hu : s.unused < c.blocksize) : well_formed (done c s).c :=
  ⟨hwf.pos, hiv, hlast, hu, hwf.enc_len⟩

/-! ## Sequences of calls -/

theorem stream_out_length (fb : Nat → Nat → Nat) (c : gcry_cipher_handle) :
    ∀ (bytes : List Nat) (s : cfb_regs),
      (stream fb c s bytes).out.length = s.out.length + bytes.length
  | [], s => by simp
  | b :: rest, s => by
    have h : (feed fb c s b).out.length = s.out.length + 1 := by
      by_cases h0 : s.unused = 0
      · simp [feed, h0, absorb, refill]
      · simp [feed, h0, absorb]
    rw [stream_cons, stream_out_length fb c rest, h, List.length_cons]
    omega

/-- Successive calls on the pieces of an input run the byte stream over the
whole input. -/
theorem successive_stream (fb : Nat → Nat → Nat) (sel : gcry_cipher_handle → Option bulk_fn)
    (hsel : ∀ (c : gcry_cipher_handle) (s : cfb_regs), sel (done c s).c = sel c) :
    ∀ (pieces : List (List Nat)) (c : gcry_cipher_handle), well_formed c →
      (∀ f, sel c = some f → meets_contract (fb_stmt fb) c f) →
      ∃ p : gcry_cipher_handle × List Nat,
        successive (fun d n m => cfb_crypt (fb_stmt fb) (sel d) d n m) c pieces = some p ∧
        p.2 = (stream fb c (regs_in c) pieces.flatten).out ∧
        p.1.iv = (stream fb c (regs_in c) pieces.flatten).iv ∧
        p.1.unused = (stream fb c (regs_in c) pieces.flatten).unused
  | [], c, _, _ => ⟨(c, []), rfl, rfl, rfl, rfl⟩
  | m :: ms, c, hwf, hb => by
    obtain ⟨s, hs, a1, a2, a3, a4⟩ :=
      cfb_crypt_stream fb (sel c) c m.length m hwf hb (Nat.le_refl _)
    obtain ⟨w1, w2, w3⟩ := stream_wf fb c hwf.pos hwf.enc_len m (regs_in c) hwf.iv_len
      hwf.lastiv_len hwf.unused_lt
    have hwf1 : well_formed (done c s).c :=
      done_well_formed c s hwf (by rw [a1]; exact w1) a4 (by rw [a2]; exact w3)
    have hb1 : ∀ f, sel (done c s).c = some f → meets_contract (fb_stmt fb) (done c s).c f := by
      intro f hf
      rw [hsel] at hf
      exact meets_contract_static (fb_stmt fb) c (done c s).c rfl rfl f (hb f hf)
    obtain ⟨p, hp, q1, q2, q3⟩ := successive_stream fb sel hsel ms (done c s).c hwf1 hb1
    rw [stream_static fb c (done c s).c rfl rfl] at q1 q2 q3
    obtain ⟨e1, e2, e3⟩ := stream_agree fb c (regs_in (done c s).c)
      (bare (stream fb c (regs_in c) m)) ms.flatten a1 a2 rfl
    obtain ⟨b1, b2⟩ := stream_bare fb c ms.flatten (stream fb c (regs_in c) m)
    have b3 := congrArg (fun r : cfb_regs => r.iv) b1
    have b4 := congrArg (fun r : cfb_regs => r.unused) b1
    simp only [bare] at b3 b4
    refine ⟨(p.1, (done c s).outbuf ++ p.2), ?_, ?_, ?_, ?_⟩
    · simp only [successive, hs, hp]
    · simp only [List.flatten_cons, stream_append]
      rw [b2, q1, e3]
      simp only [done, a3, bare, List.nil_append]
    · simp only [List.flatten_cons, stream_append]
      rw [q2, e1]; exact b3.symm
    · simp only [List.flatten_cons, stream_append]
      rw [q3, e2]; exact b4.symm

theorem scalar_bulk_meets_contract (fb : Nat → Nat → Nat) (c : gcry_cipher_handle)
    (hpos : 0 < c.blocksize)
    (henc : ∀ x : List Nat, x.length = c.blocksize → (c.encrypt x).length = c.blocksize) :
    meets_contract (fb_stmt fb) c (scalar_bulk (fb_stmt fb) c) := by
  intro iv inbuf n hlen hin
  simp only [scalar_bulk]
  rw [scalar_blocks_stream fb c inbuf hpos henc n (fresh iv (n * c.blocksize)) hlen rfl
    (Nat.le_refl _) (by simp only [fresh]; omega)]
  rfl

theorem toy_well_formed (iv lastiv : List Nat) (unused : Nat) (h1 : iv.length = 4)
    (h2 : lastiv.length = 4) (h3 : unused < 4) : well_formed (toy iv lastiv unused) :=
  ⟨Nat.succ_pos 3, h1, h2, h3, by intro x hx; simp only [toy, List.length_map]; exact hx⟩

theorem toy_bulk_ok (iv lastiv : List Nat) (unused : Nat) : bulk_ok (toy iv lastiv unused) :=
  ⟨by intro f hf; simp [toy] at hf, by intro f hf; simp [toy] at hf⟩

/-! ## The contract of the two functions -/

theorem bulk_ok_enc (c : gcry_cipher_handle) (hb : bulk_ok c) :
    ∀ f, c.cfb_enc = some f → meets_contract (fb_stmt fb_enc) c f := by
  intro f hf
  have h := hb.1 f hf
  rw [enc_xor_byte_eq] at h
  exact h

theorem bulk_ok_dec (c : gcry_cipher_handle) (hb : bulk_ok c) :
    ∀ f, c.cfb_dec = some f → meets_contract (fb_stmt fb_dec) c f := by
  intro f hf
  have h := hb.2 f hf
  rw [dec_xor_byte_eq] at h
  exact h

/-- A successful encryption ends with the register, the pending count and the
output of the encrypting byte stream. -/
theorem encrypt_stream (c : gcry_cipher_handle) (outbuflen : Nat) (inbuf : List Nat)
    (hwf : well_formed c) (hb : bulk_ok c) (hcap : inbuf.length ≤ outbuflen) :
    ∃ s : cfb_regs, _gcry_cipher_cfb_encrypt c outbuflen inbuf = some (done c s) ∧
      agrees c s (stream fb_enc c (regs_in c) inbuf) := by
  unfold _gcry_cipher_cfb_encrypt
  rw [enc_xor_byte_eq]
  exact cfb_crypt_stream fb_enc c.cfb_enc c outbuflen inbuf hwf (bulk_ok_enc c hb) hcap

/-- A successful decryption ends with the register, the pending count and the
output of the decrypting byte stream. -/
theorem decrypt_stream (c : gcry_cipher_handle) (outbuflen : Nat) (inbuf : List Nat)
    (hwf : well_formed c) (hb : bulk_ok c) (hcap : inbuf.length ≤ outbuflen) :
    ∃ s : cfb_regs, _gcry_cipher_cfb_decrypt c outbuflen inbuf = some (done c s) ∧
      agrees c s (stream fb_dec c (regs_in c) inbuf) := by
  unfold _gcry_cipher_cfb_decrypt
  rw [dec_xor_byte_eq]
  exact cfb_crypt_stream fb_dec c.cfb_dec c outbuflen inbuf hwf (bulk_ok_dec c hb) hcap

theorem cfb_crypt_short (stmt : byte_stmt) (bulk : Option bulk_fn) (c : gcry_cipher_handle)
    (outbuflen : Nat) (inbuf : List Nat) (h : outbuflen < inbuf.length) :
    cfb_crypt stmt bulk c outbuflen inbuf =
      some { rc := GPG_ERR_BUFFER_TOO_SHORT, c := c, outbuf := [], enc_calls := [] } := by
  unfold cfb_crypt
  rw [if_pos h]

theorem cfb_crypt_empty (stmt : byte_stmt) (bulk : Option bulk_fn) (c : gcry_cipher_handle)
    (outbuflen : Nat) :
    cfb_crypt stmt bulk c outbuflen [] =
      some { rc := 0, c := c, outbuf := [], enc_calls := [] } := by
  unfold cfb_crypt
  rw [if_neg (by simp), if_pos (by simp)]
  simp only [short_input, enter, List.length_nil, xor_loop, usub, Nat.zero_le, if_true,
    Option.bind_eq_bind, Option.some_bind, Option.pure_def, Option.map_some', leave,
    Nat.sub_zero]

/-- C1. Round trip: on a well-formed handle whose accelerators, if any, meet
their contract, and for every message `M`, encryption succeeds with some output
`C`, and decryption of `C` on the same initial handle succeeds and outputs
exactly `M`. -/
theorem C1_round_trip (c : gcry_cipher_handle) (outbuflen outbuflen2 : Nat) (M : List Nat)
    (hwf : well_formed c) (hb : bulk_ok c) (h1 : M.length ≤ outbuflen)
    (h2 : M.length ≤ outbuflen2) :
    ∃ re rd : cfb_result, _gcry_cipher_cfb_encrypt c outbuflen M = some re ∧ re.rc = 0 ∧
      _gcry_cipher_cfb_decrypt c outbuflen2 re.outbuf = some rd ∧ rd.rc = 0 ∧
      rd.outbuf = M := by
  obtain ⟨se, he, -, -, e3, -⟩ := encrypt_stream c outbuflen M hwf hb h1
  have hlen : (done c se).outbuf.length = M.length := by
    show se.out.length = _
    rw [e3, stream_out_length]
    simp [regs_in]
  obtain ⟨sd, hd, -, -, d3, -⟩ :=
    decrypt_stream c outbuflen2 (done c se).outbuf hwf hb (by rw [hlen]; exact h2)
  refine ⟨done c se, done c sd, he, rfl, hd, rfl, ?_⟩
  show sd.out = M
  rw [d3]
  have hC : (done c se).outbuf = (stream fb_enc c (bare (regs_in c)) M).out := by
    show se.out = _
    rw [e3, (stream_bare fb_enc c M (regs_in c)).2]
    rfl
  rw [hC]
  obtain ⟨-, -, r3⟩ := stream_round_trip c M (regs_in c) (regs_in c) rfl rfl
  rw [r3]; rfl

/-- Witness of C1 on the toy handle with five bytes. -/
theorem C1_round_trip_witness :
    ∃ re rd : cfb_result,
      _gcry_cipher_cfb_encrypt (toy [0, 0, 0, 0] [0, 0, 0, 0] 0) 5 [1, 2, 3, 4, 5] = some re ∧
      re.rc = 0 ∧
      _gcry_cipher_cfb_decrypt (toy [0, 0, 0, 0] [0, 0, 0, 0] 0) 5 re.outbuf = some rd ∧
      rd.rc = 0 ∧ rd.outbuf = [1, 2, 3, 4, 5] :=
  C1_round_trip (toy [0, 0, 0, 0] [0, 0, 0, 0] 0) 5 5 [1, 2, 3, 4, 5]
    (toy_well_formed _ _ _ rfl rfl (by decide)) (toy_bulk_ok _ _ _) (by decide) (by decide)

/-- C2. Streaming equivalence for Encrypt: on a well-formed handle whose
accelerators, if any, meet their contract, and for every split of an input into
consecutive pieces (empty pieces included), the successive calls of
`_gcry_cipher_cfb_encrypt` on the pieces all succeed and the concatenation of
their outputs is the output of the single call on the concatenated input. -/
theorem C2_encrypt_streaming (c : gcry_cipher_handle) (pieces : List (List Nat))
    (hwf : well_formed c) (hb : bulk_ok c) :
    ∃ (r : cfb_result) (p : gcry_cipher_handle × List Nat),
      _gcry_cipher_cfb_encrypt c pieces.flatten.length pieces.flatten = some r ∧ r.rc = 0 ∧
      successive _gcry_cipher_cfb_encrypt c pieces = some p ∧ p.2 = r.outbuf := by
  obtain ⟨s, hs, -, -, e3, -⟩ :=
    encrypt_stream c pieces.flatten.length pieces.flatten hwf hb (Nat.le_refl _)
  obtain ⟨p, hp, q1, -, -⟩ := successive_stream fb_enc (fun d => d.cfb_enc) (fun _ _ => rfl)
    pieces c hwf (bulk_ok_enc c hb)
  refine ⟨done c s, p, hs, rfl, ?_, ?_⟩
  · rw [← hp]
    show successive (fun d n m => cfb_crypt enc_xor_byte d.cfb_enc d n m) c pieces = _
    rw [enc_xor_byte_eq]
  · rw [q1]; exact e3.symm

/-- Witness of C2 on the toy handle with pieces of lengths 1, 0, 6 and 3. -/
theorem C2_encrypt_streaming_witness :
    ∃ (r : cfb_result) (p : gcry_cipher_handle × List Nat),
      _gcry_cipher_cfb_encrypt (toy [0, 0, 0, 0] [0, 0, 0, 0] 0)
        [[5], [], [1, 2, 3, 4, 5, 6], [7, 8, 9]].flatten.length
        [[5], [], [1, 2, 3, 4, 5, 6], [7, 8, 9]].flatten = some r ∧ r.rc = 0 ∧
      successive _gcry_cipher_cfb_encrypt (toy [0, 0, 0, 0] [0, 0, 0, 0] 0)
        [[5], [], [1, 2, 3, 4, 5, 6], [7, 8, 9]] = some p ∧ p.2 = r.outbuf :=
  C2_encrypt_streaming (toy [0, 0, 0, 0] [0, 0, 0, 0] 0) [[5], [], [1, 2, 3, 4, 5, 6], [7, 8, 9]]
    (toy_well_formed _ _ _ rfl rfl (by decide)) (toy_bulk_ok _ _ _)

/-- C3. Streaming equivalence for Decrypt: on a well-formed handle whose
accelerators, if any, meet their contract, and for every split of a ciphertext
into consecutive pieces, the successive calls of `_gcry_cipher_cfb_decrypt` on
the pieces all succeed and the concatenation of their outputs is the output of
the single call on the concatenated ciphertext. -/
theorem C3_decrypt_streaming (c : gcry_cipher_handle) (pieces : List (List Nat))
    (hwf : well_formed c) (hb : bulk_ok c) :
    ∃ (r : cfb_result) (p : gcry_cipher_handle × List Nat),
      _gcry_cipher_cfb_decrypt c pieces.flatten.length pieces.flatten = some r ∧ r.rc = 0 ∧
      successive _gcry_cipher_cfb_decrypt c pieces = some p ∧ p.2 = r.outbuf := by
  obtain ⟨s, hs, -, -, e3, -⟩ :=
    decrypt_stream c pieces.flatten.length pieces.flatten hwf hb (Nat.le_refl _)
  obtain ⟨p, hp, q1, -, -⟩ := successive_stream fb_dec (fun d => d.cfb_dec) (fun _ _ => rfl)
    pieces c hwf (bulk_ok_dec c hb)
  refine ⟨done c s, p, hs, rfl, ?_, ?_⟩
  · rw [← hp]
    show successive (fun d n m => cfb_crypt dec_xor_byte d.cfb_dec d n m) c pieces = _
    rw [dec_xor_byte_eq]
  · rw [q1]; exact e3.symm

/-- Witness of C3 on the toy handle with pieces of lengths 2, 7, 0 and 1. -/
theorem C3_decrypt_streaming_witness :
    ∃ (r : cfb_result) (p : gcry_cipher_handle × List Nat),
      _gcry_cipher_cfb_decrypt (toy [9, 8, 7, 6] [0, 0, 0, 0] 2)
        [[5, 4], [1, 2, 3, 4, 5, 6, 7], [], [9]].flatten.length
        [[5, 4], [1, 2, 3, 4, 5, 6, 7], [], [9]].flatten = some r ∧ r.rc = 0 ∧
      successive _gcry_cipher_cfb_decrypt (toy [9, 8, 7, 6] [0, 0, 0, 0] 2)
        [[5, 4], [1, 2, 3, 4, 5, 6, 7], [], [9]] = some p ∧ p.2 = r.outbuf :=
  C3_decrypt_streaming (toy [9, 8, 7, 6] [0, 0, 0, 0] 2) [[5, 4], [1, 2, 3, 4, 5, 6, 7], [], [9]]
    (toy_well_formed _ _ _ rfl rfl (by decide)) (toy_bulk_ok _ _ _)

/-- C4. Bulk/scalar equivalence: on a well-formed handle, for accelerators `f`
and `g` that meet their contract and every input (in particular every input of
at least two blocks, where the accelerator is invoked), Encrypt with `f`
installed and Encrypt with no accelerator both succeed with the same output
bytes, final register and pending count; likewise Decrypt with `g` installed
and with no accelerator. -/
theorem C4_bulk_scalar_equivalence (c : gcry_cipher_handle) (f g : bulk_fn)
    (outbuflen : Nat) (inbuf : List Nat) (hwf : well_formed c)
    (hf : meets_contract enc_xor_byte c f) (hg : meets_contract dec_xor_byte c g)
    (hcap : inbuf.length ≤ outbuflen) :
    (∃ ra rs : cfb_result,
      _gcry_cipher_cfb_encrypt { c with cfb_enc := some f } outbuflen inbuf = some ra ∧
      _gcry_cipher_cfb_encrypt { c with cfb_enc := none } outbuflen inbuf = some rs ∧
      ra.rc = 0 ∧ rs.rc = 0 ∧ ra.outbuf = rs.outbuf ∧ ra.c.iv = rs.c.iv ∧
      ra.c.unused = rs.c.unused) ∧
    (∃ ra rs : cfb_result,
      _gcry_cipher_cfb_decrypt { c with cfb_dec := some g } outbuflen inbuf = some ra ∧
      _gcry_cipher_cfb_decrypt { c with cfb_dec := none } outbuflen inbuf = some rs ∧
      ra.rc = 0 ∧ rs.rc = 0 ∧ ra.outbuf = rs.outbuf ∧ ra.c.iv = rs.c.iv ∧
      ra.c.unused = rs.c.unused) := by
  rw [enc_xor_byte_eq] at hf
  rw [dec_xor_byte_eq] at hg
  have wf1 : ∀ d : gcry_cipher_handle, d.blocksize = c.blocksize → d.encrypt = c.encrypt →
      d.iv = c.iv → d.lastiv = c.lastiv → d.unused = c.unused → well_formed d := by
    intro d h1 h2 h3 h4 h5
    exact ⟨by rw [h1]; exact hwf.pos, by rw [h1, h3]; exact hwf.iv_len,
      by rw [h1, h4]; exact hwf.lastiv_len, by rw [h1, h5]; exact hwf.unused_lt,
      by rw [h1, h2]; exact hwf.enc_len⟩
  constructor
  · obtain ⟨sa, ha, a1, a2, a3, -⟩ := cfb_crypt_stream fb_enc (some f)
      { c with cfb_enc := some f } outbuflen inbuf (wf1 _ rfl rfl rfl rfl rfl)
      (by
        intro f2 hf2
        cases hf2
        exact meets_contract_static (fb_stmt fb_enc) c { c with cfb_enc := some f } rfl rfl f hf) hcap
    have hs := cfb_crypt_scalar fb_enc { c with cfb_enc := none } outbuflen inbuf
      (wf1 _ rfl rfl rfl rfl rfl) hcap
    refine ⟨done { c with cfb_enc := some f } sa,
      done { c with cfb_enc := none }
        (stream fb_enc { c with cfb_enc := none } (regs_in { c with cfb_enc := none }) inbuf),
      ?_, ?_, rfl, rfl, ?_, ?_, ?_⟩
    · unfold _gcry_cipher_cfb_encrypt; rw [enc_xor_byte_eq]; exact ha
    · unfold _gcry_cipher_cfb_encrypt; rw [enc_xor_byte_eq]; exact hs
    · show sa.out = _
      rw [a3, stream_static fb_enc c { c with cfb_enc := some f } rfl rfl]
      show _ = (stream fb_enc { c with cfb_enc := none } (regs_in c) inbuf).out
      rw [stream_static fb_enc c { c with cfb_enc := none } rfl rfl]
      rfl
    · show sa.iv = _
      rw [a1, stream_static fb_enc c { c with cfb_enc := some f } rfl rfl]
      show _ = (stream fb_enc { c with cfb_enc := none } (regs_in c) inbuf).iv
      rw [stream_static fb_enc c { c with cfb_enc := none } rfl rfl]
      rfl
    · show sa.unused = _
      rw [a2, stream_static fb_enc c { c with cfb_enc := some f } rfl rfl]
      show _ = (stream fb_enc { c with cfb_enc := none } (regs_in c) inbuf).unused
      rw [stream_static fb_enc c { c with cfb_enc := none } rfl rfl]
      rfl
  · obtain ⟨sa, ha, a1, a2, a3, -⟩ := cfb_crypt_stream fb_dec (some g)
      { c with cfb_dec := some g } outbuflen inbuf (wf1 _ rfl rfl rfl rfl rfl)
      (by
        intro f2 hf2
        cases hf2
        exact meets_contract_static (fb_stmt fb_dec) c { c with cfb_dec := some g } rfl rfl g hg) hcap
    have hs := cfb_crypt_scalar fb_dec { c with cfb_dec := none } outbuflen inbuf
      (wf1 _ rfl rfl rfl rfl rfl) hcap
    refine ⟨done { c with cfb_dec := some g } sa,
      done { c with cfb_dec := none }
        (stream fb_dec { c with cfb_dec := none } (regs_in { c with cfb_dec := none }) inbuf),
      ?_, ?_, rfl, rfl, ?_, ?_, ?_⟩
    · unfold _gcry_cipher_cfb_decrypt; rw [dec_xor_byte_eq]; exact ha
    · unfold _gcry_cipher_cfb_decrypt; rw [dec_xor_byte_eq]; exact hs
    · show sa.out = _
      rw [a3, stream_static fb_dec c { c with cfb_dec := some g } rfl rfl]
      show _ = (stream fb_dec { c with cfb_dec := none } (regs_in c) inbuf).out
      rw [stream_static fb_dec c { c with cfb_dec := none } rfl rfl]
      rfl
    · show sa.iv = _
      rw [a1, stream_static fb_dec c { c with cfb_dec := some g } rfl rfl]
      show _ = (stream fb_dec { c with cfb_dec := none } (regs_in c) inbuf).iv
      rw [stream_static fb_dec c { c with cfb_dec := none } rfl rfl]
      rfl
    · show sa.unused = _
      rw [a2, stream_static fb_dec c { c with cfb_dec := some g } rfl rfl]
      show _ = (stream fb_dec { c with cfb_dec := none } (regs_in c) inbuf).unused
      rw [stream_static fb_dec c { c with cfb_dec := none } rfl rfl]
      rfl

theorem scalar_bulk_enc_ok (c : gcry_cipher_handle) (hwf : well_formed c) :
    meets_contract enc_xor_byte c (scalar_bulk enc_xor_byte c) := by
  rw [enc_xor_byte_eq]
  exact scalar_bulk_meets_contract fb_enc c hwf.pos hwf.enc_len

theorem scalar_bulk_dec_ok (c : gcry_cipher_handle) (hwf : well_formed c) :
    meets_contract dec_xor_byte c (scalar_bulk dec_xor_byte c) := by
  rw [dec_xor_byte_eq]
  exact scalar_bulk_meets_contract fb_dec c hwf.pos hwf.enc_len

/-- Witness of C4 on the toy handle, the reference accelerators and nine bytes. -/
theorem C4_bulk_scalar_equivalence_witness :
    (∃ ra rs : cfb_result,
      _gcry_cipher_cfb_encrypt
        { toy [0, 0, 0, 0] [0, 0, 0, 0] 0 with
          cfb_enc := some (scalar_bulk enc_xor_byte (toy [0, 0, 0, 0] [0, 0, 0, 0] 0)) }
        9 [1, 2, 3, 4, 5, 6, 7, 8, 9] = some ra ∧
      _gcry_cipher_cfb_encrypt { toy [0, 0, 0, 0] [0, 0, 0, 0] 0 with cfb_enc := none }
        9 [1, 2, 3, 4, 5, 6, 7, 8, 9] = some rs ∧
      ra.rc = 0 ∧ rs.rc = 0 ∧ ra.outbuf = rs.outbuf ∧ ra.c.iv = rs.c.iv ∧
      ra.c.unused = rs.c.unused) ∧
    (∃ ra rs : cfb_result,
      _gcry_cipher_cfb_decrypt
        { toy [0, 0, 0, 0] [0, 0, 0, 0] 0 with
          cfb_dec := some (scalar_bulk dec_xor_byte (toy [0, 0, 0, 0] [0, 0, 0, 0] 0)) }
        9 [1, 2, 3, 4, 5, 6, 7, 8, 9] = some ra ∧
      _gcry_cipher_cfb_decrypt { toy [0, 0, 0, 0] [0, 0, 0, 0] 0 with cfb_dec := none }
        9 [1, 2, 3, 4, 5, 6, 7, 8, 9] = some rs ∧
      ra.rc = 0 ∧ rs.rc = 0 ∧ ra.outbuf = rs.outbuf ∧ ra.c.iv = rs.c.iv ∧
      ra.c.unused = rs.c.unused) :=
  C4_bulk_scalar_equivalence (toy [0, 0, 0, 0] [0, 0, 0, 0] 0)
    (scalar_bulk enc_xor_byte (toy [0, 0, 0, 0] [0, 0, 0, 0] 0))
    (scalar_bulk dec_xor_byte (toy [0, 0, 0, 0] [0, 0, 0, 0] 0))
    9 [1, 2, 3, 4, 5, 6, 7, 8, 9]
    (toy_well_formed _ _ _ rfl rfl (by decide))
    (scalar_bulk_enc_ok _ (toy_well_formed _ _ _ rfl rfl (by decide)))
    (scalar_bulk_dec_ok _ (toy_well_formed _ _ _ rfl rfl (by decide)))
    (by decide)

/-- C5. Error condition: on a well-formed handle whose accelerators, if any,
meet their contract, both functions return, and they return
`GPG_ERR_BUFFER_TOO_SHORT` if and only if `outbuflen < inbuflen`; when
`outbuflen >= inbuflen` they return 0, and no other value is ever returned. -/
theorem C5_error_condition (c : gcry_cipher_handle) (outbuflen : Nat) (inbuf : List Nat)
    (hwf : well_formed c) (hb : bulk_ok c) :
    ∃ re rd : cfb_result,
      _gcry_cipher_cfb_encrypt c outbuflen inbuf = some re ∧
      _gcry_cipher_cfb_decrypt c outbuflen inbuf = some rd ∧
      (re.rc = GPG_ERR_BUFFER_TOO_SHORT ↔ outbuflen < inbuf.length) ∧
      (rd.rc = GPG_ERR_BUFFER_TOO_SHORT ↔ outbuflen < inbuf.length) ∧
      (inbuf.length ≤ outbuflen → re.rc = 0 ∧ rd.rc = 0) ∧
      (re.rc = 0 ∨ re.rc = GPG_ERR_BUFFER_TOO_SHORT) ∧
      (rd.rc = 0 ∨ rd.rc = GPG_ERR_BUFFER_TOO_SHORT) := by
  by_cases h : outbuflen < inbuf.length
  · refine ⟨_, _, cfb_crypt_short enc_xor_byte c.cfb_enc c outbuflen inbuf h,
      cfb_crypt_short dec_xor_byte c.cfb_dec c outbuflen inbuf h, ?_, ?_, ?_, ?_, ?_⟩
    · exact ⟨fun _ => h, fun _ => rfl⟩
    · exact ⟨fun _ => h, fun _ => rfl⟩
    · intro h2; omega
    · exact Or.inr rfl
    · exact Or.inr rfl
  · obtain ⟨se, he, -⟩ := encrypt_stream c outbuflen inbuf hwf hb (by omega)
    obtain ⟨sd, hd, -⟩ := decrypt_stream c outbuflen inbuf hwf hb (by omega)
    refine ⟨_, _, he, hd, ?_, ?_, ?_, Or.inl rfl, Or.inl rfl⟩
    · constructor
      · intro h2
        have h3 : (0 : Nat) = GPG_ERR_BUFFER_TOO_SHORT := h2
        simp [GPG_ERR_BUFFER_TOO_SHORT] at h3
      · intro h2; exact absurd h2 h
    · constructor
      · intro h2
        have h3 : (0 : Nat) = GPG_ERR_BUFFER_TOO_SHORT := h2
        simp [GPG_ERR_BUFFER_TOO_SHORT] at h3
      · intro h2; exact absurd h2 h
    · intro _; exact ⟨rfl, rfl⟩

/-- Witness of C5 on the toy handle with a buffer one byte too short. -/
theorem C5_error_condition_witness :
    ∃ re rd : cfb_result,
      _gcry_cipher_cfb_encrypt (toy [0, 0, 0, 0] [0, 0, 0, 0] 0) 2 [1, 2, 3] = some re ∧
      _gcry_cipher_cfb_decrypt (toy [0, 0, 0, 0] [0, 0, 0, 0] 0) 2 [1, 2, 3] = some rd ∧
      (re.rc = GPG_ERR_BUFFER_TOO_SHORT ↔ 2 < [1, 2, 3].length) ∧
      (rd.rc = GPG_ERR_BUFFER_TOO_SHORT ↔ 2 < [1, 2, 3].length) ∧
      ([1, 2, 3].length ≤ 2 → re.rc = 0 ∧ rd.rc = 0) ∧
      (re.rc = 0 ∨ re.rc = GPG_ERR_BUFFER_TOO_SHORT) ∧
      (rd.rc = 0 ∨ rd.rc = GPG_ERR_BUFFER_TOO_SHORT) :=
  C5_error_condition (toy [0, 0, 0, 0] [0, 0, 0, 0] 0) 2 [1, 2, 3]
    (toy_well_formed _ _ _ rfl rfl (by decide)) (toy_bulk_ok _ _ _)

/-- C6. Atomic failure: whenever `outbuflen < inbuflen`, Encrypt and Decrypt
return `GPG_ERR_BUFFER_TOO_SHORT`, leave the handle (register, pending count and
saved register included) exactly as it was, store no output byte and invoke no
block encryption. -/
theorem C6_atomic_failure (c : gcry_cipher_handle) (outbuflen : Nat) (inbuf : List Nat)
    (h : outbuflen < inbuf.length) :
    _gcry_cipher_cfb_encrypt c outbuflen inbuf =
      some { rc := GPG_ERR_BUFFER_TOO_SHORT, c := c, outbuf := [], enc_calls := [] } ∧
    _gcry_cipher_cfb_decrypt c outbuflen inbuf =
      some { rc := GPG_ERR_BUFFER_TOO_SHORT, c := c, outbuf := [], enc_calls := [] } :=
  ⟨cfb_crypt_short enc_xor_byte c.cfb_enc c outbuflen inbuf h,
   cfb_crypt_short dec_xor_byte c.cfb_dec c outbuflen inbuf h⟩

/-- Witness of C6 on the toy handle with pending keystream and a buffer that is
too short. -/
theorem C6_atomic_failure_witness :
    _gcry_cipher_cfb_encrypt (toy [6, 1, 1, 1] [0, 0, 0, 0] 3) 1 [9, 9] =
      some { rc := GPG_ERR_BUFFER_TOO_SHORT, c := toy [6, 1, 1, 1] [0, 0, 0, 0] 3,
             outbuf := [], enc_calls := [] } ∧
    _gcry_cipher_cfb_decrypt (toy [6, 1, 1, 1] [0, 0, 0, 0] 3) 1 [9, 9] =
      some { rc := GPG_ERR_BUFFER_TOO_SHORT, c := toy [6, 1, 1, 1] [0, 0, 0, 0] 3,
             outbuf := [], enc_calls := [] } :=
  C6_atomic_failure (toy [6, 1, 1, 1] [0, 0, 0, 0] 3) 1 [9, 9] (by decide)

/-- C7. Zero-length input is a no-op success: for every handle (any pending
count, any registers, with or without accelerators) and any output capacity,
Encrypt and Decrypt of the empty input return 0, store no output byte, invoke
no block encryption and leave the handle exactly as it was. -/
theorem C7_zero_length_noop (c : gcry_cipher_handle) (outbuflen : Nat) :
    _gcry_cipher_cfb_encrypt c outbuflen [] =
      some { rc := 0, c := c, outbuf := [], enc_calls := [] } ∧
    _gcry_cipher_cfb_decrypt c outbuflen [] =
      some { rc := 0, c := c, outbuf := [], enc_calls := [] } :=
  ⟨cfb_crypt_empty enc_xor_byte c.cfb_enc c outbuflen,
   cfb_crypt_empty dec_xor_byte c.cfb_dec c outbuflen⟩

/-- C8, as stated, fails: in the scenario the first Encrypt does not output
`[6]` (the keystream byte 1 is XORed with 5, which gives 4), and from the state
the claim describes next (register `[6,1,1,1]`, three bytes pending) Encrypt of
`[9,9,9]` does not output `[10,10,10]`. -/
theorem C8_counterexample :
    (_gcry_cipher_cfb_encrypt (toy [0, 0, 0, 0] [0, 0, 0, 0] 0) 1 [5]).map
      (fun r => r.outbuf) ≠ some [6] ∧
    (_gcry_cipher_cfb_encrypt (toy [6, 1, 1, 1] [0, 0, 0, 0] 3) 3 [9, 9, 9]).map
      (fun r => r.outbuf) ≠ some [10, 10, 10] := by
  decide

/-- C8, amended. Block size 4, `encrypt(x) = x+1 mod 256` elementwise, no
accelerator, register `[0,0,0,0]`, nothing pending: Encrypt of `[5]` outputs
`[4]`, sets the pending count to 3 and leaves the register `[4,1,1,1]`; a
following Encrypt of `[9,9,9]` on that state outputs `[8,8,8]`, returns the
pending count to 0 and leaves the register `[4,8,8,8]`. -/
theorem C8_concrete_scenario :
    ∃ r1 r2 : cfb_result,
      _gcry_cipher_cfb_encrypt (toy [0, 0, 0, 0] [0, 0, 0, 0] 0) 1 [5] = some r1 ∧
      r1.rc = 0 ∧ r1.outbuf = [4] ∧ r1.c.unused = 3 ∧ r1.c.iv = [4, 1, 1, 1] ∧
      _gcry_cipher_cfb_encrypt r1.c 3 [9, 9, 9] = some r2 ∧
      r2.rc = 0 ∧ r2.outbuf = [8, 8, 8] ∧ r2.c.unused = 0 ∧ r2.c.iv = [4, 8, 8, 8] :=
  ⟨_, _, rfl, rfl, rfl, rfl, rfl, rfl, rfl, rfl, rfl, rfl⟩

/-! ## Whole blocks: textbook CFB -/

theorem take_succ_set : ∀ (l : List Nat) (p x : Nat), p < l.length →
    (l.set p x).take (p + 1) = l.take p ++ [x]
  | [], _, _, h => by simp at h
  | _ :: _, 0, _, _ => by simp
  | a :: l, p + 1, x, h => by
    simp only [List.set_cons_succ, List.take_succ_cons, List.cons_append, List.cons.injEq,
      true_and]
    exact take_succ_set l p x (by simpa using h)

/-- Bytes covered by pending keystream, in closed form: the register keeps its
head and its tail, the bytes in between receive the feedback, and the output is
the XOR of the pending keystream with the input. -/
theorem stream_pending_closed (fb : Nat → Nat → Nat) (c : gcry_cipher_handle) :
    ∀ (bytes : List Nat) (s : cfb_regs), bytes.length ≤ s.unused → s.unused ≤ c.blocksize →
      s.iv.length = c.blocksize →
      (stream fb c s bytes).iv =
        s.iv.take (c.blocksize - s.unused) ++
          List.zipWith fb (s.iv.drop (c.blocksize - s.unused)) bytes ++
          s.iv.drop (c.blocksize - s.unused + bytes.length) ∧
      (stream fb c s bytes).out =
        s.out ++ List.zipWith (fun k b => k ^^^ b) (s.iv.drop (c.blocksize - s.unused)) bytes
  | [], s, _, _, _ => by simp
  | b :: rest, s, hle, hub, hlen => by
    simp only [List.length_cons] at hle
    have hu : s.unused ≠ 0 := by omega
    have hp : c.blocksize - s.unused < s.iv.length := by omega
    have hnext : c.blocksize - (s.unused - 1) = c.blocksize - s.unused + 1 := by omega
    obtain ⟨i1, i2⟩ := stream_pending_closed fb c rest (absorb fb c s b)
      (by simp only [absorb]; omega) (by simp only [absorb]; omega)
      (by simp only [absorb, List.length_set]; exact hlen)
    simp only [stream_cons, feed, hu, if_false]
    rw [i1, i2]
    simp only [absorb, hnext, List.getD_eq_getElem _ 0 hp]
    rw [take_succ_set _ _ _ hp, List.drop_set_of_lt _ _ (by omega),
      List.drop_set_of_lt _ _ (by omega), List.drop_eq_getElem_cons hp]
    simp only [List.zipWith_cons_cons, List.append_assoc, List.cons_append, List.nil_append,
      List.length_cons]
    constructor
    · rw [show c.blocksize - s.unused + 1 + rest.length
          = c.blocksize - s.unused + (rest.length + 1) by omega]
    · trivial

/-- One whole block from no pending keystream: the output is the XOR of the
encrypted register with the block, and the register receives the feedback. -/
theorem stream_one_block (fb : Nat → Nat → Nat) (c : gcry_cipher_handle) (s : cfb_regs)
    (m : List Nat) (hpos : 0 < c.blocksize)
    (henc : ∀ x : List Nat, x.length = c.blocksize → (c.encrypt x).length = c.blocksize)
    (hlen : s.iv.length = c.blocksize) (hu : s.unused = 0) (hm : m.length = c.blocksize) :
    (stream fb c s m).iv = List.zipWith fb (c.encrypt s.iv) m ∧
    (stream fb c s m).out = s.out ++ List.zipWith (fun k b => k ^^^ b) (c.encrypt s.iv) m ∧
    (stream fb c s m).unused = 0 := by
  have hne : m ≠ [] := by
    intro h; rw [h] at hm; simp at hm; omega
  obtain ⟨h1, -, -, -⟩ := stream_fresh fb c s m hpos henc hlen hu hne (by omega)
  rw [stream_refill fb c s m hpos hu hne] at h1 ⊢
  obtain ⟨i1, i2⟩ := stream_pending_closed fb c m (refill c s)
    (by simp only [refill]; omega) (by simp only [refill]; omega)
    (by simp only [refill]; exact henc _ hlen)
  refine ⟨?_, ?_, by rw [h1, hm]; omega⟩
  · rw [i1]
    simp only [refill, Nat.sub_self, List.take_zero, List.drop_zero, List.nil_append,
      Nat.zero_add]
    rw [List.drop_eq_nil_of_le (by rw [henc _ hlen, hm]), List.append_nil]
  · rw [i2]
    simp only [refill, Nat.sub_self, List.drop_zero]

theorem zipWith_xor_comm (a b : List Nat) :
    List.zipWith (fun k m => k ^^^ m) a b = xor_block b a := by
  unfold xor_block
  exact List.zipWith_comm_of_comm _ (fun x y => Nat.xor_comm x y) a b

theorem zipWith_fb_dec : ∀ (a b : List Nat), b.length ≤ a.length →
    List.zipWith fb_dec a b = b
  | _, [], _ => by simp
  | [], _ :: _, h => by simp at h
  | x :: a, y :: b, h => by
    simp only [List.zipWith_cons_cons, fb_dec, List.cons.injEq, true_and]
    exact zipWith_fb_dec a b (by simpa using h)

theorem getLast?_getD_cons (a d : List Nat) (l : List (List Nat)) :
    ((a :: l).getLast?).getD d = (l.getLast?).getD a := by
  rw [List.getLast?_cons]
  rfl

/-- The encrypting stream over whole blocks is textbook CFB encryption. -/
theorem stream_textbook_encrypt (c : gcry_cipher_handle) (hpos : 0 < c.blocksize)
    (henc : ∀ x : List Nat, x.length = c.blocksize → (c.encrypt x).length = c.blocksize) :
    ∀ (blocks : List (List Nat)) (s : cfb_regs), s.iv.length = c.blocksize → s.unused = 0 →
      (∀ m ∈ blocks, m.length = c.blocksize) →
      (stream fb_enc c s blocks.flatten).out =
        s.out ++ (textbook_cfb_encrypt c.encrypt s.iv blocks).flatten ∧
      (stream fb_enc c s blocks.flatten).iv =
        ((textbook_cfb_encrypt c.encrypt s.iv blocks).getLast?).getD s.iv ∧
      (stream fb_enc c s blocks.flatten).unused = 0
  | [], s, _, hu, _ => by simp [textbook_cfb_encrypt, hu]
  | m :: ms, s, hlen, hu, hall => by
    have hm : m.length = c.blocksize := hall m (List.mem_cons_self _ _)
    obtain ⟨b1, b2, b3⟩ := stream_one_block fb_enc c s m hpos henc hlen hu hm
    have b1x : (stream fb_enc c s m).iv = xor_block m (c.encrypt s.iv) := by
      rw [b1]; exact zipWith_xor_comm _ _
    have b2x : (stream fb_enc c s m).out = s.out ++ xor_block m (c.encrypt s.iv) := by
      rw [b2, zipWith_xor_comm]
    have hlen1 : (stream fb_enc c s m).iv.length = c.blocksize := by
      rw [b1x]
      simp only [xor_block, List.length_zipWith, hm, henc _ hlen, Nat.min_self]
    obtain ⟨i1, i2, i3⟩ := stream_textbook_encrypt c hpos henc ms (stream fb_enc c s m) hlen1 b3
      (fun x hx => hall x (List.mem_cons_of_mem _ hx))
    simp only [List.flatten_cons, stream_append, textbook_cfb_encrypt]
    refine ⟨?_, ?_, i3⟩
    · rw [i1, b2x, b1x, List.append_assoc]
    · rw [i2, b1x, getLast?_getD_cons]

/-- The decrypting stream over whole blocks is textbook CFB decryption, and the
register ends as the last input block. -/
theorem stream_textbook_decrypt (c : gcry_cipher_handle) (hpos : 0 < c.blocksize)
    (henc : ∀ x : List Nat, x.length = c.blocksize → (c.encrypt x).length = c.blocksize) :
    ∀ (blocks : List (List Nat)) (s : cfb_regs), s.iv.length = c.blocksize → s.unused = 0 →
      (∀ m ∈ blocks, m.length = c.blocksize) →
      (stream fb_dec c s blocks.flatten).out =
        s.out ++ (textbook_cfb_decrypt c.encrypt s.iv blocks).flatten ∧
      (stream fb_dec c s blocks.flatten).iv = (blocks.getLast?).getD s.iv ∧
      (stream fb_dec c s blocks.flatten).unused = 0
  | [], s, _, hu, _ => by simp [textbook_cfb_decrypt, hu]
  | m :: ms, s, hlen, hu, hall => by
    have hm : m.length = c.blocksize := hall m (List.mem_cons_self _ _)
    obtain ⟨b1, b2, b3⟩ := stream_one_block fb_dec c s m hpos henc hlen hu hm
    have b1x : (stream fb_dec c s m).iv = m := by
      rw [b1]; exact zipWith_fb_dec _ _ (by rw [henc _ hlen, hm])
    have b2x : (stream fb_dec c s m).out = s.out ++ xor_block m (c.encrypt s.iv) := by
      rw [b2, zipWith_xor_comm]
    obtain ⟨i1, i2, i3⟩ := stream_textbook_decrypt c hpos henc ms (stream fb_dec c s m)
      (by rw [b1x]; exact hm) b3 (fun x hx => hall x (List.mem_cons_of_mem _ hx))
    simp only [List.flatten_cons, stream_append, textbook_cfb_decrypt]
    refine ⟨?_, ?_, i3⟩
    · rw [i1, b2x, b1x, List.append_assoc]
    · rw [i2, b1x, getLast?_getD_cons]

theorem getLast?_of_ne_nil (d : List Nat) : ∀ (l : List (List Nat)), l ≠ [] →
    l.getLast? = some ((l.getLast?).getD d)
  | [], h => absurd rfl h
  | a :: l, _ => by
    cases h : (a :: l).getLast? with
    | none => simp at h
    | some x => rfl

/-- Block `i` of textbook decryption is the XOR of input block `i` with the
encryption of the block before it (the initial register for the first). -/
theorem textbook_cfb_decrypt_getElem? (E : List Nat → List Nat) :
    ∀ (blocks : List (List Nat)) (iv : List Nat) (i : Nat) (ci prev : List Nat),
      blocks[i]? = some ci → (iv :: blocks)[i]? = some prev →
      (textbook_cfb_decrypt E iv blocks)[i]? = some (xor_block ci (E prev))
  | [], _, _, _, _, h, _ => by simp at h
  | m :: ms, iv, 0, ci, prev, h1, h2 => by
    simp only [List.getElem?_cons_zero, Option.some.injEq] at h1 h2
    simp [textbook_cfb_decrypt, h1, h2]
  | m :: ms, iv, i + 1, ci, prev, h1, h2 => by
    simp only [List.getElem?_cons_succ] at h1 h2
    simp only [textbook_cfb_decrypt, List.getElem?_cons_succ]
    exact textbook_cfb_decrypt_getElem? E ms m i ci prev h1 h2

/-- C9. Encrypt equals textbook CFB: on a well-formed handle without encryption
accelerator, with nothing pending and register `IV`, for every input of
`k >= 1` whole blocks `M_1..M_k`, Encrypt succeeds and outputs `C_1..C_k` with
`C_0 = IV` and `C_i = M_i XOR E(C_{i-1})`, and ends with the register equal to
`C_k` and nothing pending. -/
theorem C9_encrypt_textbook (c : gcry_cipher_handle) (outbuflen : Nat)
    (blocks : List (List Nat)) (hwf : well_formed c) (hacc : c.cfb_enc = none)
    (hu : c.unused = 0) (hk : blocks ≠ [])
    (hblocks : ∀ m ∈ blocks, m.length = c.blocksize)
    (hcap : blocks.flatten.length ≤ outbuflen) :
    ∃ r : cfb_result, _gcry_cipher_cfb_encrypt c outbuflen blocks.flatten = some r ∧
      r.rc = 0 ∧
      r.outbuf = (textbook_cfb_encrypt c.encrypt c.iv blocks).flatten ∧
      (textbook_cfb_encrypt c.encrypt c.iv blocks).getLast? = some r.c.iv ∧
      r.c.unused = 0 := by
  have hs := cfb_crypt_scalar fb_enc c outbuflen blocks.flatten hwf hcap
  obtain ⟨t1, t2, t3⟩ := stream_textbook_encrypt c hwf.pos hwf.enc_len blocks (regs_in c)
    hwf.iv_len hu hblocks
  have hne : textbook_cfb_encrypt c.encrypt c.iv blocks ≠ [] := by
    cases blocks with
    | nil => exact absurd rfl hk
    | cons m ms => simp [textbook_cfb_encrypt]
  refine ⟨done c (stream fb_enc c (regs_in c) blocks.flatten), ?_, rfl, ?_, ?_, t3⟩
  · unfold _gcry_cipher_cfb_encrypt
    rw [hacc, enc_xor_byte_eq]
    exact hs
  · show (stream fb_enc c (regs_in c) blocks.flatten).out = _
    rw [t1]; rfl
  · show _ = some (stream fb_enc c (regs_in c) blocks.flatten).iv
    rw [t2]
    exact getLast?_of_ne_nil _ _ hne

/-- Witness of C9 on the toy handle with three blocks. -/
theorem C9_encrypt_textbook_witness :
    ∃ r : cfb_result,
      _gcry_cipher_cfb_encrypt (toy [0, 0, 0, 0] [0, 0, 0, 0] 0) 12
        [[1, 2, 3, 4], [5, 6, 7, 8], [9, 10, 11, 12]].flatten = some r ∧
      r.rc = 0 ∧
      r.outbuf = (textbook_cfb_encrypt (toy [0, 0, 0, 0] [0, 0, 0, 0] 0).encrypt
        (toy [0, 0, 0, 0] [0, 0, 0, 0] 0).iv
        [[1, 2, 3, 4], [5, 6, 7, 8], [9, 10, 11, 12]]).flatten ∧
      (textbook_cfb_encrypt (toy [0, 0, 0, 0] [0, 0, 0, 0] 0).encrypt
        (toy [0, 0, 0, 0] [0, 0, 0, 0] 0).iv
        [[1, 2, 3, 4], [5, 6, 7, 8], [9, 10, 11, 12]]).getLast? = some r.c.iv ∧
      r.c.unused = 0 :=
  C9_encrypt_textbook (toy [0, 0, 0, 0] [0, 0, 0, 0] 0) 12
    [[1, 2, 3, 4], [5, 6, 7, 8], [9, 10, 11, 12]]
    (toy_well_formed _ _ _ rfl rfl (by decide)) rfl rfl (by decide) (by decide) (by decide)

/-- C10. Decrypt feeds back ciphertext: on a well-formed handle without
decryption accelerator, with nothing pending and register `IV`, for every block
function (not required to be invertible) and every input of `k >= 1` whole
blocks `C_1..C_k`, Decrypt succeeds and outputs `P_1..P_k` with `C_0 = IV` and
`P_i = C_i XOR E(C_{i-1})`, so that output block `i` is determined by input
blocks `i-1` and `i` alone, and ends with the register equal to the input block
`C_k` and nothing pending. -/
theorem C10_decrypt_textbook (c : gcry_cipher_handle) (outbuflen : Nat)
    (blocks : List (List Nat)) (hwf : well_formed c) (hacc : c.cfb_dec = none)
    (hu : c.unused = 0) (hk : blocks ≠ [])
    (hblocks : ∀ m ∈ blocks, m.length = c.blocksize)
    (hcap : blocks.flatten.length ≤ outbuflen) :
    ∃ r : cfb_result, _gcry_cipher_cfb_decrypt c outbuflen blocks.flatten = some r ∧
      r.rc = 0 ∧
      r.outbuf = (textbook_cfb_decrypt c.encrypt c.iv blocks).flatten ∧
      (∀ (i : Nat) (ci prev : List Nat), blocks[i]? = some ci →
        (c.iv :: blocks)[i]? = some prev →
        (textbook_cfb_decrypt c.encrypt c.iv blocks)[i]? = some (xor_block ci (c.encrypt prev))) ∧
      blocks.getLast? = some r.c.iv ∧
      r.c.unused = 0 := by
  have hs := cfb_crypt_scalar fb_dec c outbuflen blocks.flatten hwf hcap
  obtain ⟨t1, t2, t3⟩ := stream_textbook_decrypt c hwf.pos hwf.enc_len blocks (regs_in c)
    hwf.iv_len hu hblocks
  refine ⟨done c (stream fb_dec c (regs_in c) blocks.flatten), ?_, rfl, ?_,
    textbook_cfb_decrypt_getElem? c.encrypt blocks c.iv, ?_, t3⟩
  · unfold _gcry_cipher_cfb_decrypt
    rw [hacc, dec_xor_byte_eq]
    exact hs
  · show (stream fb_dec c (regs_in c) blocks.flatten).out = _
    rw [t1]; rfl
  · show _ = some (stream fb_dec c (regs_in c) blocks.flatten).iv
    rw [t2]
    exact getLast?_of_ne_nil _ _ hk

/-- Witness of C10 on the toy handle with three blocks. -/
theorem C10_decrypt_textbook_witness :
    ∃ r : cfb_result,
      _gcry_cipher_cfb_decrypt (toy [0, 0, 0, 0] [0, 0, 0, 0] 0) 12
        [[1, 2, 3, 4], [5, 6, 7, 8], [9, 10, 11, 12]].flatten = some r ∧
      r.rc = 0 ∧
      r.outbuf = (textbook_cfb_decrypt (toy [0, 0, 0, 0] [0, 0, 0, 0] 0).encrypt
        (toy [0, 0, 0, 0] [0, 0, 0, 0] 0).iv
        [[1, 2, 3, 4], [5, 6, 7, 8], [9, 10, 11, 12]]).flatten ∧
      (∀ (i : Nat) (ci prev : List Nat),
        [[1, 2, 3, 4], [5, 6, 7, 8], [9, 10, 11, 12]][i]? = some ci →
        ((toy [0, 0, 0, 0] [0, 0, 0, 0] 0).iv ::
          [[1, 2, 3, 4], [5, 6, 7, 8], [9, 10, 11, 12]])[i]? = some prev →
        (textbook_cfb_decrypt (toy [0, 0, 0, 0] [0, 0, 0, 0] 0).encrypt
          (toy [0, 0, 0, 0] [0, 0, 0, 0] 0).iv
          [[1, 2, 3, 4], [5, 6, 7, 8], [9, 10, 11, 12]])[i]?
          = some (xor_block ci ((toy [0, 0, 0, 0] [0, 0, 0, 0] 0).encrypt prev))) ∧
      [[1, 2, 3, 4], [5, 6, 7, 8], [9, 10, 11, 12]].getLast? = some r.c.iv ∧
      r.c.unused = 0 :=
  C10_decrypt_textbook (toy [0, 0, 0, 0] [0, 0, 0, 0] 0) 12
    [[1, 2, 3, 4], [5, 6, 7, 8], [9, 10, 11, 12]]
    (toy_well_formed _ _ _ rfl rfl (by decide)) rfl rfl (by decide) (by decide) (by decide)

/-! ## Invariants of the pending count -/

/-- Every call on a well-formed handle returns, and leaves fewer than one block
of keystream pending. -/
theorem cfb_crypt_unused_lt (fb : Nat → Nat → Nat) (bulk : Option bulk_fn)
    (c : gcry_cipher_handle) (outbuflen : Nat) (inbuf : List Nat) (hwf : well_formed c)
    (hbulk : ∀ f, bulk = some f → meets_contract (fb_stmt fb) c f) :
    ∃ r : cfb_result, cfb_crypt (fb_stmt fb) bulk c outbuflen inbuf = some r ∧
      r.c.blocksize = c.blocksize ∧ r.c.unused < c.blocksize := by
  by_cases h : outbuflen < inbuf.length
  · exact ⟨_, cfb_crypt_short (fb_stmt fb) bulk c outbuflen inbuf h, rfl, hwf.unused_lt⟩
  · obtain ⟨s, hs, -, a2, -, -⟩ :=
      cfb_crypt_stream fb bulk c outbuflen inbuf hwf hbulk (by omega)
    refine ⟨done c s, hs, rfl, ?_⟩
    show s.unused < c.blocksize
    rw [a2]
    exact (stream_wf fb c hwf.pos hwf.enc_len inbuf (regs_in c) hwf.iv_len hwf.lastiv_len
      hwf.unused_lt).2.2

/-- C11. Range invariant of the pending count: on a handle with positive block
size and `unused < blocksize` (and registers of one block), with no accelerator
or with accelerators that meet their contract, for any input and any output
capacity, Encrypt and Decrypt return (with success or with the buffer error)
and leave `unused < blocksize`; the count is a natural number and no checked
subtraction faults, so it never goes below 0. -/
theorem C11_unused_range (c : gcry_cipher_handle) (outbuflen : Nat) (inbuf : List Nat)
    (hwf : well_formed c) (hb : bulk_ok c) :
    ∃ re rd : cfb_result,
      _gcry_cipher_cfb_encrypt c outbuflen inbuf = some re ∧
      _gcry_cipher_cfb_decrypt c outbuflen inbuf = some rd ∧
      re.c.blocksize = c.blocksize ∧ rd.c.blocksize = c.blocksize ∧
      re.c.unused < re.c.blocksize ∧ rd.c.unused < rd.c.blocksize := by
  obtain ⟨re, he, e1, e2⟩ :=
    cfb_crypt_unused_lt fb_enc c.cfb_enc c outbuflen inbuf hwf (bulk_ok_enc c hb)
  obtain ⟨rd, hd, d1, d2⟩ :=
    cfb_crypt_unused_lt fb_dec c.cfb_dec c outbuflen inbuf hwf (bulk_ok_dec c hb)
  refine ⟨re, rd, ?_, ?_, e1, d1, by rw [e1]; exact e2, by rw [d1]; exact d2⟩
  · unfold _gcry_cipher_cfb_encrypt; rw [enc_xor_byte_eq]; exact he
  · unfold _gcry_cipher_cfb_decrypt; rw [dec_xor_byte_eq]; exact hd

/-- Witness of C11 on the toy handle with three bytes pending and seven bytes
of input. -/
theorem C11_unused_range_witness :
    ∃ re rd : cfb_result,
      _gcry_cipher_cfb_encrypt (toy [6, 1, 1, 1] [0, 0, 0, 0] 3) 7 [1, 2, 3, 4, 5, 6, 7]
        = some re ∧
      _gcry_cipher_cfb_decrypt (toy [6, 1, 1, 1] [0, 0, 0, 0] 3) 7 [1, 2, 3, 4, 5, 6, 7]
        = some rd ∧
      re.c.blocksize = (toy [6, 1, 1, 1] [0, 0, 0, 0] 3).blocksize ∧
      rd.c.blocksize = (toy [6, 1, 1, 1] [0, 0, 0, 0] 3).blocksize ∧
      re.c.unused < re.c.blocksize ∧ rd.c.unused < rd.c.blocksize :=
  C11_unused_range (toy [6, 1, 1, 1] [0, 0, 0, 0] 3) 7 [1, 2, 3, 4, 5, 6, 7]
    (toy_well_formed _ _ _ rfl rfl (by decide)) (toy_bulk_ok _ _ _)

theorem unused_after_step_pos (bs u n : Nat) (hu : u ≠ 0) :
    unused_after bs (u - 1) n = unused_after bs u (n + 1) := by
  have h : n - (u - 1) = n + 1 - u := by omega
  unfold unused_after
  by_cases h1 : n ≤ u - 1
  · rw [if_pos h1, if_pos (show n + 1 ≤ u by omega)]; omega
  · rw [if_neg h1, if_neg (show ¬ n + 1 ≤ u by omega), h]

theorem unused_after_step_zero (bs n : Nat) (hpos : 0 < bs) :
    unused_after bs (bs - 1) n = unused_after bs 0 (n + 1) := by
  unfold unused_after
  rw [if_neg (show ¬ n + 1 ≤ 0 by omega), Nat.sub_zero]
  by_cases h1 : n ≤ bs - 1
  · rw [if_pos h1]
    by_cases h2 : n + 1 = bs
    · rw [h2, Nat.mod_self, Nat.sub_zero, Nat.mod_self]; omega
    · rw [Nat.mod_eq_of_lt (show n + 1 < bs by omega),
        Nat.mod_eq_of_lt (show bs - (n + 1) < bs by omega)]
      omega
  · rw [if_neg h1, Nat.mod_eq_sub_mod (show n + 1 ≥ bs by omega),
      show n - (bs - 1) = n + 1 - bs by omega]

/-- The pending count along the byte stream, in closed form. -/
theorem stream_unused (fb : Nat → Nat → Nat) (c : gcry_cipher_handle)
    (hpos : 0 < c.blocksize) :
    ∀ (bytes : List Nat) (s : cfb_regs),
      (stream fb c s bytes).unused = unused_after c.blocksize s.unused bytes.length
  | [], s => by simp [unused_after]
  | b :: rest, s => by
    rw [stream_cons, stream_unused fb c hpos rest, List.length_cons]
    by_cases h0 : s.unused = 0
    · have h1 : (feed fb c s b).unused = c.blocksize - 1 := by
        simp only [feed, h0, if_true, absorb, refill]
      rw [h1, h0]
      exact unused_after_step_zero _ _ hpos
    · have h1 : (feed fb c s b).unused = s.unused - 1 := by
        simp only [feed, h0, if_false, absorb]
      rw [h1]
      exact unused_after_step_pos _ _ _ h0

/-- C15. Closed form of the pending count: on a well-formed handle with block
size `bs` and pending count `u`, with no accelerator or with accelerators that
meet their contract, a successful Encrypt or Decrypt of `n` bytes ends with the
pending count `u - n` when `n <= u` and `(bs - ((n - u) mod bs)) mod bs` when
`n > u`; the value is a function of `bs`, `u` and `n` alone. -/
theorem C15_unused_closed_form (c : gcry_cipher_handle) (outbuflen : Nat) (inbuf : List Nat)
    (hwf : well_formed c) (hb : bulk_ok c) (hcap : inbuf.length ≤ outbuflen) :
    ∃ re rd : cfb_result,
      _gcry_cipher_cfb_encrypt c outbuflen inbuf = some re ∧ re.rc = 0 ∧
      _gcry_cipher_cfb_decrypt c outbuflen inbuf = some rd ∧ rd.rc = 0 ∧
      re.c.unused = unused_after c.blocksize c.unused inbuf.length ∧
      rd.c.unused = unused_after c.blocksize c.unused inbuf.length ∧
      (inbuf.length ≤ c.unused → re.c.unused = c.unused - inbuf.length) ∧
      (c.unused < inbuf.length →
        re.c.unused = (c.blocksize - (inbuf.length - c.unused) % c.blocksize) % c.blocksize) := by
  obtain ⟨se, he, -, e2, -, -⟩ := encrypt_stream c outbuflen inbuf hwf hb hcap
  obtain ⟨sd, hd, -, d2, -, -⟩ := decrypt_stream c outbuflen inbuf hwf hb hcap
  have h1 : (done c se).c.unused = unused_after c.blocksize c.unused inbuf.length := by
    show se.unused = _
    rw [e2, stream_unused fb_enc c hwf.pos]; rfl
  have h2 : (done c sd).c.unused = unused_after c.blocksize c.unused inbuf.length := by
    show sd.unused = _
    rw [d2, stream_unused fb_dec c hwf.pos]; rfl
  refine ⟨done c se, done c sd, he, rfl, hd, rfl, h1, h2, ?_, ?_⟩
  · intro h; rw [h1]; unfold unused_after; rw [if_pos h]
  · intro h; rw [h1]; unfold unused_after; rw [if_neg (by omega)]

/-- Witness of C15 on the toy handle with three bytes pending and nine bytes of
input. -/
theorem C15_unused_closed_form_witness :
    ∃ re rd : cfb_result,
      _gcry_cipher_cfb_encrypt (toy [6, 1, 1, 1] [0, 0, 0, 0] 3) 9 [1, 2, 3, 4, 5, 6, 7, 8, 9]
        = some re ∧ re.rc = 0 ∧
      _gcry_cipher_cfb_decrypt (toy [6, 1, 1, 1] [0, 0, 0, 0] 3) 9 [1, 2, 3, 4, 5, 6, 7, 8, 9]
        = some rd ∧ rd.rc = 0 ∧
      re.c.unused = unused_after (toy [6, 1, 1, 1] [0, 0, 0, 0] 3).blocksize
        (toy [6, 1, 1, 1] [0, 0, 0, 0] 3).unused [1, 2, 3, 4, 5, 6, 7, 8, 9].length ∧
      rd.c.unused = unused_after (toy [6, 1, 1, 1] [0, 0, 0, 0] 3).blocksize
        (toy [6, 1, 1, 1] [0, 0, 0, 0] 3).unused [1, 2, 3, 4, 5, 6, 7, 8, 9].length ∧
      ([1, 2, 3, 4, 5, 6, 7, 8, 9].length ≤ (toy [6, 1, 1, 1] [0, 0, 0, 0] 3).unused →
        re.c.unused = (toy [6, 1, 1, 1] [0, 0, 0, 0] 3).unused
          - [1, 2, 3, 4, 5, 6, 7, 8, 9].length) ∧
      ((toy [6, 1, 1, 1] [0, 0, 0, 0] 3).unused < [1, 2, 3, 4, 5, 6, 7, 8, 9].length →
        re.c.unused = ((toy [6, 1, 1, 1] [0, 0, 0, 0] 3).blocksize
          - ([1, 2, 3, 4, 5, 6, 7, 8, 9].length - (toy [6, 1, 1, 1] [0, 0, 0, 0] 3).unused)
            % (toy [6, 1, 1, 1] [0, 0, 0, 0] 3).blocksize)
          % (toy [6, 1, 1, 1] [0, 0, 0, 0] 3).blocksize) :=
  C15_unused_closed_form (toy [6, 1, 1, 1] [0, 0, 0, 0] 3) 9 [1, 2, 3, 4, 5, 6, 7, 8, 9]
    (toy_well_formed _ _ _ rfl rfl (by decide)) (toy_bulk_ok _ _ _) (by decide)

/-! ## The short steps, byte by byte -/

theorem zipWith_drop_getElem? (f : Nat → Nat → Nat) (iv X : List Nat) (p i : Nat)
    (hi : i < X.length) (hp : p + X.length ≤ iv.length) :
    (List.zipWith f (iv.drop p) X)[i]? = some (f (iv.getD (p + i) 0) (X.getD i 0)) := by
  have h1 : p + i < iv.length := by omega
  rw [List.getElem?_zipWith, List.getElem?_drop, List.getElem?_eq_getElem h1,
    List.getElem?_eq_getElem hi, List.getD_eq_getElem _ 0 h1, List.getD_eq_getElem _ 0 hi]

/-- The bytes of a register whose bytes `p, ..., p + B.length - 1` were replaced
by `B`. -/
theorem splice_getElem? (iv B : List Nat) (p : Nat) (hp : p + B.length ≤ iv.length) (j : Nat) :
    (iv.take p ++ B ++ iv.drop (p + B.length))[j]? =
      if j < p then iv[j]? else if j < p + B.length then B[j - p]? else iv[j]? := by
  have hlt : (iv.take p).length = p := by rw [List.length_take]; omega
  by_cases h1 : j < p
  · rw [if_pos h1, List.append_assoc, List.getElem?_append_left (by rw [hlt]; exact h1),
      List.getElem?_take_of_lt h1]
  · rw [if_neg h1, List.append_assoc, List.getElem?_append_right (by rw [hlt]; omega), hlt]
    by_cases h2 : j < p + B.length
    · rw [if_pos h2, List.getElem?_append_left (by omega)]
    · rw [if_neg h2, List.getElem?_append_right (by omega), List.getElem?_drop]
      congr 1
      omega

theorem splice_length (iv B : List Nat) (p : Nat) (hp : p + B.length ≤ iv.length) :
    (iv.take p ++ B ++ iv.drop (p + B.length)).length = iv.length := by
  simp only [List.length_append, List.length_take, List.length_drop]
  omega

/-- A call that cannot reach the accelerated branch behaves as if no accelerator
were installed. -/
theorem cfb_crypt_no_bulk (fb : Nat → Nat → Nat) (bulk : Option bulk_fn)
    (c : gcry_cipher_handle) (outbuflen : Nat) (inbuf : List Nat) (hwf : well_formed c)
    (h : inbuf.length ≤ c.unused ∨ inbuf.length - c.unused < c.blocksize + c.blocksize) :
    cfb_crypt (fb_stmt fb) bulk c outbuflen inbuf =
      cfb_crypt (fb_stmt fb) none c outbuflen inbuf := by
  by_cases hcap : outbuflen < inbuf.length
  · rw [cfb_crypt_short _ _ _ _ _ hcap, cfb_crypt_short _ _ _ _ _ hcap]
  · by_cases hs : inbuf.length ≤ c.unused
    · unfold cfb_crypt
      rw [if_neg hcap, if_pos hs, if_neg hcap, if_pos hs]
    · have h2 : inbuf.length - c.unused < c.blocksize + c.blocksize := by
        cases h with
        | inl h => exact absurd h hs
        | inr h => exact h
      have hdrain := drain_unused_stream fb c inbuf (enter c inbuf) hwf.iv_len
        (Nat.le_of_lt hwf.unused_lt) (by simp only [enter]; omega) (by simp only [enter]; omega)
      unfold cfb_crypt
      rw [if_neg hcap, if_neg hs, if_neg hcap, if_neg hs, hdrain]
      simp only [Option.bind_eq_bind, Option.some_bind]
      rw [whole_blocks_small _ bulk _ _ _ (by simp only [put, enter]; omega), whole_blocks_none]

theorem zipWith_drop_length (f : Nat → Nat → Nat) (iv X : List Nat) (p : Nat)
    (hp : p + X.length ≤ iv.length) : (List.zipWith f (iv.drop p) X).length = X.length := by
  rw [List.length_zipWith, List.length_drop]
  omega

/-- C13. Leftover-first step of Encrypt: on a well-formed handle with block size
`bs`, `u > 0` bytes pending and register `R`, for every input `X` of length `n`
with `0 < n <= u`, Encrypt succeeds and outputs the `n` bytes
`out[i] = R[bs-u+i] XOR X[i]`; afterwards `iv[bs-u+i] = out[i]` for `i < n`,
every other byte of the register is that of `R`, the pending count is `u - n`,
the saved register is unchanged and the block primitive was not invoked. -/
theorem C13_leftover_first (c : gcry_cipher_handle) (outbuflen : Nat) (X : List Nat)
    (hwf : well_formed c) (hn0 : 0 < X.length) (hn : X.length ≤ c.unused)
    (hcap : X.length ≤ outbuflen) :
    ∃ r : cfb_result, _gcry_cipher_cfb_encrypt c outbuflen X = some r ∧ r.rc = 0 ∧
      r.outbuf.length = X.length ∧
      (∀ i, i < X.length →
        r.outbuf[i]? = some (c.iv.getD (c.blocksize - c.unused + i) 0 ^^^ X.getD i 0)) ∧
      (∀ i, i < X.length → r.c.iv[c.blocksize - c.unused + i]? = r.outbuf[i]?) ∧
      (∀ j, j < c.blocksize - c.unused ∨ c.blocksize - c.unused + X.length ≤ j →
        r.c.iv[j]? = c.iv[j]?) ∧
      r.c.iv.length = c.blocksize ∧
      r.c.unused = c.unused - X.length ∧ r.c.lastiv = c.lastiv ∧ r.enc_calls = [] := by
  have hult := hwf.unused_lt
  have hp : c.blocksize - c.unused + X.length ≤ c.iv.length := by
    rw [hwf.iv_len]; omega
  have hcall : _gcry_cipher_cfb_encrypt c outbuflen X =
      some (done c (stream fb_enc c (regs_in c) X)) := by
    unfold _gcry_cipher_cfb_encrypt
    rw [enc_xor_byte_eq, cfb_crypt_no_bulk fb_enc c.cfb_enc c outbuflen X hwf (Or.inl hn)]
    exact cfb_crypt_scalar fb_enc c outbuflen X hwf hcap
  obtain ⟨p1, p2, p3, -⟩ := stream_pending fb_enc c X (regs_in c) hn
  obtain ⟨q1, q2⟩ := stream_pending_closed fb_enc c X (regs_in c) hn (Nat.le_of_lt hult)
    hwf.iv_len
  have hfb : fb_enc = fun k b => k ^^^ b := rfl
  have hout : (stream fb_enc c (regs_in c) X).out =
      List.zipWith (fun k b => k ^^^ b) (c.iv.drop (c.blocksize - c.unused)) X := by
    rw [q2]; rfl
  have hlen : (stream fb_enc c (regs_in c) X).out.length = X.length := by
    rw [hout]; exact zipWith_drop_length _ _ _ _ hp
  have hiv : (stream fb_enc c (regs_in c) X).iv =
      c.iv.take (c.blocksize - c.unused) ++ (stream fb_enc c (regs_in c) X).out ++
        c.iv.drop (c.blocksize - c.unused + (stream fb_enc c (regs_in c) X).out.length) := by
    rw [q1, hlen, hout, hfb]; rfl
  refine ⟨_, hcall, rfl, hlen, ?_, ?_, ?_, ?_, p1, p2, p3⟩
  · intro i hi
    show (stream fb_enc c (regs_in c) X).out[i]? = _
    rw [hout]
    exact zipWith_drop_getElem? _ _ _ _ _ hi hp
  · intro i hi
    show (stream fb_enc c (regs_in c) X).iv[c.blocksize - c.unused + i]? =
      (stream fb_enc c (regs_in c) X).out[i]?
    rw [hiv, splice_getElem? _ _ _ (by rw [hlen]; exact hp), if_neg (by omega),
      if_pos (by rw [hlen]; omega)]
    congr 1
    omega
  · intro j hj
    show (stream fb_enc c (regs_in c) X).iv[j]? = c.iv[j]?
    rw [hiv, splice_getElem? _ _ _ (by rw [hlen]; exact hp)]
    cases hj with
    | inl h => rw [if_pos h]
    | inr h => rw [if_neg (by omega), if_neg (by rw [hlen]; omega)]
  · show (stream fb_enc c (regs_in c) X).iv.length = c.blocksize
    rw [hiv, splice_length _ _ _ (by rw [hlen]; exact hp)]
    exact hwf.iv_len

/-- Witness of C13 on the toy handle with three bytes pending and two bytes of
input. -/
theorem C13_leftover_first_witness :
    ∃ r : cfb_result,
      _gcry_cipher_cfb_encrypt (toy [4, 1, 1, 1] [0, 0, 0, 0] 3) 2 [9, 9] = some r ∧ r.rc = 0 ∧
      r.outbuf.length = [9, 9].length ∧
      (∀ i, i < [9, 9].length →
        r.outbuf[i]? = some ((toy [4, 1, 1, 1] [0, 0, 0, 0] 3).iv.getD
          ((toy [4, 1, 1, 1] [0, 0, 0, 0] 3).blocksize
            - (toy [4, 1, 1, 1] [0, 0, 0, 0] 3).unused + i) 0 ^^^ [9, 9].getD i 0)) ∧
      (∀ i, i < [9, 9].length →
        r.c.iv[(toy [4, 1, 1, 1] [0, 0, 0, 0] 3).blocksize
          - (toy [4, 1, 1, 1] [0, 0, 0, 0] 3).unused + i]? = r.outbuf[i]?) ∧
      (∀ j, j < (toy [4, 1, 1, 1] [0, 0, 0, 0] 3).blocksize
            - (toy [4, 1, 1, 1] [0, 0, 0, 0] 3).unused ∨
          (toy [4, 1, 1, 1] [0, 0, 0, 0] 3).blocksize
            - (toy [4, 1, 1, 1] [0, 0, 0, 0] 3).unused + [9, 9].length ≤ j →
        r.c.iv[j]? = (toy [4, 1, 1, 1] [0, 0, 0, 0] 3).iv[j]?) ∧
      r.c.iv.length = (toy [4, 1, 1, 1] [0, 0, 0, 0] 3).blocksize ∧
      r.c.unused = (toy [4, 1, 1, 1] [0, 0, 0, 0] 3).unused - [9, 9].length ∧
      r.c.lastiv = (toy [4, 1, 1, 1] [0, 0, 0, 0] 3).lastiv ∧ r.enc_calls = [] :=
  C13_leftover_first (toy [4, 1, 1, 1] [0, 0, 0, 0] 3) 2 [9, 9]
    (toy_well_formed _ _ _ rfl rfl (by decide)) (by decide) (by decide) (by decide)

/-- C14. Final short block of Encrypt: on a well-formed handle with block size
`bs`, nothing pending and register `R`, for every input `X` of length `r` with
`0 < r < bs` (so `bs >= 2`), Encrypt succeeds with exactly one block encryption,
of `R`, and outputs `out[i] = E(R)[i] XOR X[i]` for `i < r`; it ends with the
saved register `R`, the pending count `bs - r`, `iv[i] = out[i]` for `i < r` and
`iv[i] = E(R)[i]` for `r <= i < bs`. -/
theorem C14_final_short_block (c : gcry_cipher_handle) (outbuflen : Nat) (X : List Nat)
    (hwf : well_formed c) (hu : c.unused = 0) (hr0 : 0 < X.length)
    (hr : X.length < c.blocksize) (hcap : X.length ≤ outbuflen) :
    ∃ r : cfb_result, _gcry_cipher_cfb_encrypt c outbuflen X = some r ∧ r.rc = 0 ∧
      r.outbuf.length = X.length ∧
      (∀ i, i < X.length →
        r.outbuf[i]? = some ((c.encrypt c.iv).getD i 0 ^^^ X.getD i 0)) ∧
      r.c.lastiv = c.iv ∧ r.c.unused = c.blocksize - X.length ∧
      (∀ i, i < X.length → r.c.iv[i]? = r.outbuf[i]?) ∧
      (∀ i, X.length ≤ i → i < c.blocksize → r.c.iv[i]? = (c.encrypt c.iv)[i]?) ∧
      r.c.iv.length = c.blocksize ∧ r.enc_calls = [c.iv] := by
  have hE : (c.encrypt c.iv).length = c.blocksize := hwf.enc_len _ hwf.iv_len
  have hne : X ≠ [] := by
    intro h; rw [h] at hr0; simp at hr0
  have hcall : _gcry_cipher_cfb_encrypt c outbuflen X =
      some (done c (stream fb_enc c (regs_in c) X)) := by
    unfold _gcry_cipher_cfb_encrypt
    rw [enc_xor_byte_eq, cfb_crypt_no_bulk fb_enc c.cfb_enc c outbuflen X hwf
      (Or.inr (by omega))]
    exact cfb_crypt_scalar fb_enc c outbuflen X hwf hcap
  obtain ⟨p1, p2, p3, -⟩ := stream_fresh fb_enc c (regs_in c) X hwf.pos hwf.enc_len
    hwf.iv_len hu hne (Nat.le_of_lt hr)
  obtain ⟨q1, q2⟩ := stream_pending_closed fb_enc c X (refill c (regs_in c))
    (by simp only [refill]; omega) (by simp only [refill]; omega)
    (by simp only [refill]; exact hE)
  rw [← stream_refill fb_enc c (regs_in c) X hwf.pos hu hne] at q1 q2
  have hfb : fb_enc = fun k b => k ^^^ b := rfl
  have hout : (stream fb_enc c (regs_in c) X).out =
      List.zipWith (fun k b => k ^^^ b) ((c.encrypt c.iv).drop 0) X := by
    rw [q2]
    simp only [refill, Nat.sub_self, List.drop_zero]
    rfl
  have hp : 0 + X.length ≤ (c.encrypt c.iv).length := by rw [hE]; omega
  have hlen : (stream fb_enc c (regs_in c) X).out.length = X.length := by
    rw [hout]; exact zipWith_drop_length _ _ _ _ hp
  have hiv : (stream fb_enc c (regs_in c) X).iv =
      (c.encrypt c.iv).take 0 ++ (stream fb_enc c (regs_in c) X).out ++
        (c.encrypt c.iv).drop (0 + (stream fb_enc c (regs_in c) X).out.length) := by
    rw [q1, hlen, hout, hfb]
    simp only [refill, Nat.sub_self, List.drop_zero]
    rfl
  refine ⟨_, hcall, rfl, hlen, ?_, p2, p1, ?_, ?_, ?_, p3⟩
  · intro i hi
    show (stream fb_enc c (regs_in c) X).out[i]? = _
    rw [hout]
    have h := zipWith_drop_getElem? (fun k b => k ^^^ b) (c.encrypt c.iv) X 0 i hi hp
    rw [Nat.zero_add] at h
    exact h
  · intro i hi
    show (stream fb_enc c (regs_in c) X).iv[i]? = (stream fb_enc c (regs_in c) X).out[i]?
    rw [hiv, splice_getElem? _ _ _ (by rw [hlen]; exact hp), if_neg (by omega),
      if_pos (by rw [hlen]; omega)]
    rfl
  · intro i h1 h2
    show (stream fb_enc c (regs_in c) X).iv[i]? = _
    rw [hiv, splice_getElem? _ _ _ (by rw [hlen]; exact hp), if_neg (by omega),
      if_neg (by rw [hlen]; omega)]
  · show (stream fb_enc c (regs_in c) X).iv.length = c.blocksize
    rw [hiv, splice_length _ _ _ (by rw [hlen]; exact hp)]
    exact hE

/-- Witness of C14 on the toy handle with nothing pending and one byte of
input. -/
theorem C14_final_short_block_witness :
    ∃ r : cfb_result,
      _gcry_cipher_cfb_encrypt (toy [0, 0, 0, 0] [7, 7, 7, 7] 0) 1 [5] = some r ∧ r.rc = 0 ∧
      r.outbuf.length = [5].length ∧
      (∀ i, i < [5].length →
        r.outbuf[i]? = some (((toy [0, 0, 0, 0] [7, 7, 7, 7] 0).encrypt
          (toy [0, 0, 0, 0] [7, 7, 7, 7] 0).iv).getD i 0 ^^^ [5].getD i 0)) ∧
      r.c.lastiv = (toy [0, 0, 0, 0] [7, 7, 7, 7] 0).iv ∧
      r.c.unused = (toy [0, 0, 0, 0] [7, 7, 7, 7] 0).blocksize - [5].length ∧
      (∀ i, i < [5].length → r.c.iv[i]? = r.outbuf[i]?) ∧
      (∀ i, [5].length ≤ i → i < (toy [0, 0, 0, 0] [7, 7, 7, 7] 0).blocksize →
        r.c.iv[i]? = ((toy [0, 0, 0, 0] [7, 7, 7, 7] 0).encrypt
          (toy [0, 0, 0, 0] [7, 7, 7, 7] 0).iv)[i]?) ∧
      r.c.iv.length = (toy [0, 0, 0, 0] [7, 7, 7, 7] 0).blocksize ∧
      r.enc_calls = [(toy [0, 0, 0, 0] [7, 7, 7, 7] 0).iv] :=
  C14_final_short_block (toy [0, 0, 0, 0] [7, 7, 7, 7] 0) 1 [5]
    (toy_well_formed _ _ _ rfl rfl (by decide)) rfl (by decide) (by decide) (by decide)

/-! ## The saved register along the stream -/

theorem feed_lastiv (fb : Nat → Nat → Nat) (c : gcry_cipher_handle) (s : cfb_regs) (b : Nat) :
    (feed fb c s b).lastiv = if s.unused = 0 then s.iv else s.lastiv := by
  by_cases h0 : s.unused = 0
  · simp only [feed, h0, if_true, absorb, refill]
  · simp only [feed, h0, if_false, absorb]

theorem feed_state_agree (fb : Nat → Nat → Nat) (c : gcry_cipher_handle) (s t : cfb_regs)
    (b : Nat) (h1 : s.iv = t.iv) (h2 : s.unused = t.unused) (h3 : s.lastiv = t.lastiv) :
    (feed fb c s b).iv = (feed fb c t b).iv ∧ (feed fb c s b).unused = (feed fb c t b).unused ∧
    (feed fb c s b).lastiv = (feed fb c t b).lastiv := by
  by_cases h0 : s.unused = 0
  · have h0t : t.unused = 0 := by rw [← h2]; exact h0
    simp only [feed, h0, h0t, if_true, absorb, refill, h1]
    exact ⟨trivial, trivial, trivial⟩
  · have h0t : ¬ t.unused = 0 := by rw [← h2]; exact h0
    simp only [feed, h0, h0t, if_false, absorb, h1, h2, h3]
    exact ⟨trivial, trivial, trivial⟩

/-- The register, the pending count and the saved register along the stream
depend only on their values at the start. -/
theorem stream_state_agree (fb : Nat → Nat → Nat) (c : gcry_cipher_handle) :
    ∀ (bytes : List Nat) (s t : cfb_regs), s.iv = t.iv → s.unused = t.unused →
      s.lastiv = t.lastiv →
      (stream fb c s bytes).iv = (stream fb c t bytes).iv ∧
      (stream fb c s bytes).unused = (stream fb c t bytes).unused ∧
      (stream fb c s bytes).lastiv = (stream fb c t bytes).lastiv
  | [], _, _, h1, h2, h3 => ⟨h1, h2, h3⟩
  | b :: rest, s, t, h1, h2, h3 => by
    obtain ⟨f1, f2, f3⟩ := feed_state_agree fb c s t b h1 h2 h3
    exact stream_state_agree fb c rest (feed fb c s b) (feed fb c t b) f1 f2 f3

/-- Decryption of the encrypted stream keeps the saved register in step too. -/
theorem stream_round_trip_lastiv (c : gcry_cipher_handle) :
    ∀ (M : List Nat) (se sd : cfb_regs), se.iv = sd.iv → se.unused = sd.unused →
      se.lastiv = sd.lastiv →
      (stream fb_dec c sd (stream fb_enc c (bare se) M).out).lastiv
        = (stream fb_enc c se M).lastiv
  | [], se, sd, _, _, hl => by
    simp only [stream_nil, bare]
    exact hl.symm
  | b :: rest, se, sd, hiv, hu, hl => by
    obtain ⟨v, hv, f1, f2, -⟩ := feed_round_trip c se sd b hiv hu
    obtain ⟨-, g2⟩ := stream_bare fb_enc c rest (feed fb_enc c (bare se) b)
    obtain ⟨k1, -⟩ := feed_bare fb_enc c se b
    have hout : (stream fb_enc c (bare se) (b :: rest)).out
        = v :: (stream fb_enc c (bare (feed fb_enc c se b)) rest).out := by
      rw [stream_cons, g2, hv, k1]; rfl
    have hl2 : (feed fb_enc c se b).lastiv = (feed fb_dec c sd v).lastiv := by
      rw [feed_lastiv, feed_lastiv, hiv, hu, hl]
    rw [hout]
    simp only [stream_cons]
    exact stream_round_trip_lastiv c rest (feed fb_enc c se b) (feed fb_dec c sd v)
      f1.symm f2.symm hl2

/-- A successful encryption with no accelerator ends exactly as the encrypting
byte stream. -/
theorem encrypt_scalar (c : gcry_cipher_handle) (outbuflen : Nat) (inbuf : List Nat)
    (hwf : well_formed c) (hacc : c.cfb_enc = none) (hcap : inbuf.length ≤ outbuflen) :
    _gcry_cipher_cfb_encrypt c outbuflen inbuf =
      some (done c (stream fb_enc c (regs_in c) inbuf)) := by
  unfold _gcry_cipher_cfb_encrypt
  rw [hacc, enc_xor_byte_eq]
  exact cfb_crypt_scalar fb_enc c outbuflen inbuf hwf hcap

/-- A successful decryption with no accelerator ends exactly as the decrypting
byte stream. -/
theorem decrypt_scalar (c : gcry_cipher_handle) (outbuflen : Nat) (inbuf : List Nat)
    (hwf : well_formed c) (hacc : c.cfb_dec = none) (hcap : inbuf.length ≤ outbuflen) :
    _gcry_cipher_cfb_decrypt c outbuflen inbuf =
      some (done c (stream fb_dec c (regs_in c) inbuf)) := by
  unfold _gcry_cipher_cfb_decrypt
  rw [hacc, dec_xor_byte_eq]
  exact cfb_crypt_scalar fb_dec c outbuflen inbuf hwf hcap

/-- C17. Encrypt/Decrypt state synchronisation: on a well-formed handle with no
accelerator, if Encrypt of `M` outputs `C` and ends in state `Se`, then Decrypt
of `C` on the same initial handle succeeds and ends in a state whose register,
pending count and saved register are those of `Se`. -/
theorem C17_state_synchronisation (c : gcry_cipher_handle) (outbuflen outbuflen2 : Nat)
    (M : List Nat) (hwf : well_formed c) (hacc_e : c.cfb_enc = none)
    (hacc_d : c.cfb_dec = none) (h1 : M.length ≤ outbuflen) (h2 : M.length ≤ outbuflen2) :
    ∃ re rd : cfb_result, _gcry_cipher_cfb_encrypt c outbuflen M = some re ∧ re.rc = 0 ∧
      _gcry_cipher_cfb_decrypt c outbuflen2 re.outbuf = some rd ∧ rd.rc = 0 ∧
      rd.c.iv = re.c.iv ∧ rd.c.unused = re.c.unused ∧ rd.c.lastiv = re.c.lastiv := by
  have he := encrypt_scalar c outbuflen M hwf hacc_e h1
  have hC : (stream fb_enc c (regs_in c) M).out = (stream fb_enc c (bare (regs_in c)) M).out := by
    rw [(stream_bare fb_enc c M (regs_in c)).2]; rfl
  have hlen : (stream fb_enc c (regs_in c) M).out.length = M.length := by
    rw [stream_out_length]; simp [regs_in]
  have hd := decrypt_scalar c outbuflen2 (stream fb_enc c (regs_in c) M).out hwf hacc_d
    (by rw [hlen]; exact h2)
  obtain ⟨r1, r2, -⟩ := stream_round_trip c M (regs_in c) (regs_in c) rfl rfl
  have r3 := stream_round_trip_lastiv c M (regs_in c) (regs_in c) rfl rfl rfl
  rw [← hC] at r1 r2 r3
  exact ⟨_, _, he, rfl, hd, rfl, r1, r2, r3⟩

/-- Witness of C17 on the toy handle with seven bytes. -/
theorem C17_state_synchronisation_witness :
    ∃ re rd : cfb_result,
      _gcry_cipher_cfb_encrypt (toy [0, 0, 0, 0] [7, 7, 7, 7] 0) 7 [1, 2, 3, 4, 5, 6, 7]
        = some re ∧ re.rc = 0 ∧
      _gcry_cipher_cfb_decrypt (toy [0, 0, 0, 0] [7, 7, 7, 7] 0) 7 re.outbuf = some rd ∧
      rd.rc = 0 ∧
      rd.c.iv = re.c.iv ∧ rd.c.unused = re.c.unused ∧ rd.c.lastiv = re.c.lastiv :=
  C17_state_synchronisation (toy [0, 0, 0, 0] [7, 7, 7, 7] 0) 7 7 [1, 2, 3, 4, 5, 6, 7]
    (toy_well_formed _ _ _ rfl rfl (by decide)) rfl rfl (by decide) (by decide)

/-- C18. Streaming equivalence of the final state: on a well-formed handle with
no encryption accelerator and for every split of an input into `M1` followed by
`M2`, Encrypt of `M1` and then of `M2` succeed and end with the register, the
pending count and the saved register of the single Encrypt of `M1 ++ M2` from
the same initial handle. -/
theorem C18_streaming_final_state (c : gcry_cipher_handle) (cap1 cap2 cap : Nat)
    (M1 M2 : List Nat) (hwf : well_formed c) (hacc : c.cfb_enc = none)
    (h1 : M1.length ≤ cap1) (h2 : M2.length ≤ cap2) (h : (M1 ++ M2).length ≤ cap) :
    ∃ r1 r2 r : cfb_result,
      _gcry_cipher_cfb_encrypt c cap1 M1 = some r1 ∧ r1.rc = 0 ∧
      _gcry_cipher_cfb_encrypt r1.c cap2 M2 = some r2 ∧ r2.rc = 0 ∧
      _gcry_cipher_cfb_encrypt c cap (M1 ++ M2) = some r ∧ r.rc = 0 ∧
      r2.c.iv = r.c.iv ∧ r2.c.unused = r.c.unused ∧ r2.c.lastiv = r.c.lastiv := by
  have e1 := encrypt_scalar c cap1 M1 hwf hacc h1
  obtain ⟨w1, w2, w3⟩ := stream_wf fb_enc c hwf.pos hwf.enc_len M1 (regs_in c) hwf.iv_len
    hwf.lastiv_len hwf.unused_lt
  have hwf1 : well_formed (done c (stream fb_enc c (regs_in c) M1)).c :=
    done_well_formed c _ hwf w1 w2 w3
  have e2 := encrypt_scalar (done c (stream fb_enc c (regs_in c) M1)).c cap2 M2 hwf1 hacc h2
  have e := encrypt_scalar c cap (M1 ++ M2) hwf hacc h
  rw [stream_static fb_enc c (done c (stream fb_enc c (regs_in c) M1)).c rfl rfl] at e2
  obtain ⟨a1, a2, a3⟩ := stream_state_agree fb_enc c M2
    (regs_in (done c (stream fb_enc c (regs_in c) M1)).c) (stream fb_enc c (regs_in c) M1)
    rfl rfl rfl
  refine ⟨_, _, _, e1, rfl, e2, rfl, e, rfl, ?_, ?_, ?_⟩
  · show (stream fb_enc c (regs_in (done c (stream fb_enc c (regs_in c) M1)).c) M2).iv
      = (stream fb_enc c (regs_in c) (M1 ++ M2)).iv
    rw [stream_append]; exact a1
  · show (stream fb_enc c (regs_in (done c (stream fb_enc c (regs_in c) M1)).c) M2).unused
      = (stream fb_enc c (regs_in c) (M1 ++ M2)).unused
    rw [stream_append]; exact a2
  · show (stream fb_enc c (regs_in (done c (stream fb_enc c (regs_in c) M1)).c) M2).lastiv
      = (stream fb_enc c (regs_in c) (M1 ++ M2)).lastiv
    rw [stream_append]; exact a3

/-- Witness of C18 on the toy handle with pieces of five and six bytes. -/
theorem C18_streaming_final_state_witness :
    ∃ r1 r2 r : cfb_result,
      _gcry_cipher_cfb_encrypt (toy [0, 0, 0, 0] [7, 7, 7, 7] 0) 5 [1, 2, 3, 4, 5]
        = some r1 ∧ r1.rc = 0 ∧
      _gcry_cipher_cfb_encrypt r1.c 6 [6, 7, 8, 9, 10, 11] = some r2 ∧ r2.rc = 0 ∧
      _gcry_cipher_cfb_encrypt (toy [0, 0, 0, 0] [7, 7, 7, 7] 0) 11
        ([1, 2, 3, 4, 5] ++ [6, 7, 8, 9, 10, 11]) = some r ∧ r.rc = 0 ∧
      r2.c.iv = r.c.iv ∧ r2.c.unused = r.c.unused ∧ r2.c.lastiv = r.c.lastiv :=
  C18_streaming_final_state (toy [0, 0, 0, 0] [7, 7, 7, 7] 0) 5 6 11 [1, 2, 3, 4, 5]
    [6, 7, 8, 9, 10, 11] (toy_well_formed _ _ _ rfl rfl (by decide)) rfl
    (by decide) (by decide) (by decide)

/-! ## The saved register on the accelerated path -/

/-- When the input after the pending keystream is a whole number of blocks, of
at least two, an accelerator (any function) takes all of it: the single-block
and the final step do not run, the saved register is not written and the scalar
code invokes no block encryption. -/
theorem cfb_crypt_bulk_whole (fb : Nat → Nat → Nat) (f : bulk_fn) (c : gcry_cipher_handle)
    (outbuflen : Nat) (inbuf : List Nat) (hwf : well_formed c)
    (hmul : (inbuf.length - c.unused) % c.blocksize = 0)
    (h2 : c.blocksize + c.blocksize ≤ inbuf.length - c.unused)
    (hcap : inbuf.length ≤ outbuflen) :
    ∃ r : cfb_result, cfb_crypt (fb_stmt fb) (some f) c outbuflen inbuf = some r ∧ r.rc = 0 ∧
      r.c.lastiv = c.lastiv ∧ r.enc_calls = [] := by
  have hpos := hwf.pos
  have hs : ¬ inbuf.length ≤ c.unused := by omega
  have hin : (enter c inbuf).inp + (enter c inbuf).unused ≤ inbuf.length := by
    simp only [enter]; omega
  have hseg := seg_length inbuf _ _ hin
  obtain ⟨-, p2, p3, -⟩ := stream_pending fb c
    (seg inbuf (enter c inbuf).inp (enter c inbuf).unused) (regs_of (enter c inbuf))
    (by rw [hseg]; exact Nat.le_refl _)
  have hdrain := drain_unused_stream fb c inbuf (enter c inbuf) hwf.iv_len
    (Nat.le_of_lt hwf.unused_lt) (by simp only [enter]; omega) hin
  have hzero : inbuf.length - c.unused
      - (inbuf.length - c.unused) / c.blocksize * c.blocksize = 0 := by
    have h := Nat.mod_def (inbuf.length - c.unused) c.blocksize
    rw [hmul, Nat.mul_comm] at h
    exact h.symm
  have hbulk : ∀ fr : cfb_frame,
      fr.inbuflen - fr.inbuflen / c.blocksize * c.blocksize = 0 →
      ∃ g : cfb_frame, bulk_blocks f c inbuf fr = some g ∧ g.lastiv = fr.lastiv ∧
        g.unused = fr.unused ∧ g.calls = fr.calls ∧ g.inbuflen = 0 := by
    intro fr hfr
    refine ⟨⟨(f fr.iv (inbuf.drop fr.inp) (fr.inbuflen / c.blocksize)).1, fr.lastiv, fr.unused,
      fr.inp + fr.inbuflen / c.blocksize * c.blocksize, 0,
      fr.out ++ (f fr.iv (inbuf.drop fr.inp) (fr.inbuflen / c.blocksize)).2, fr.calls⟩,
      ?_, rfl, rfl, rfl, rfl⟩
    simp only [bulk_blocks]
    rw [if_neg (by omega), usub_eq (Nat.div_mul_le_self _ _), hfr]
    rfl
  obtain ⟨g, hg, g1, g2, g3, g4⟩ := hbulk
    (put (stream fb c (regs_of (enter c inbuf))
        (seg inbuf (enter c inbuf).inp (enter c inbuf).unused))
      ((enter c inbuf).inp + (enter c inbuf).unused)
      ((enter c inbuf).inbuflen - (enter c inbuf).unused))
    (by simp only [put, enter]; exact hzero)
  have hl : last_block (fb_stmt fb) c inbuf g = some g := by
    simp only [last_block]; rw [if_neg (by omega)]
  have ht : tail_bytes (fb_stmt fb) c inbuf g = some g := by
    simp only [tail_bytes, g4, ne_eq, not_true_eq_false, if_false]
  refine ⟨leave c g, ?_, rfl, ?_, ?_⟩
  · unfold cfb_crypt
    rw [if_neg (by omega), if_neg hs, hdrain]
    simp only [Option.bind_eq_bind, Option.some_bind]
    rw [whole_blocks_bulk _ _ _ _ _ (by simp only [put, enter]; exact h2), hg,
      Option.some_bind, hl, Option.some_bind, ht, Option.map_some']
  · show g.lastiv = c.lastiv
    rw [g1]; exact p2
  · show g.calls = []
    rw [g3]; exact p3

theorem toy_bulk_well_formed (iv lastiv : List Nat) (unused : Nat) (h1 : iv.length = 4)
    (h2 : lastiv.length = 4) (h3 : unused < 4) : well_formed (toy_bulk iv lastiv unused) :=
  ⟨Nat.succ_pos 3, h1, h2, h3,
    by intro x hx; simp only [toy_bulk, toy, List.length_map]; exact hx⟩

theorem toy_enc_bulk_well_formed (iv lastiv : List Nat) (unused : Nat) (h1 : iv.length = 4)
    (h2 : lastiv.length = 4) (h3 : unused < 4) : well_formed (toy_enc_bulk iv lastiv unused) :=
  ⟨Nat.succ_pos 3, h1, h2, h3,
    by intro x hx; simp only [toy_enc_bulk, toy, List.length_map]; exact hx⟩

theorem toy_dec_bulk_well_formed (iv lastiv : List Nat) (unused : Nat) (h1 : iv.length = 4)
    (h2 : lastiv.length = 4) (h3 : unused < 4) : well_formed (toy_dec_bulk iv lastiv unused) :=
  ⟨Nat.succ_pos 3, h1, h2, h3,
    by intro x hx; simp only [toy_dec_bulk, toy, List.length_map]; exact hx⟩

/-- C19. The accelerated path does not write the saved register, in each
direction on its own: on a well-formed handle with `u` bytes pending, for every
input of length `n > u` such that `n - u` is a multiple of the block size and at
least two blocks, if an encryption accelerator is installed then Encrypt
succeeds and leaves the saved register equal to its value before the call, and
if a decryption accelerator is installed then Decrypt does; in either case the
scalar code invokes no block encryption. Neither half asks anything of the
accelerator of the other direction, nor of what the accelerator computes. -/
theorem C19_accelerator_keeps_lastiv (c : gcry_cipher_handle)
    (outbuflen : Nat) (inbuf : List Nat) (hwf : well_formed c)
    (hmul : (inbuf.length - c.unused) % c.blocksize = 0)
    (h2 : 2 * c.blocksize ≤ inbuf.length - c.unused)
    (hcap : inbuf.length ≤ outbuflen) :
    (∀ f : bulk_fn, c.cfb_enc = some f →
      ∃ re : cfb_result, _gcry_cipher_cfb_encrypt c outbuflen inbuf = some re ∧ re.rc = 0 ∧
        re.c.lastiv = c.lastiv ∧ re.enc_calls = []) ∧
    (∀ g : bulk_fn, c.cfb_dec = some g →
      ∃ rd : cfb_result, _gcry_cipher_cfb_decrypt c outbuflen inbuf = some rd ∧ rd.rc = 0 ∧
        rd.c.lastiv = c.lastiv ∧ rd.enc_calls = []) := by
  constructor
  · intro f hf
    obtain ⟨re, he, e1, e2, e3⟩ := cfb_crypt_bulk_whole fb_enc f c outbuflen inbuf hwf hmul
      (by omega) hcap
    refine ⟨re, ?_, e1, e2, e3⟩
    unfold _gcry_cipher_cfb_encrypt; rw [hf, enc_xor_byte_eq]; exact he
  · intro g hg
    obtain ⟨rd, hd, d1, d2, d3⟩ := cfb_crypt_bulk_whole fb_dec g c outbuflen inbuf hwf hmul
      (by omega) hcap
    refine ⟨rd, ?_, d1, d2, d3⟩
    unfold _gcry_cipher_cfb_decrypt; rw [hg, dec_xor_byte_eq]; exact hd

/-- Witness of C19 on handles with one accelerator only, three bytes pending and
eleven bytes of input: Encrypt on a handle with no decryption accelerator, and
Decrypt on a handle with no encryption accelerator. -/
theorem C19_accelerator_keeps_lastiv_witness :
    ((toy_enc_bulk [4, 1, 1, 1] [7, 7, 7, 7] 3).cfb_dec = none ∧
      ∃ re : cfb_result,
        _gcry_cipher_cfb_encrypt (toy_enc_bulk [4, 1, 1, 1] [7, 7, 7, 7] 3) 11
          [1, 2, 3, 4, 5, 6, 7, 8, 9, 10, 11] = some re ∧ re.rc = 0 ∧
        re.c.lastiv = (toy_enc_bulk [4, 1, 1, 1] [7, 7, 7, 7] 3).lastiv ∧
        re.enc_calls = []) ∧
    ((toy_dec_bulk [4, 1, 1, 1] [7, 7, 7, 7] 3).cfb_enc = none ∧
      ∃ rd : cfb_result,
        _gcry_cipher_cfb_decrypt (toy_dec_bulk [4, 1, 1, 1] [7, 7, 7, 7] 3) 11
          [1, 2, 3, 4, 5, 6, 7, 8, 9, 10, 11] = some rd ∧ rd.rc = 0 ∧
        rd.c.lastiv = (toy_dec_bulk [4, 1, 1, 1] [7, 7, 7, 7] 3).lastiv ∧
        rd.enc_calls = []) :=
  ⟨⟨rfl, (C19_accelerator_keeps_lastiv (toy_enc_bulk [4, 1, 1, 1] [7, 7, 7, 7] 3) 11
      [1, 2, 3, 4, 5, 6, 7, 8, 9, 10, 11]
      (toy_enc_bulk_well_formed _ _ _ rfl rfl (by decide))
      (by decide) (by decide) (by decide)).1 _ rfl⟩,
    ⟨rfl, (C19_accelerator_keeps_lastiv (toy_dec_bulk [4, 1, 1, 1] [7, 7, 7, 7] 3) 11
      [1, 2, 3, 4, 5, 6, 7, 8, 9, 10, 11]
      (toy_dec_bulk_well_formed _ _ _ rfl rfl (by decide))
      (by decide) (by decide) (by decide)).2 _ rfl⟩⟩

/-- The frame after the accelerated branch, for an accelerator that meets its
contract: the register and the output are those of the stream over the whole
blocks, and nothing else of the handle is written. -/
theorem bulk_blocks_stream (fb : Nat → Nat → Nat) (c : gcry_cipher_handle) (inbuf : List Nat)
    (f : bulk_fn) (hpos : 0 < c.blocksize)
    (henc : ∀ x : List Nat, x.length = c.blocksize → (c.encrypt x).length = c.blocksize)
    (hf : meets_contract (fb_stmt fb) c f) (fr : cfb_frame)
    (hlen : fr.iv.length = c.blocksize) (hu : fr.unused = 0)
    (hin : fr.inp + fr.inbuflen = inbuf.length) :
    ∃ g : cfb_frame, bulk_blocks f c inbuf fr = some g ∧
      g.iv = (stream fb c (regs_of fr)
        (seg inbuf fr.inp (fr.inbuflen / c.blocksize * c.blocksize))).iv ∧
      g.lastiv = fr.lastiv ∧ g.unused = 0 ∧
      g.inp = fr.inp + fr.inbuflen / c.blocksize * c.blocksize ∧
      g.inbuflen = fr.inbuflen - fr.inbuflen / c.blocksize * c.blocksize ∧
      g.out = (stream fb c (regs_of fr)
        (seg inbuf fr.inp (fr.inbuflen / c.blocksize * c.blocksize))).out ∧
      g.calls = fr.calls := by
  have hnle : fr.inbuflen / c.blocksize * c.blocksize ≤ fr.inbuflen := Nat.div_mul_le_self _ _
  generalize hn : fr.inbuflen / c.blocksize = n at hnle
  have hB : seg (inbuf.drop fr.inp) 0 (n * c.blocksize) = seg inbuf fr.inp (n * c.blocksize) := by
    simp [seg]
  have hc := hf fr.iv (inbuf.drop fr.inp) n hlen (by rw [List.length_drop]; omega)
  rw [scalar_blocks_stream fb c (inbuf.drop fr.inp) hpos henc n (fresh fr.iv (n * c.blocksize))
    hlen rfl (Nat.le_refl _) (by rw [List.length_drop]; simp only [fresh]; omega)] at hc
  have hfresh : regs_of (fresh fr.iv (n * c.blocksize)) = bare (regs_of fr) := by
    simp [regs_of, bare, fresh, hu]
  have hinp : (fresh fr.iv (n * c.blocksize)).inp = 0 := rfl
  rw [hfresh, hinp, hB] at hc
  simp only [Option.map_some', Option.some.injEq, put] at hc
  obtain ⟨b1, b2⟩ := stream_bare fb c (seg inbuf fr.inp (n * c.blocksize)) (regs_of fr)
  have b3 := congrArg (fun r : cfb_regs => r.iv) b1
  simp only [bare] at b3
  refine ⟨⟨(stream fb c (bare (regs_of fr)) (seg inbuf fr.inp (n * c.blocksize))).iv,
    fr.lastiv, fr.unused, fr.inp + n * c.blocksize, fr.inbuflen - n * c.blocksize,
    fr.out ++ (stream fb c (bare (regs_of fr)) (seg inbuf fr.inp (n * c.blocksize))).out,
    fr.calls⟩, ?_, b3.symm, rfl, hu, rfl, rfl, b2.symm, rfl⟩
  simp only [bulk_blocks, hn]
  rw [if_neg (by omega), hc, usub_eq hnle]
  rfl

/-- The accelerated path when a short block remains after the whole blocks: the
final step saves the register on which the most recent block encryption
operates. -/
theorem rest_bulk_lastiv (fb : Nat → Nat → Nat) (c : gcry_cipher_handle) (inbuf : List Nat)
    (f : bulk_fn) (hpos : 0 < c.blocksize)
    (henc : ∀ x : List Nat, x.length = c.blocksize → (c.encrypt x).length = c.blocksize)
    (hf : meets_contract (fb_stmt fb) c f) (fr : cfb_frame)
    (hlen : fr.iv.length = c.blocksize) (hlast : fr.lastiv.length = c.blocksize)
    (hu : fr.unused = 0) (hin : fr.inp + fr.inbuflen = inbuf.length)
    (hrem0 : fr.inbuflen % c.blocksize ≠ 0) :
    ∃ s : cfb_regs,
      (bulk_blocks f c inbuf fr >>= last_block (fb_stmt fb) c inbuf
          >>= tail_bytes (fb_stmt fb) c inbuf) = some (put s inbuf.length 0) ∧
      (stream fb c (regs_of fr) (inbuf.drop fr.inp)).calls.getLast? = some s.lastiv := by
  obtain ⟨g, hg, g1, g2, g3, g4, g5, g6, -⟩ :=
    bulk_blocks_stream fb c inbuf f hpos henc hf fr hlen hu hin
  have hnle : fr.inbuflen / c.blocksize * c.blocksize ≤ fr.inbuflen := Nat.div_mul_le_self _ _
  have hmod : fr.inbuflen % c.blocksize
      = fr.inbuflen - fr.inbuflen / c.blocksize * c.blocksize := by
    rw [Nat.mod_def, Nat.mul_comm]
  have hrem : fr.inbuflen - fr.inbuflen / c.blocksize * c.blocksize < c.blocksize := by
    rw [← hmod]; exact Nat.mod_lt _ hpos
  rw [hmod] at hrem0
  generalize fr.inbuflen / c.blocksize = n at g1 g4 g5 g6 hnle hrem hrem0
  have hBlen : (seg inbuf fr.inp (n * c.blocksize)).length = n * c.blocksize :=
    seg_length _ _ _ (by omega)
  obtain ⟨k1, k2⟩ := stream_blocks fb c hpos henc n (seg inbuf fr.inp (n * c.blocksize))
    (regs_of fr) hlen hu hBlen
  have hl : last_block (fb_stmt fb) c inbuf g = some g := by
    simp only [last_block]; rw [if_neg (by omega)]
  have hseg : (seg inbuf g.inp g.inbuflen).length = g.inbuflen := seg_length _ _ _ (by omega)
  have hne : seg inbuf g.inp g.inbuflen ≠ [] := by
    intro h; rw [h] at hseg; simp at hseg; omega
  rw [hg, Option.bind_eq_bind, Option.some_bind, hl, Option.some_bind,
    tail_bytes_stream fb c inbuf g hpos henc (by rw [g1]; exact k2) (by rw [g2]; exact hlast)
      g3 (by omega) (by omega)]
  rw [show g.inp + g.inbuflen = inbuf.length by omega]
  refine ⟨_, rfl, ?_⟩
  have hT : stream fb c (regs_of fr) (inbuf.drop fr.inp) =
      stream fb c (stream fb c (regs_of fr) (seg inbuf fr.inp (n * c.blocksize)))
        (seg inbuf g.inp g.inbuflen) := by
    rw [← stream_append, seg_all inbuf g.inp _ (by omega), g4, seg_append_drop]
  obtain ⟨-, s2, -, -⟩ := stream_fresh fb c (regs_of g) _ hpos henc
    (by show g.iv.length = _; rw [g1]; exact k2) g3 hne (by rw [hseg]; omega)
  obtain ⟨-, -, t3, -⟩ := stream_fresh fb c
    (stream fb c (regs_of fr) (seg inbuf fr.inp (n * c.blocksize))) _ hpos henc k2 k1 hne
    (by rw [hseg]; omega)
  rw [hT, t3, List.getLast?_concat, s2]
  show some _ = some g.iv
  rw [g1]

/-- Along the stream, once a block was encrypted the saved register is the
register on which the most recent block encryption operated. -/
theorem stream_lastiv_is_last (fb : Nat → Nat → Nat) (c : gcry_cipher_handle) :
    ∀ (bytes : List Nat) (s : cfb_regs),
      (s.calls ≠ [] → s.calls.getLast? = some s.lastiv) →
      (stream fb c s bytes).calls ≠ [] →
      (stream fb c s bytes).calls.getLast? = some (stream fb c s bytes).lastiv
  | [], _, h, hne => h hne
  | b :: rest, s, h, hne => by
    rw [stream_cons] at hne ⊢
    apply stream_lastiv_is_last fb c rest (feed fb c s b) _ hne
    by_cases h0 : s.unused = 0
    · intro _
      simp only [feed, h0, if_true, absorb, refill, List.getLast?_concat]
    · simp only [feed, h0, if_false, absorb]
      exact h

/-- The saved register after a successful call.  Unless an accelerator processes
the end of the input, it is the register on which the most recent block
encryption of the call operated (if there was one); when an accelerator does,
it is left as it was. -/
theorem cfb_crypt_saved_register (fb : Nat → Nat → Nat) (bulk : Option bulk_fn)
    (c : gcry_cipher_handle) (outbuflen : Nat) (inbuf : List Nat) (hwf : well_formed c)
    (hbulk : ∀ f, bulk = some f → meets_contract (fb_stmt fb) c f)
    (hcap : inbuf.length ≤ outbuflen) :
    ∃ r : cfb_result, cfb_crypt (fb_stmt fb) bulk c outbuflen inbuf = some r ∧ r.rc = 0 ∧
      (bulk = none → r.enc_calls = (stream fb c (regs_in c) inbuf).calls) ∧
      (¬ bulk_takes_end bulk c inbuf →
        ∀ R, last_encrypted fb c inbuf = some R → r.c.lastiv = R) ∧
      (bulk_takes_end bulk c inbuf → r.c.lastiv = c.lastiv) := by
  have hscalar := cfb_crypt_scalar fb c outbuflen inbuf hwf hcap
  have hlast : ∀ R, last_encrypted fb c inbuf = some R →
      (stream fb c (regs_in c) inbuf).lastiv = R := by
    intro R hR
    unfold last_encrypted at hR
    have hne : (stream fb c (regs_in c) inbuf).calls ≠ [] := by
      intro h; rw [h] at hR; simp at hR
    have h := stream_lastiv_is_last fb c inbuf (regs_in c)
      (fun h => absurd rfl h) hne
    rw [hR] at h
    exact (Option.some.inj h).symm
  by_cases hend : bulk_takes_end bulk c inbuf
  · obtain ⟨h1, h2, h3⟩ := hend
    cases bulk with
    | none => exact absurd rfl h1
    | some f =>
      obtain ⟨r, hr, r1, r2, -⟩ := cfb_crypt_bulk_whole fb f c outbuflen inbuf hwf h3
        (by omega) hcap
      exact ⟨r, hr, r1, (fun h => by cases h), fun h => absurd ⟨h1, h2, h3⟩ h, fun _ => r2⟩
  · by_cases hnb : bulk = none ∨ inbuf.length ≤ c.unused ∨
        inbuf.length - c.unused < c.blocksize + c.blocksize
    · have hcall : cfb_crypt (fb_stmt fb) bulk c outbuflen inbuf =
          some (done c (stream fb c (regs_in c) inbuf)) := by
        cases hnb with
        | inl h => rw [h]; exact hscalar
        | inr h => rw [cfb_crypt_no_bulk fb bulk c outbuflen inbuf hwf h]; exact hscalar
      exact ⟨_, hcall, rfl, fun _ => rfl, fun _ R hR => hlast R hR, fun h => absurd h hend⟩
    · cases bulk with
      | none => exact absurd (Or.inl rfl) hnb
      | some f =>
        have h2b : c.blocksize + c.blocksize ≤ inbuf.length - c.unused := by omega
        have hs : ¬ inbuf.length ≤ c.unused := by omega
        have hrem : (inbuf.length - c.unused) % c.blocksize ≠ 0 := by
          intro h
          exact hend ⟨by simp, by omega, h⟩
        obtain ⟨hpos, hlen, hlastl, hult, henc⟩ := hwf
        have hin : (enter c inbuf).inp + (enter c inbuf).unused ≤ inbuf.length := by
          simp only [enter]; omega
        have hseg := seg_length inbuf _ _ hin
        obtain ⟨p1, p2, -, p4⟩ := stream_pending fb c
          (seg inbuf (enter c inbuf).inp (enter c inbuf).unused) (regs_of (enter c inbuf))
          (by rw [hseg]; exact Nat.le_refl _)
        rw [hseg] at p1
        have hdrain := drain_unused_stream fb c inbuf (enter c inbuf) hlen (Nat.le_of_lt hult)
          (by simp only [enter]; omega) hin
        obtain ⟨s, e1, e2⟩ := rest_bulk_lastiv fb c inbuf f hpos henc (hbulk f rfl)
          (put (stream fb c (regs_of (enter c inbuf))
              (seg inbuf (enter c inbuf).inp (enter c inbuf).unused))
            ((enter c inbuf).inp + (enter c inbuf).unused)
            ((enter c inbuf).inbuflen - (enter c inbuf).unused))
          (by simp only [put]; rw [p4]; exact hlen)
          (by simp only [put]; rw [p2]; exact hlastl)
          (by simp only [put]; rw [p1]; simp [regs_of])
          (by simp only [put, enter]; omega)
          (by simp only [put, enter]; exact hrem)
        have hT : stream fb c (regs_of (put (stream fb c (regs_of (enter c inbuf))
              (seg inbuf (enter c inbuf).inp (enter c inbuf).unused))
            ((enter c inbuf).inp + (enter c inbuf).unused)
            ((enter c inbuf).inbuflen - (enter c inbuf).unused)))
            (inbuf.drop (put (stream fb c (regs_of (enter c inbuf))
              (seg inbuf (enter c inbuf).inp (enter c inbuf).unused))
            ((enter c inbuf).inp + (enter c inbuf).unused)
            ((enter c inbuf).inbuflen - (enter c inbuf).unused)).inp)
            = stream fb c (regs_in c) inbuf := by
          have h5 : regs_of (put (stream fb c (regs_of (enter c inbuf))
              (seg inbuf (enter c inbuf).inp (enter c inbuf).unused))
            ((enter c inbuf).inp + (enter c inbuf).unused)
            ((enter c inbuf).inbuflen - (enter c inbuf).unused))
            = stream fb c (regs_of (enter c inbuf))
              (seg inbuf (enter c inbuf).inp (enter c inbuf).unused) := rfl
          rw [h5]
          simp only [put]
          rw [← stream_append, seg_append_drop]
          rfl
        rw [hT] at e2
        refine ⟨done c s, ?_, rfl, (fun h => by cases h), ?_, fun h => absurd h hend⟩
        · unfold cfb_crypt
          rw [if_neg (by omega), if_neg hs, hdrain]
          simp only [Option.bind_eq_bind, Option.some_bind]
          rw [whole_blocks_bulk _ _ _ _ _ (by simp only [put, enter]; exact h2b)]
          simp only [Option.bind_eq_bind] at e1
          rw [e1]
          simp only [Option.map_some', leave_put]
        · intro _ R hR
          unfold last_encrypted at hR
          rw [e2] at hR
          exact Option.some.inj hR

/-- C12, as stated, fails on the accelerated path: on the toy handle with the
reference accelerators, Encrypt of two whole blocks succeeds and leaves the
saved register at its initial value `[7,7,7,7]`, although two block encryptions
took place inside the accelerator, the most recent one on the register
`[0,3,2,5]`. -/
theorem C12_counterexample :
    (_gcry_cipher_cfb_encrypt (toy_bulk [0, 0, 0, 0] [7, 7, 7, 7] 0) 8
        [1, 2, 3, 4, 5, 6, 7, 8]).map (fun r => (r.rc, r.c.lastiv)) = some (0, [7, 7, 7, 7]) ∧
    (scalar_blocks enc_xor_byte (toy [0, 0, 0, 0] [7, 7, 7, 7] 0) [1, 2, 3, 4, 5, 6, 7, 8] 2
        (fresh [0, 0, 0, 0] 8)).map (fun fr => fr.calls) = some [[0, 0, 0, 0], [0, 3, 2, 5]] ∧
    last_encrypted fb_enc (toy_bulk [0, 0, 0, 0] [7, 7, 7, 7] 0) [1, 2, 3, 4, 5, 6, 7, 8]
      = some [0, 3, 2, 5] := by
  decide

/-- C12, amended. On a well-formed handle, with no accelerator or with
accelerators that meet their contract, after every successful Encrypt or
Decrypt call in which at least one block encryption takes place, the saved
register equals the register on which the most recent block encryption
operated, except when an accelerator processes the end of the input (it is
installed and the input after the pending keystream is a whole number of
blocks, of at least two); in that case the saved register is left as it was
before the call.  With no accelerator the most recent block encryption is the
last entry of the log of the call. -/
theorem C12_saved_register (c : gcry_cipher_handle) (outbuflen : Nat) (inbuf : List Nat)
    (hwf : well_formed c) (hb : bulk_ok c) (hcap : inbuf.length ≤ outbuflen) :
    ∃ re rd : cfb_result,
      _gcry_cipher_cfb_encrypt c outbuflen inbuf = some re ∧ re.rc = 0 ∧
      _gcry_cipher_cfb_decrypt c outbuflen inbuf = some rd ∧ rd.rc = 0 ∧
      (c.cfb_enc = none → ∀ R, re.enc_calls.getLast? = some R → re.c.lastiv = R) ∧
      (c.cfb_dec = none → ∀ R, rd.enc_calls.getLast? = some R → rd.c.lastiv = R) ∧
      (¬ bulk_takes_end c.cfb_enc c inbuf →
        ∀ R, last_encrypted fb_enc c inbuf = some R → re.c.lastiv = R) ∧
      (¬ bulk_takes_end c.cfb_dec c inbuf →
        ∀ R, last_encrypted fb_dec c inbuf = some R → rd.c.lastiv = R) ∧
      (bulk_takes_end c.cfb_enc c inbuf → re.c.lastiv = c.lastiv) ∧
      (bulk_takes_end c.cfb_dec c inbuf → rd.c.lastiv = c.lastiv) := by
  obtain ⟨re, he, e1, e2, e3, e4⟩ := cfb_crypt_saved_register fb_enc c.cfb_enc c outbuflen
    inbuf hwf (bulk_ok_enc c hb) hcap
  obtain ⟨rd, hd, d1, d2, d3, d4⟩ := cfb_crypt_saved_register fb_dec c.cfb_dec c outbuflen
    inbuf hwf (bulk_ok_dec c hb) hcap
  refine ⟨re, rd, ?_, e1, ?_, d1, ?_, ?_, e3, d3, e4, d4⟩
  · unfold _gcry_cipher_cfb_encrypt; rw [enc_xor_byte_eq]; exact he
  · unfold _gcry_cipher_cfb_decrypt; rw [dec_xor_byte_eq]; exact hd
  · intro hn R hR
    rw [e2 hn] at hR
    exact e3 (fun h => h.1 hn) R hR
  · intro hn R hR
    rw [d2 hn] at hR
    exact d3 (fun h => h.1 hn) R hR

theorem toy_bulk_meets (iv lastiv : List Nat) (unused : Nat) (h1 : iv.length = 4)
    (h2 : lastiv.length = 4) (h3 : unused < 4) : bulk_ok (toy_bulk iv lastiv unused) := by
  have hwf := toy_well_formed iv lastiv unused h1 h2 h3
  constructor
  · intro f hf
    have h : f = scalar_bulk enc_xor_byte (toy iv lastiv unused) := by
      simp only [toy_bulk, Option.some.injEq] at hf
      exact hf.symm
    rw [h]
    exact meets_contract_static enc_xor_byte (toy iv lastiv unused) (toy_bulk iv lastiv unused)
      rfl rfl _ (scalar_bulk_enc_ok _ hwf)
  · intro f hf
    have h : f = scalar_bulk dec_xor_byte (toy iv lastiv unused) := by
      simp only [toy_bulk, Option.some.injEq] at hf
      exact hf.symm
    rw [h]
    exact meets_contract_static dec_xor_byte (toy iv lastiv unused) (toy_bulk iv lastiv unused)
      rfl rfl _ (scalar_bulk_dec_ok _ hwf)

/-- Witness of C12 on the toy handle with the reference accelerators and nine
bytes of input (two blocks for the accelerator and one byte for the final
step). -/
theorem C12_saved_register_witness :
    ∃ re rd : cfb_result,
      _gcry_cipher_cfb_encrypt (toy_bulk [0, 0, 0, 0] [7, 7, 7, 7] 0) 9
        [1, 2, 3, 4, 5, 6, 7, 8, 9] = some re ∧ re.rc = 0 ∧
      _gcry_cipher_cfb_decrypt (toy_bulk [0, 0, 0, 0] [7, 7, 7, 7] 0) 9
        [1, 2, 3, 4, 5, 6, 7, 8, 9] = some rd ∧ rd.rc = 0 ∧
      ((toy_bulk [0, 0, 0, 0] [7, 7, 7, 7] 0).cfb_enc = none →
        ∀ R, re.enc_calls.getLast? = some R → re.c.lastiv = R) ∧
      ((toy_bulk [0, 0, 0, 0] [7, 7, 7, 7] 0).cfb_dec = none →
        ∀ R, rd.enc_calls.getLast? = some R → rd.c.lastiv = R) ∧
      (¬ bulk_takes_end (toy_bulk [0, 0, 0, 0] [7, 7, 7, 7] 0).cfb_enc
          (toy_bulk [0, 0, 0, 0] [7, 7, 7, 7] 0) [1, 2, 3, 4, 5, 6, 7, 8, 9] →
        ∀ R, last_encrypted fb_enc (toy_bulk [0, 0, 0, 0] [7, 7, 7, 7] 0)
          [1, 2, 3, 4, 5, 6, 7, 8, 9] = some R → re.c.lastiv = R) ∧
      (¬ bulk_takes_end (toy_bulk [0, 0, 0, 0] [7, 7, 7, 7] 0).cfb_dec
          (toy_bulk [0, 0, 0, 0] [7, 7, 7, 7] 0) [1, 2, 3, 4, 5, 6, 7, 8, 9] →
        ∀ R, last_encrypted fb_dec (toy_bulk [0, 0, 0, 0] [7, 7, 7, 7] 0)
          [1, 2, 3, 4, 5, 6, 7, 8, 9] = some R → rd.c.lastiv = R) ∧
      (bulk_takes_end (toy_bulk [0, 0, 0, 0] [7, 7, 7, 7] 0).cfb_enc
          (toy_bulk [0, 0, 0, 0] [7, 7, 7, 7] 0) [1, 2, 3, 4, 5, 6, 7, 8, 9] →
        re.c.lastiv = (toy_bulk [0, 0, 0, 0] [7, 7, 7, 7] 0).lastiv) ∧
      (bulk_takes_end (toy_bulk [0, 0, 0, 0] [7, 7, 7, 7] 0).cfb_dec
          (toy_bulk [0, 0, 0, 0] [7, 7, 7, 7] 0) [1, 2, 3, 4, 5, 6, 7, 8, 9] →
        rd.c.lastiv = (toy_bulk [0, 0, 0, 0] [7, 7, 7, 7] 0).lastiv) :=
  C12_saved_register (toy_bulk [0, 0, 0, 0] [7, 7, 7, 7] 0) 9 [1, 2, 3, 4, 5, 6, 7, 8, 9]
    (toy_bulk_well_formed _ _ _ rfl rfl (by decide))
    (toy_bulk_meets _ _ _ rfl rfl (by decide)) (by decide)

/-! ## The state machine of the pending count -/

theorem reset_value (bs m : Nat) (hpos : 0 < bs) :
    (bs - m % bs) % bs = if m % bs = 0 then 0 else bs - m % bs := by
  have hlt := Nat.mod_lt m hpos
  by_cases h : m % bs = 0
  · rw [if_pos h, h, Nat.sub_zero, Nat.mod_self]
  · rw [if_neg h, Nat.mod_eq_of_lt (by omega)]

theorem unused_after_transition (bs u n : Nat) (hpos : 0 < bs) :
    call_transition bs u n (unused_after bs u n) := by
  unfold call_transition unused_after
  by_cases h1 : n ≤ u
  · rw [if_pos h1]
    by_cases h2 : u = 0
    · have hn : n = 0 := by omega
      left
      exact ⟨h2, by omega, by rw [hn]; exact Nat.zero_mod _⟩
    · by_cases h3 : n = u
      · right; right; right; right
        exact ⟨by omega, by omega, Or.inl h3⟩
      · right; right; left
        exact ⟨by omega, by omega, by omega, rfl⟩
  · rw [if_neg h1, reset_value bs (n - u) hpos]
    have hlt := Nat.mod_lt (n - u) hpos
    by_cases h2 : u = 0
    · rw [h2, Nat.sub_zero] at hlt ⊢
      by_cases h3 : n % bs = 0
      · rw [if_pos h3]
        left
        exact ⟨rfl, rfl, h3⟩
      · rw [if_neg h3]
        right; left
        exact ⟨rfl, by omega, h3, rfl⟩
    · by_cases h3 : (n - u) % bs = 0
      · rw [if_pos h3]
        right; right; right; right
        exact ⟨by omega, rfl, Or.inr ⟨by omega, h3⟩⟩
      · rw [if_neg h3]
        right; right; right; left
        exact ⟨by omega, by omega, by omega, h3, rfl⟩

/-- C16, as stated, fails: on the toy handle with three bytes pending, Encrypt
of three bytes succeeds and ends with nothing pending, a transition from
PartialPending to Idle, which is none of the three listed; and Encrypt of the
empty input with nothing pending is an Idle to Idle call that consumes no
block. -/
theorem C16_counterexample :
    (_gcry_cipher_cfb_encrypt (toy [4, 1, 1, 1] [0, 0, 0, 0] 3) 3 [9, 9, 9]).map
      (fun r => (r.rc, r.c.unused)) = some (0, 0) ∧
    ¬ listed_transition 3 0 ∧
    (_gcry_cipher_cfb_encrypt (toy [0, 0, 0, 0] [0, 0, 0, 0] 0) 0 []).map
      (fun r => (r.rc, r.c.unused, r.enc_calls)) = some (0, 0, []) := by
  refine ⟨by decide, ?_, by decide⟩
  unfold listed_transition
  omega

/-- C16, amended. Writing Idle for `unused = 0` and PartialPending for
`unused > 0`, every successful Encrypt or Decrypt call of `n` bytes on a
well-formed handle (no accelerator, or accelerators that meet their contract)
takes the state along one of: Idle to Idle, where `n` is a whole number of
blocks (zero for the empty input); Idle to PartialPending, with the count reset
to `bs - n mod bs`; PartialPending to PartialPending, with the count decreased
by `n < u` or reset to `bs - (n - u) mod bs`; or PartialPending to Idle, where
the input ends with the pending keystream (`n = u`) or a whole number of blocks
after it. -/
theorem C16_state_transitions (c : gcry_cipher_handle) (outbuflen : Nat) (inbuf : List Nat)
    (hwf : well_formed c) (hb : bulk_ok c) (hcap : inbuf.length ≤ outbuflen) :
    ∃ re rd : cfb_result,
      _gcry_cipher_cfb_encrypt c outbuflen inbuf = some re ∧ re.rc = 0 ∧
      _gcry_cipher_cfb_decrypt c outbuflen inbuf = some rd ∧ rd.rc = 0 ∧
      call_transition c.blocksize c.unused inbuf.length re.c.unused ∧
      call_transition c.blocksize c.unused inbuf.length rd.c.unused := by
  obtain ⟨se, he, -, e2, -, -⟩ := encrypt_stream c outbuflen inbuf hwf hb hcap
  obtain ⟨sd, hd, -, d2, -, -⟩ := decrypt_stream c outbuflen inbuf hwf hb hcap
  have h1 : (done c se).c.unused = unused_after c.blocksize c.unused inbuf.length := by
    show se.unused = _
    rw [e2, stream_unused fb_enc c hwf.pos]; rfl
  have h2 : (done c sd).c.unused = unused_after c.blocksize c.unused inbuf.length := by
    show sd.unused = _
    rw [d2, stream_unused fb_dec c hwf.pos]; rfl
  refine ⟨done c se, done c sd, he, rfl, hd, rfl, ?_, ?_⟩
  · rw [h1]; exact unused_after_transition _ _ _ hwf.pos
  · rw [h2]; exact unused_after_transition _ _ _ hwf.pos

/-- Witness of C16 on the toy handle with three bytes pending and three bytes
of input. -/
theorem C16_state_transitions_witness :
    ∃ re rd : cfb_result,
      _gcry_cipher_cfb_encrypt (toy [4, 1, 1, 1] [0, 0, 0, 0] 3) 3 [9, 9, 9] = some re ∧
      re.rc = 0 ∧
      _gcry_cipher_cfb_decrypt (toy [4, 1, 1, 1] [0, 0, 0, 0] 3) 3 [9, 9, 9] = some rd ∧
      rd.rc = 0 ∧
      call_transition (toy [4, 1, 1, 1] [0, 0, 0, 0] 3).blocksize
        (toy [4, 1, 1, 1] [0, 0, 0, 0] 3).unused [9, 9, 9].length re.c.unused ∧
      call_transition (toy [4, 1, 1, 1] [0, 0, 0, 0] 3).blocksize
        (toy [4, 1, 1, 1] [0, 0, 0, 0] 3).unused [9, 9, 9].length rd.c.unused :=
  C16_state_transitions (toy [4, 1, 1, 1] [0, 0, 0, 0] 3) 3 [9, 9, 9]
    (toy_well_formed _ _ _ rfl rfl (by decide)) (toy_bulk_ok _ _ _) (by decide)

/-! ## Index and arithmetic safety -/

/-- A call on the scalar path runs the byte stream over the input also when a
whole block of keystream is pending (`unused = blocksize`). -/
theorem cfb_crypt_scalar_le (fb : Nat → Nat → Nat) (c : gcry_cipher_handle) (outbuflen : Nat)
    (inbuf : List Nat) (hpos : 0 < c.blocksize) (hlen : c.iv.length = c.blocksize)
    (hlast : c.lastiv.length = c.blocksize) (hule : c.unused ≤ c.blocksize)
    (henc : ∀ x : List Nat, x.length = c.blocksize → (c.encrypt x).length = c.blocksize)
    (hcap : inbuf.length ≤ outbuflen) :
    cfb_crypt (fb_stmt fb) none c outbuflen inbuf =
      some (done c (stream fb c (regs_in c) inbuf)) := by
  unfold cfb_crypt
  rw [if_neg (by omega)]
  by_cases hs : inbuf.length ≤ c.unused
  · rw [if_pos hs, short_input_stream fb c inbuf (enter c inbuf) hlen hule hs
      (by simp [enter])]
    simp only [Option.map_some', leave_put]
    have h1 : regs_of (enter c inbuf) = regs_in c := rfl
    have h2 : seg inbuf (enter c inbuf).inp (enter c inbuf).inbuflen = inbuf := seg_zero_all inbuf
    rw [h1, h2]
  · rw [if_neg hs]
    have hin : (enter c inbuf).inp + (enter c inbuf).unused ≤ inbuf.length := by
      simp only [enter]; omega
    have hseg := seg_length inbuf _ _ hin
    obtain ⟨h1, h2, -, h4⟩ := stream_pending fb c
      (seg inbuf (enter c inbuf).inp (enter c inbuf).unused) (regs_of (enter c inbuf))
      (by rw [hseg]; exact Nat.le_refl _)
    rw [hseg] at h1
    rw [drain_unused_stream fb c inbuf (enter c inbuf) hlen hule
      (by simp only [enter]; omega) hin]
    simp only [Option.bind_eq_bind, Option.some_bind, whole_blocks_none]
    have hcomp := rest_scalar_stream fb c inbuf hpos henc
      (put (stream fb c (regs_of (enter c inbuf))
          (seg inbuf (enter c inbuf).inp (enter c inbuf).unused))
        ((enter c inbuf).inp + (enter c inbuf).unused)
        ((enter c inbuf).inbuflen - (enter c inbuf).unused)).inbuflen
      (put (stream fb c (regs_of (enter c inbuf))
          (seg inbuf (enter c inbuf).inp (enter c inbuf).unused))
        ((enter c inbuf).inp + (enter c inbuf).unused)
        ((enter c inbuf).inbuflen - (enter c inbuf).unused))
      (by simp only [put]; rw [h4]; exact hlen)
      (by simp only [put]; rw [h2]; exact hlast)
      (by simp only [put]; rw [h1]; simp [regs_of])
      (by simp only [put, enter]; omega)
      (Nat.le_refl _)
    simp only [Option.bind_eq_bind] at hcomp
    rw [hcomp]
    simp only [Option.map_some', leave_put]
    have h5 : regs_of (put (stream fb c (regs_of (enter c inbuf))
          (seg inbuf (enter c inbuf).inp (enter c inbuf).unused))
        ((enter c inbuf).inp + (enter c inbuf).unused)
        ((enter c inbuf).inbuflen - (enter c inbuf).unused))
        = stream fb c (regs_of (enter c inbuf))
          (seg inbuf (enter c inbuf).inp (enter c inbuf).unused) := rfl
    rw [h5]
    simp only [put]
    rw [← stream_append, seg_append_drop]
    rfl

/-- The checks of the model are live: with more than one block of keystream
pending the first register access is below the register, and with block size 0
the `while` loop does not terminate; the model returns `none` in both cases. -/
theorem checked_model_faults :
    (_gcry_cipher_cfb_encrypt (toy [0, 0, 0, 0] [0, 0, 0, 0] 5) 1 [1]).map
      (fun r => r.rc) = none ∧
    (_gcry_cipher_cfb_decrypt { toy [] [] 0 with blocksize := 0 } 1 [1]).map
      (fun r => r.rc) = none := by
  decide

/-- C20. Index and arithmetic safety: on a handle with block size `bs >= 1`,
registers of `bs` bytes, `0 <= unused <= bs` and no accelerator, every call of
Encrypt or Decrypt with `outbuflen >= inbuflen` runs to `return 0` without a
fault of the checked model, that is: every register index read or written lies
in `[0, bs)`, every input index read lies in `[0, inbuflen)`, neither
`inbuflen -= c->unused`, `inbuflen -= blocksize` nor `c->unused -= inbuflen`
wraps, and the `while` loop terminates; exactly `inbuflen` output bytes are
stored, at the consecutive indices `0, ..., inbuflen - 1`. -/
theorem C20_index_safety (c : gcry_cipher_handle) (outbuflen : Nat) (inbuf : List Nat)
    (hpos : 1 ≤ c.blocksize) (hlen : c.iv.length = c.blocksize)
    (hlast : c.lastiv.length = c.blocksize) (hule : c.unused ≤ c.blocksize)
    (henc : ∀ x : List Nat, x.length = c.blocksize → (c.encrypt x).length = c.blocksize)
    (hacc_e : c.cfb_enc = none) (hacc_d : c.cfb_dec = none)
    (hcap : inbuf.length ≤ outbuflen) :
    ∃ re rd : cfb_result,
      _gcry_cipher_cfb_encrypt c outbuflen inbuf = some re ∧ re.rc = 0 ∧
      re.outbuf.length = inbuf.length ∧
      _gcry_cipher_cfb_decrypt c outbuflen inbuf = some rd ∧ rd.rc = 0 ∧
      rd.outbuf.length = inbuf.length := by
  have he := cfb_crypt_scalar_le fb_enc c outbuflen inbuf hpos hlen hlast hule henc hcap
  have hd := cfb_crypt_scalar_le fb_dec c outbuflen inbuf hpos hlen hlast hule henc hcap
  refine ⟨done c (stream fb_enc c (regs_in c) inbuf), done c (stream fb_dec c (regs_in c) inbuf),
    ?_, rfl, ?_, ?_, rfl, ?_⟩
  · unfold _gcry_cipher_cfb_encrypt; rw [hacc_e, enc_xor_byte_eq]; exact he
  · show (stream fb_enc c (regs_in c) inbuf).out.length = _
    rw [stream_out_length]; simp [regs_in]
  · unfold _gcry_cipher_cfb_decrypt; rw [hacc_d, dec_xor_byte_eq]; exact hd
  · show (stream fb_dec c (regs_in c) inbuf).out.length = _
    rw [stream_out_length]; simp [regs_in]

/-- Witness of C20 on the toy handle with a whole block of keystream pending
(`unused = blocksize`) and ten bytes of input. -/
theorem C20_index_safety_witness :
    ∃ re rd : cfb_result,
      _gcry_cipher_cfb_encrypt (toy [1, 1, 1, 1] [0, 0, 0, 0] 4) 10
        [1, 2, 3, 4, 5, 6, 7, 8, 9, 10] = some re ∧ re.rc = 0 ∧
      re.outbuf.length = [1, 2, 3, 4, 5, 6, 7, 8, 9, 10].length ∧
      _gcry_cipher_cfb_decrypt (toy [1, 1, 1, 1] [0, 0, 0, 0] 4) 10
        [1, 2, 3, 4, 5, 6, 7, 8, 9, 10] = some rd ∧ rd.rc = 0 ∧
      rd.outbuf.length = [1, 2, 3, 4, 5, 6, 7, 8, 9, 10].length :=
  C20_index_safety (toy [1, 1, 1, 1] [0, 0, 0, 0] 4) 10 [1, 2, 3, 4, 5, 6, 7, 8, 9, 10]
    (by decide) rfl rfl (by decide)
    (by intro x hx; simp only [toy, List.length_map]; exact hx) rfl rfl (by decide)

end CipherCfb
